import Mathlib

/-!
# Verification of the ALPIDE raw pixel codec (`RawPixelReader.h`)

A shallow embedding of the encoder/decoder of
`ITSMFTReconstruction/RawPixelReader.h` (ALICE O2).  Pure fragments of the
source are translated into executable Lean definitions; the stateful
encode/decode loops become explicit state-passing functions.  Components whose
code is not part of the repository snapshot (the `RAWDataHeader` byte layout,
the GBT word layout, the ALPIDE chip codec, the chip mapping tables and the
trigger-type constants) are modelled from the specification, as indicated in
their doc comments.
-/

namespace RawPix

/-- `MaxLinksPerRU` from the source: max number of GBT links per RU. -/
def MaxLinksPerRU : Nat := 3

/-- `MaxCablesPerRU` from the source: max number of cables an RU can read out. -/
def MaxCablesPerRU : Nat := 28

/-- `MaxChipsPerRU` from the source. -/
def MaxChipsPerRU : Nat := 196

/-- `MaxGBTPacketBytes` from the source: max size of a GBT packet (8 KB). -/
def MaxGBTPacketBytes : Nat := 8 * 1024

/-- `NCRUPagesPerSuperpage` from the source. -/
def NCRUPagesPerSuperpage : Nat := 256

/-- Modelled from the spec: `GBTPaddedWordLength` of `GBTWord.h` (absent from
the snapshot); a GBT word padded to 128 bits, i.e. 16 bytes. -/
def GBTPaddedWordLength : Nat := 16

/-- Modelled from the spec: `GBTWordLength` of `GBTWord.h` (absent from the
snapshot); a compact GBT word of 80 bits, i.e. 10 bytes. -/
def GBTWordLength : Nat := 10

/-- Modelled from the spec: `sizeof(o2::header::RAWDataHeader)`; the RDH is a
fixed-size 64-byte record (`headerSize` is 64 in all RDHs written by the
encoder, and `isRDHHeuristic` compares `headerSize` with this value). -/
def RDHSize : Nat := 64

/-- Modelled from the spec: trigger-type bit `o2::trigger::PhT`
(physics trigger) from `DetectorsBase/Triggers.h`, absent from the snapshot. -/
def trgPhT : Nat := 0x10

/-- Modelled from the spec: trigger-type bit `o2::trigger::SOT`
(start of triggered data) from `DetectorsBase/Triggers.h`. -/
def trgSOT : Nat := 0x80

/-- 32-bit complement, used for the `~lanesWithData` expression of the source
(lane masks are `uint32_t`). -/
def not32 (x : Nat) : Nat := x ^^^ 0xffffffff

/-- Modelled from the spec: the `o2::header::RAWDataHeader` record.  The field
list follows the fields the source reads and writes; the several must-be-zero
reserved words (`zero0`, `zero1`, `zero41`, `zero42`, `word5`, `zero6`) are
collapsed into the single `zeroFields` value that `isRDHHeuristic` compares
with zero. -/
structure RDH where
  headerSize : Nat := RDHSize
  blockLength : Nat := 0xffff
  feeId : Nat := 0
  linkID : Nat := 0
  pageCnt : Nat := 0
  stop : Nat := 0
  memorySize : Nat := 0
  offsetToNext : Nat := 0
  triggerOrbit : Nat := 0
  triggerBC : Nat := 0
  heartbeatOrbit : Nat := 0
  heartbeatBC : Nat := 0
  triggerType : Nat := 0
  detectorField : Nat := 0
  zeroFields : Nat := 0
  deriving Repr, DecidableEq

/-- The all-zero RDH: what a reinterpret-cast of zero-filled buffer bytes
yields. -/
def zeroRDH : RDH :=
  { headerSize := 0, blockLength := 0, feeId := 0, linkID := 0, pageCnt := 0,
    stop := 0, memorySize := 0, offsetToNext := 0, triggerOrbit := 0,
    triggerBC := 0, heartbeatOrbit := 0, heartbeatBC := 0, triggerType := 0,
    detectorField := 0, zeroFields := 0 }

/-- `RawPixelReader::isRDHHeuristic` (source lines 784-792): a pointer is
plausibly an RDH iff it is non-null, its `headerSize` equals
`sizeof(RAWDataHeader)` and all reserved fields are zero.  In the embedding
the "null pointer / non-RDH bytes" cases are handled by the callers passing
`zeroRDH` (which fails the `headerSize` test). -/
def isRDHHeuristic (rdh : RDH) : Bool :=
  rdh.headerSize == RDHSize && rdh.zeroFields == 0

/-- `RawPixelReader::isSameRUandTrigger` (source lines 1198-1211): the new RDH
continues the data of the old one iff its page counter is non-zero, the FEE id
and both interaction records match, and the trigger types share a bit. -/
def isSameRUandTrigger (rdhOld rdhNew : RDH) : Bool :=
  !(rdhNew.pageCnt == 0 || rdhNew.feeId != rdhOld.feeId ||
    rdhNew.triggerOrbit != rdhOld.triggerOrbit ||
    rdhNew.triggerBC != rdhOld.triggerBC ||
    rdhNew.heartbeatOrbit != rdhOld.heartbeatOrbit ||
    rdhNew.heartbeatBC != rdhOld.heartbeatBC ||
    (rdhNew.triggerType &&& rdhOld.triggerType) == 0)

/-- `RawPixelReader::setMinTriggersToCache` (source line 259):
`mMinTriggersToCache = n > NCRUPagesPerSuperpage ? n : NCRUPagesPerSuperpage + 1`.
The argument is a C `int`, hence `Int` here. -/
def setMinTriggersToCache (n : Int) : Int :=
  if n > (NCRUPagesPerSuperpage : Int) then n else (NCRUPagesPerSuperpage : Int) + 1

/-- The error counters of `RUDecodingStat::DecErrors` (source lines 72-84). -/
structure ErrorCounts where
  errPageCounterDiscontinuity : Nat := 0
  errRDHvsGBTHPageCnt : Nat := 0
  errMissingGBTHeader : Nat := 0
  errMissingGBTTrailer : Nat := 0
  errNonZeroPageAfterStop : Nat := 0
  errUnstoppedLanes : Nat := 0
  errDataForStoppedLane : Nat := 0
  errNoDataForActiveLane : Nat := 0
  errIBChipLaneMismatch : Nat := 0
  errCableDataHeadWrong : Nat := 0
  deriving Repr, DecidableEq

/-- All error counters of a `RUDecodingStat` are zero. -/
def ErrorCounts.allZero (e : ErrorCounts) : Bool :=
  e.errPageCounterDiscontinuity == 0 && e.errRDHvsGBTHPageCnt == 0 &&
  e.errMissingGBTHeader == 0 && e.errMissingGBTTrailer == 0 &&
  e.errNonZeroPageAfterStop == 0 && e.errUnstoppedLanes == 0 &&
  e.errDataForStoppedLane == 0 && e.errNoDataForActiveLane == 0 &&
  e.errIBChipLaneMismatch == 0 && e.errCableDataHeadWrong == 0

/-- `RUDecodingStat` (source lines 69-140): the lane masks and the error
counters (the packet-state histogram is kept as a list of registered packet
states). -/
structure RUDecodingStat where
  lanesActive : Nat := 0
  lanesStop : Nat := 0
  lanesTimeOut : Nat := 0
  lanesWithData : Nat := 0
  nPackets : Nat := 0
  errorCounts : ErrorCounts := {}
  packetStates : List Nat := []
  deriving Repr, DecidableEq

/-- The end-of-trigger checks of `RawPixelReader::decodeRUData`
(source lines 929-945, identical in `skimPaddedRUData` lines 1157-1173),
performed when the next RDH does not continue the current trigger:
an `ErrUnstoppedLanes` when not all active lanes received a stop (except when
the trigger type equals `o2::trigger::SOT` exactly), an
`ErrNoDataForActiveLane` when `(~lanesWithData & lanesActive) != lanesTimeOut`,
and the accumulation of the trailer packet state. -/
def endOfTriggerChecks (ruStat : RUDecodingStat) (triggerType : Nat)
    (packetState : Nat) : RUDecodingStat :=
  let s1 :=
    if ruStat.lanesActive != ruStat.lanesStop then
      if triggerType != trgSOT then
        { ruStat with errorCounts :=
          { ruStat.errorCounts with errUnstoppedLanes :=
              ruStat.errorCounts.errUnstoppedLanes + 1 } }
      else ruStat
    else ruStat
  let s2 :=
    if (not32 s1.lanesWithData &&& s1.lanesActive) != s1.lanesTimeOut then
      { s1 with errorCounts :=
        { s1.errorCounts with errNoDataForActiveLane :=
            s1.errorCounts.errNoDataForActiveLane + 1 } }
    else s1
  { s2 with packetStates := packetState :: s2.packetStates }

end RawPix

namespace RawPix

/-- Helper: whether `endOfTriggerChecks` increments `ErrNoDataForActiveLane`. -/
def raisesNoDataForActiveLane (ruStat : RUDecodingStat) (triggerType : Nat)
    (packetState : Nat) : Prop :=
  (endOfTriggerChecks ruStat triggerType packetState).errorCounts.errNoDataForActiveLane
    = ruStat.errorCounts.errNoDataForActiveLane + 1

/-- Helper: whether `endOfTriggerChecks` increments `ErrUnstoppedLanes`. -/
def raisesUnstoppedLanes (ruStat : RUDecodingStat) (triggerType : Nat)
    (packetState : Nat) : Prop :=
  (endOfTriggerChecks ruStat triggerType packetState).errorCounts.errUnstoppedLanes
    = ruStat.errorCounts.errUnstoppedLanes + 1

end RawPix

/-- C5: for every pair of consecutively decoded RDHs, `isSameRUandTrigger`
treats the new RDH as a continuation of the same trigger iff its `pageCnt` is
non-zero, `feeId`, `triggerOrbit`, `triggerBC`, `heartbeatOrbit` and
`heartbeatBC` all match, and the trigger types share at least one set bit. -/
theorem C5_isSameRUandTrigger_iff (rdhOld rdhNew : RawPix.RDH) :
    RawPix.isSameRUandTrigger rdhOld rdhNew = true ↔
      (rdhNew.pageCnt ≠ 0 ∧ rdhNew.feeId = rdhOld.feeId ∧
       rdhNew.triggerOrbit = rdhOld.triggerOrbit ∧
       rdhNew.triggerBC = rdhOld.triggerBC ∧
       rdhNew.heartbeatOrbit = rdhOld.heartbeatOrbit ∧
       rdhNew.heartbeatBC = rdhOld.heartbeatBC ∧
       rdhNew.triggerType &&& rdhOld.triggerType ≠ 0) := by
  simp [RawPix.isSameRUandTrigger]
  tauto

/-- C8: after `setMinTriggersToCache n` the effective minimum number of
triggers to cache is `max n (NCRUPagesPerSuperpage + 1)`: for
`n ≤ NCRUPagesPerSuperpage` it is `NCRUPagesPerSuperpage + 1`, and for larger
`n` it is `n` itself. -/
theorem C8_setMinTriggersToCache_max (n : Int) :
    RawPix.setMinTriggersToCache n =
      max n ((RawPix.NCRUPagesPerSuperpage : Int) + 1) ∧
    (n ≤ (RawPix.NCRUPagesPerSuperpage : Int) →
      RawPix.setMinTriggersToCache n = (RawPix.NCRUPagesPerSuperpage : Int) + 1) ∧
    ((RawPix.NCRUPagesPerSuperpage : Int) < n →
      RawPix.setMinTriggersToCache n = n) := by
  unfold RawPix.setMinTriggersToCache
  constructor
  · split <;> omega
  · constructor
    · intro h
      split <;> omega
    · intro h
      split <;> omega

/-- C4 counterexample: with `lanesActive = 0`, `lanesTimeOut = 1`,
`lanesWithData = 0` every lane in `lanesActive \ lanesTimeOut` is (vacuously)
in `lanesWithData`, yet the decoder increments `ErrNoDataForActiveLane`,
because the source compares `(~lanesWithData & lanesActive)` with
`lanesTimeOut` for equality rather than testing the subset relation. -/
theorem C4_counterexample :
    RawPix.raisesNoDataForActiveLane { lanesTimeOut := 1 } RawPix.trgPhT 0 ∧
      ({ lanesTimeOut := 1 : RawPix.RUDecodingStat }.lanesActive &&&
        RawPix.not32 1 &&& RawPix.not32 0) = 0 := by
  constructor
  · show (RawPix.endOfTriggerChecks _ _ _).errorCounts.errNoDataForActiveLane = _
    decide
  · decide

/-- C4 (amended): at end of a trigger the decoder increments
`ErrNoDataForActiveLane` iff `(~lanesWithData & lanesActive) != lanesTimeOut`
(32-bit masks); in particular the trigger type plays no role in this check
(there is no SOT exception for it). -/
theorem C4_noDataForActiveLane_iff (ruStat : RawPix.RUDecodingStat)
    (triggerType packetState : Nat) :
    RawPix.raisesNoDataForActiveLane ruStat triggerType packetState ↔
      (RawPix.not32 ruStat.lanesWithData &&& ruStat.lanesActive) ≠ ruStat.lanesTimeOut := by
  unfold RawPix.raisesNoDataForActiveLane RawPix.endOfTriggerChecks
  by_cases hA : ruStat.lanesActive ≠ ruStat.lanesStop <;>
    by_cases hT : triggerType ≠ RawPix.trgSOT <;>
      by_cases hN : (RawPix.not32 ruStat.lanesWithData &&& ruStat.lanesActive) ≠ ruStat.lanesTimeOut <;>
        simp [hA, hT, hN]

/-- C7 counterexample: for `triggerType = SOT ||| PhT` (the SOT bit set
together with another bit) and `lanesActive ≠ lanesStop`, the decoder still
increments `ErrUnstoppedLanes`, because the source compares the trigger type
with `o2::trigger::SOT` for exact equality instead of testing the SOT bit. -/
theorem C7_counterexample :
    RawPix.raisesUnstoppedLanes { lanesActive := 1 }
        (RawPix.trgSOT ||| RawPix.trgPhT) 0 ∧
      ((RawPix.trgSOT ||| RawPix.trgPhT) &&& RawPix.trgSOT) ≠ 0 := by
  constructor
  · show (RawPix.endOfTriggerChecks _ _ _).errorCounts.errUnstoppedLanes = _
    decide
  · decide

/-- C7 (amended): at end of a trigger the decoder increments
`ErrUnstoppedLanes` iff `lanesActive ≠ lanesStop` and the trigger type is not
*exactly equal* to `o2::trigger::SOT`; a trigger type that merely has the SOT
bit set (together with other bits) does not enjoy the exception. -/
theorem C7_unstoppedLanes_iff (ruStat : RawPix.RUDecodingStat)
    (triggerType packetState : Nat) :
    RawPix.raisesUnstoppedLanes ruStat triggerType packetState ↔
      (ruStat.lanesActive ≠ ruStat.lanesStop ∧ triggerType ≠ RawPix.trgSOT) := by
  unfold RawPix.raisesUnstoppedLanes RawPix.endOfTriggerChecks
  by_cases hA : ruStat.lanesActive ≠ ruStat.lanesStop <;>
    by_cases hT : triggerType ≠ RawPix.trgSOT <;>
      by_cases hN : (RawPix.not32 ruStat.lanesWithData &&& ruStat.lanesActive) ≠ ruStat.lanesTimeOut <;>
        simp [hA, hT, hN]

namespace RawPix

/-- An interaction record: `(orbit, bc)` (`CommonDataFormat/InteractionRecord.h`,
declared outside the snapshot; the codec only reads and writes these two
fields). -/
structure IR where
  orbit : Nat := 0
  bc : Nat := 0
  deriving Repr, DecidableEq

/-- Modelled from the spec: the three GBT word kinds of `GBTWord.h` (absent
from the snapshot).  A data header carries the packet id and the active-lane
mask; a data word carries 9 payload bytes and the cable-flag byte (byte 9);
a data trailer carries the lane-stop mask, the lane-timeout mask and the
packet state.  `zeroW` is a zero-filled padded word (all 16 bytes zero), which
is neither a data header nor a data trailer. -/
inductive GbtWord where
  | header (packetID lanes : Nat)
  | dataW (payload : List Nat) (cableFlag : Nat)
  | trailer (lanesStop lanesTimeout packetState : Nat)
  | zeroW
  deriving Repr, DecidableEq

/-- Modelled from the spec: `GBTDataHeader::isDataHeader`. -/
def GbtWord.isDataHeader : GbtWord → Bool
  | .header _ _ => true
  | _ => false

/-- Modelled from the spec: `GBTData::isDataTrailer`. -/
def GbtWord.isDataTrailer : GbtWord → Bool
  | .trailer _ _ _ => true
  | _ => false

/-- Modelled from the spec: `GBTDataHeader::getPacketID`. -/
def GbtWord.getPacketID : GbtWord → Nat
  | .header p _ => p
  | _ => 0

/-- Modelled from the spec: `GBTDataHeader::getLanes`. -/
def GbtWord.getLanes : GbtWord → Nat
  | .header _ l => l
  | _ => 0

/-- Modelled from the spec: `GBTData::getCableID`, the cable id encoded in the
low five bits of byte 9 of a GBT data word. -/
def GbtWord.getCableID : GbtWord → Nat
  | .dataW _ f => f &&& 0x1f
  | _ => 0

/-- The first 9 bytes of the word (`GBTData::getW8()` read for 9 bytes by the
decoder); for a non-data word this is whatever the 9 raw bytes hold — zero for
the zero word, and unspecified (modelled as zeros) otherwise. -/
def GbtWord.payload9 : GbtWord → List Nat
  | .dataW p _ => p
  | _ => List.replicate 9 0

/-- Modelled from the spec: `GBTDataTrailer::getLanesStop`. -/
def GbtWord.getLanesStop : GbtWord → Nat
  | .trailer s _ _ => s
  | _ => 0

/-- Modelled from the spec: `GBTDataTrailer::getLanesTimeout`. -/
def GbtWord.getLanesTimeout : GbtWord → Nat
  | .trailer _ t _ => t
  | _ => 0

/-- Modelled from the spec: `GBTDataTrailer::getPacketState`. -/
def GbtWord.getPacketState : GbtWord → Nat
  | .trailer _ _ s => s
  | _ => 0

/-- Modelled from the spec: `GBTDataTrailer::PacketDone`, the packet-state bit
set by the encoder on the closing trailer of a trigger. -/
def PacketDone : Nat := 0

/-- One 16-byte unit of a raw byte stream (everything the codec reads and
writes — RDHs of 64 bytes, padded GBT words of 16 bytes, 8-KB pages — is a
multiple of 16 bytes, and `findNextRDH` steps by exactly one padded word).
`rdhC h` is the first 16 bytes of a 64-byte RDH, `rdhTail` one of its three
remaining 16-byte units, `gbt w` a padded GBT word, and `junk` a garbage unit
that parses neither as a plausible RDH nor as a GBT header or trailer. -/
inductive Cell where
  | rdhC (h : RDH)
  | rdhTail
  | gbt (w : GbtWord)
  | junk
  deriving Repr, DecidableEq

/-- A zero-filled 16-byte unit (the tail padding of fixed-size CRU pages). -/
def zeroCell : Cell := .gbt .zeroW

/-- Reinterpreting the 16-byte unit at `pos` (and its successors) as an RDH,
as the decoder's `reinterpret_cast<RAWDataHeader*>` does: a real RDH start
yields its fields; zero-filled bytes yield the all-zero RDH; any other unit
yields a record that fails `isRDHHeuristic` (modelled by `zeroRDH`, whose
`headerSize` is 0). -/
def readRDH (s : List Cell) (pos : Nat) : RDH :=
  match s.getD pos zeroCell with
  | .rdhC h => h
  | _ => zeroRDH

/-- Reading the 16-byte unit at `pos` as a GBT word: non-GBT units parse as
words that are neither data headers nor data trailers (modelled by `zeroW`). -/
def readGbt (s : List Cell) (pos : Nat) : GbtWord :=
  match s.getD pos zeroCell with
  | .gbt w => w
  | _ => .zeroW

/-- A page as laid out by the encoder: the RDH (4 units of 16 bytes) followed
by the page's GBT words (data header, data words, data trailer). -/
structure Page where
  rdh : RDH
  content : List GbtWord
  deriving Repr, DecidableEq

/-- Serialization of a page into 16-byte units. -/
def Page.cells (p : Page) : List Cell :=
  .rdhC p.rdh :: .rdhTail :: .rdhTail :: .rdhTail :: p.content.map Cell.gbt

/-- Number of bytes a page occupies (RDH plus padded GBT words). -/
def Page.byteSize (p : Page) : Nat :=
  RDHSize + GBTPaddedWordLength * p.content.length

/-- `RUInfo` of `RUInfo.h` (absent from the snapshot): the fields the codec
reads. -/
structure RUInfo where
  idSW : Nat := 0
  idHW : Nat := 0
  ruType : Nat := 0
  nCables : Nat := 0
  deriving Repr, DecidableEq

/-- `ChipOnRUInfo` (mapping helper, absent from the snapshot): the fields the
codec reads for a chip within an RU. -/
structure ChipOnRU where
  id : Nat := 0
  cableSW : Nat := 0
  cableHW : Nat := 0
  chipOnModuleHW : Nat := 0
  deriving Repr, DecidableEq

/-- `ChipInfo` (mapping helper): RU of a global chip and its description
within the RU. -/
structure ChipInfo where
  ru : Nat := 0
  chOnRU : ChipOnRU := {}
  deriving Repr, DecidableEq

/-- Modelled from the spec: the chip-mapping capability interface
(`ChipMappingITS.h` / `ChipMappingMFT.h`, absent from the snapshot).  The
operations are the ones `RawPixelReader` calls. -/
structure Mapping where
  getNRUs : Nat
  getNChips : Nat
  getRUInfoSW : Nat → RUInfo
  getNChipsOnRUType : Nat → Nat
  getChipOnRUInfo : Nat → Nat → ChipOnRU
  getChipInfoSW : Nat → ChipInfo
  ruSW2FEEId : Nat → Nat → Nat
  feeId2RUSW : Nat → Nat
  cableHW2SW : Nat → Nat → Nat
  getGlobalChipID : Nat → Nat → RUInfo → Nat
  getCablesOnRUType : Nat → Nat
  getGBTHeaderRUType : Nat → Nat → Nat
  getRUDetectorField : Nat

/-- Modelled from the spec: the coherence laws of a chip mapping ("mapping is
total and injective on the active range"; per-RU-type lane masks list exactly
the cables that serve chips; IB staves route chip `i` on cable `i`).  These
are the facts about the mapping tables that the codec relies on. -/
structure MappingLaws (M : Mapping) : Prop where
  ruInfo_idSW : ∀ r, r < M.getNRUs → (M.getRUInfoSW r).idSW = r
  ruInfo_nCables_le : ∀ r, r < M.getNRUs →
    (M.getRUInfoSW r).nCables ≤ MaxCablesPerRU
  nChips_le : ∀ r, r < M.getNRUs →
    M.getNChipsOnRUType (M.getRUInfoSW r).ruType ≤ MaxChipsPerRU
  fee_roundtrip : ∀ r, r < M.getNRUs → M.feeId2RUSW (M.ruSW2FEEId r 0) = r
  fee_lt : ∀ f, M.feeId2RUSW f < M.getNRUs
  chipInfo_ru_lt : ∀ g, g < M.getNChips → (M.getChipInfoSW g).ru < M.getNRUs
  chipInfo_coherent : ∀ g, g < M.getNChips →
    (M.getChipInfoSW g).chOnRU =
      M.getChipOnRUInfo (M.getRUInfoSW (M.getChipInfoSW g).ru).ruType
        (M.getChipInfoSW g).chOnRU.id
  chipInfo_id_lt : ∀ g, g < M.getNChips →
    (M.getChipInfoSW g).chOnRU.id <
      M.getNChipsOnRUType (M.getRUInfoSW (M.getChipInfoSW g).ru).ruType
  chipOnRU_id : ∀ r i, r < M.getNRUs →
    i < M.getNChipsOnRUType (M.getRUInfoSW r).ruType →
    (M.getChipOnRUInfo (M.getRUInfoSW r).ruType i).id = i
  chip_surjective : ∀ r i, r < M.getNRUs →
    i < M.getNChipsOnRUType (M.getRUInfoSW r).ruType →
    ∃ g, g < M.getNChips ∧ (M.getChipInfoSW g).ru = r ∧
      (M.getChipInfoSW g).chOnRU.id = i
  chip_monotone : ∀ g g', g < M.getNChips → g' < M.getNChips →
    (M.getChipInfoSW g).ru = (M.getChipInfoSW g').ru →
    (g < g' ↔ (M.getChipInfoSW g).chOnRU.id < (M.getChipInfoSW g').chOnRU.id)
  cableSW_lt : ∀ r i, r < M.getNRUs →
    i < M.getNChipsOnRUType (M.getRUInfoSW r).ruType →
    (M.getChipOnRUInfo (M.getRUInfoSW r).ruType i).cableSW <
      (M.getRUInfoSW r).nCables
  chipOnModuleHW_byte : ∀ r i, r < M.getNRUs →
    i < M.getNChipsOnRUType (M.getRUInfoSW r).ruType →
    (M.getChipOnRUInfo (M.getRUInfoSW r).ruType i).chipOnModuleHW < 256
  flag_cableHW : ∀ r i, r < M.getNRUs →
    i < M.getNChipsOnRUType (M.getRUInfoSW r).ruType →
    (M.getGBTHeaderRUType (M.getRUInfoSW r).ruType
        (M.getChipOnRUInfo (M.getRUInfoSW r).ruType i).cableHW) &&& 0x1f =
      (M.getChipOnRUInfo (M.getRUInfoSW r).ruType i).cableHW
  cable_roundtrip : ∀ r i, r < M.getNRUs →
    i < M.getNChipsOnRUType (M.getRUInfoSW r).ruType →
    M.cableHW2SW (M.getRUInfoSW r).ruType
        (M.getChipOnRUInfo (M.getRUInfoSW r).ruType i).cableHW =
      (M.getChipOnRUInfo (M.getRUInfoSW r).ruType i).cableSW
  cable_consistent : ∀ r i j, r < M.getNRUs →
    i < M.getNChipsOnRUType (M.getRUInfoSW r).ruType →
    j < M.getNChipsOnRUType (M.getRUInfoSW r).ruType →
    (M.getChipOnRUInfo (M.getRUInfoSW r).ruType i).cableSW =
      (M.getChipOnRUInfo (M.getRUInfoSW r).ruType j).cableSW →
    (M.getChipOnRUInfo (M.getRUInfoSW r).ruType i).cableHW =
      (M.getChipOnRUInfo (M.getRUInfoSW r).ruType j).cableHW
  lanes_spec : ∀ r c, r < M.getNRUs →
    ((M.getCablesOnRUType (M.getRUInfoSW r).ruType >>> c) &&& 1 = 1 ↔
      ∃ i, i < M.getNChipsOnRUType (M.getRUInfoSW r).ruType ∧
        (M.getChipOnRUInfo (M.getRUInfoSW r).ruType i).cableSW = c)
  global_roundtrip : ∀ g, g < M.getNChips →
    M.getGlobalChipID (M.getChipInfoSW g).chOnRU.chipOnModuleHW
        (M.getChipInfoSW g).chOnRU.cableHW
        (M.getRUInfoSW (M.getChipInfoSW g).ru) = g
  ib_chip_on_cable : ∀ r i, r < M.getNRUs →
    (M.getRUInfoSW r).ruType = 0 →
    i < M.getNChipsOnRUType (M.getRUInfoSW r).ruType →
    (M.getChipOnRUInfo (M.getRUInfoSW r).ruType i).chipOnModuleHW =
      (M.getChipOnRUInfo (M.getRUInfoSW r).ruType i).cableSW

end RawPix

namespace RawPix

/-- Modelled from the spec: a small concrete chip-mapping table used to
instantiate the generic theorems — two RUs of a non-IB RU type, two cables
per RU, two chips per cable (chips are numbered RU-major, cable-next,
chip-on-module-last). -/
def specMapping : Mapping where
  getNRUs := 2
  getNChips := 8
  getRUInfoSW := fun r => { idSW := r, idHW := 100 + r, ruType := 1, nCables := 2 }
  getNChipsOnRUType := fun _ => 4
  getChipOnRUInfo := fun _ i =>
    { id := i, cableSW := i / 2, cableHW := i / 2, chipOnModuleHW := i % 2 }
  getChipInfoSW := fun g =>
    { ru := g / 4,
      chOnRU := { id := g % 4, cableSW := g % 4 / 2, cableHW := g % 4 / 2,
                  chipOnModuleHW := g % 4 % 2 } }
  ruSW2FEEId := fun r il => r * 4 + il
  feeId2RUSW := fun f => f / 4 % 2
  cableHW2SW := fun _ hw => hw
  getGlobalChipID := fun chipHW cableHW info => info.idSW * 4 + cableHW * 2 + chipHW
  getCablesOnRUType := fun _ => 3
  getGBTHeaderRUType := fun _ hw => 0x20 ||| hw
  getRUDetectorField := 7

theorem specMapping_laws : MappingLaws specMapping := by
  constructor
  case ruInfo_idSW => intro r _; rfl
  case ruInfo_nCables_le => intro r _; simp [specMapping, MaxCablesPerRU]
  case nChips_le => intro r _; simp [specMapping, MaxChipsPerRU]
  case fee_roundtrip =>
    intro r hr
    simp only [specMapping] at hr ⊢
    omega
  case fee_lt => intro f; simp only [specMapping]; omega
  case chipInfo_ru_lt => intro g hg; simp only [specMapping] at hg ⊢; omega
  case chipInfo_coherent => intro g _; rfl
  case chipInfo_id_lt => intro g hg; simp only [specMapping] at hg ⊢; omega
  case chipOnRU_id => intro r i _ _; rfl
  case chip_surjective =>
    intro r i hr hi
    refine ⟨r * 4 + i, ?_, ?_, ?_⟩ <;> simp only [specMapping] at * <;> omega
  case chip_monotone =>
    intro g g' hg hg' hru
    simp only [specMapping] at *
    omega
  case cableSW_lt => intro r i _ hi; simp only [specMapping] at *; omega
  case chipOnModuleHW_byte => intro r i _ hi; simp only [specMapping] at *; omega
  case flag_cableHW =>
    intro r i _ hi
    simp only [specMapping] at hi ⊢
    interval_cases i <;> decide
  case cable_roundtrip => intro r i _ _; rfl
  case cable_consistent => intro r i j _ _ _ h; exact h
  case lanes_spec =>
    intro r c _
    simp only [specMapping]
    match c with
    | 0 => constructor
           · intro _; exact ⟨0, by omega, by omega⟩
           · intro _; decide
    | 1 => constructor
           · intro _; exact ⟨2, by omega, by omega⟩
           · intro _; decide
    | (c + 2) =>
      constructor
      · intro h
        exfalso
        rw [Nat.shiftRight_eq_div_pow] at h
        have : (3 : Nat) / 2 ^ (c + 2) = 0 := by
          apply Nat.div_eq_of_lt
          calc (3 : Nat) < 4 := by omega
          _ = 2 ^ 2 := by norm_num
          _ ≤ 2 ^ (c + 2) := Nat.pow_le_pow_right (by omega) (by omega)
        simp [this] at h
      · rintro ⟨i, hi, hc⟩
        have hc2 : i / 2 = c + 2 := hc
        omega
  case global_roundtrip => intro g hg; simp only [specMapping] at *; omega
  case ib_chip_on_cable =>
    intro r i hr ht hi
    have ht2 : (1 : Nat) = 0 := ht
    exact absurd ht2 (by omega)

/-- Modelled from the spec: the ALPIDE chip-header token (`AlpideCoder.h` is
absent from the snapshot; the byte-level record layout is chosen here, keeping
the structure the spec fixes: one chip header (or chip-empty) stamped with the
chip-on-module id and the trigger bc, hit records, a chip trailer; a zero byte
is padding and terminates decoding). -/
def chipHeaderTok : Nat := 0xA0

/-- Modelled from the spec: the ALPIDE chip-empty token. -/
def chipEmptyTok : Nat := 0xE0

/-- Modelled from the spec: the ALPIDE chip-trailer token. -/
def chipTrailerTok : Nat := 0xB0

/-- Modelled from the spec: the ALPIDE hit-record token. -/
def hitTok : Nat := 0xC0

/-- Modelled from the spec: `AlpideCoder::isChipHeaderOrEmpty`. -/
def isChipHeaderOrEmpty (b : Nat) : Bool :=
  b == chipHeaderTok || b == chipEmptyTok

/-- Modelled from the spec: `AlpideCoder::encodeChip` — one chip header
stamped with the chip-on-module hardware id and the trigger `bc`, followed by
one record per hit (row and column, two bytes each), closed by a chip
trailer. -/
def encodeChipBytes (chipOnModuleHW bc : Nat) (hits : List (Nat × Nat)) :
    List Nat :=
  chipHeaderTok :: chipOnModuleHW :: bc % 256 ::
    (hits.flatMap (fun h => [hitTok, h.1 / 256, h.1 % 256, h.2 / 256, h.2 % 256]) ++
      [chipTrailerTok])

/-- Modelled from the spec: `AlpideCoder::addEmptyChip` — a chip-empty record
stamped with the chip-on-module hardware id and the trigger `bc`. -/
def emptyChipBytes (chipOnModuleHW bc : Nat) : List Nat :=
  [chipEmptyTok, chipOnModuleHW, bc % 256]

/-- Modelled from the spec: parsing of the hit records of one ALPIDE chip up
to its chip trailer. -/
def decodeHitRecords : List Nat → List (Nat × Nat) →
    Option (List (Nat × Nat) × List Nat)
  | b :: rest, acc =>
    if b = chipTrailerTok then some (acc.reverse, rest)
    else if b = hitTok then
      match rest with
      | rh :: rl :: ch :: cl :: rest2 =>
        decodeHitRecords rest2 ((rh * 256 + rl, ch * 256 + cl) :: acc)
      | _ => none
    else none
  | [], _ => none

/-- Result of one `AlpideCoder::decodeChip` call: a decoded chip with hits
(positive return in the source), exhaustion of the cable buffer (return 0),
or a malformed record (negative return). -/
inductive ChipDecodeResult where
  | chip (chipId : Nat) (hits : List (Nat × Nat)) (rest : List Nat)
  | stop
  | fail
  deriving Repr, DecidableEq

/-- Modelled from the spec: `AlpideCoder::decodeChip` — skip chip-empty
records, stop on buffer exhaustion or zero padding, decode one full chip
(header, hits, trailer), fail on malformed data. -/
def decodeChipFrom : List Nat → ChipDecodeResult
  | [] => .stop
  | b :: rest =>
    if b = 0 then .stop
    else if b = chipEmptyTok then
      match rest with
      | _ :: _ :: rest2 => decodeChipFrom rest2
      | _ => .fail
    else if b = chipHeaderTok then
      match rest with
      | chip :: _ :: rest2 =>
        match decodeHitRecords rest2 [] with
        | some (hits, rest3) => .chip chip hits rest3
        | none => .fail
      | _ => .fail
    else .fail

end RawPix

namespace RawPix

/-- `o2::itsmft::Digit`: the three fields the encoder reads. -/
structure Digit where
  chipIndex : Nat
  row : Nat
  col : Nat
  deriving Repr, DecidableEq

/-- One fired chip collected by `digits2raw` into `chipsData`: its chip id
within the RU (set via `setChipID(chInfo.chOnRU->id)`) and its digits. -/
structure EncChip where
  id : Nat
  hits : List (Nat × Nat)
  deriving Repr, DecidableEq

/-- Per-RU cable buffers (`RUDecodeData::cableData`) and hardware cable ids
(`RUDecodeData::cableHWID`) filled by `convertChip` / `convertEmptyChips`. -/
structure CableState where
  cableData : Nat → List Nat
  cableHWID : Nat → Nat

/-- Fresh cable state (cleared buffers). -/
def emptyCableState : CableState :=
  { cableData := fun _ => [], cableHWID := fun _ => 0 }

/-- The pixel comparator of `convertChip` (source lines 396-403): order by
row, then by column. -/
def pixLE (a b : Nat × Nat) : Prop :=
  a.1 < b.1 ∨ (a.1 = b.1 ∧ a.2 ≤ b.2)

instance : DecidableRel pixLE := fun a b => by
  unfold pixLE
  infer_instance

/-- `RawPixelReader::convertChip` (source lines 385-406): register the cable
hardware id, sort the chip's pixels by (row, col) — the source's `std::sort`
with the row/column comparator, modelled by a comparison sort with the same
comparator — and append the ALPIDE encoding of the chip to its cable's
buffer. -/
def convertChipModel (M : Mapping) (ruType bc : Nat) (chipItem : EncChip)
    (st : CableState) : CableState :=
  let chip := M.getChipOnRUInfo ruType chipItem.id
  { cableData := (Function.update st.cableData chip.cableSW
      (st.cableData chip.cableSW ++
        encodeChipBytes chip.chipOnModuleHW bc (chipItem.hits.insertionSort pixLE))),
    cableHWID := Function.update st.cableHWID chip.cableSW chip.cableHW }

/-- The body of the loop of `RawPixelReader::convertEmptyChips` for a single
chip id (source lines 413-418). -/
def addEmptyChipTo (M : Mapping) (ruType bc : Nat) (chipIDSW : Nat)
    (st : CableState) : CableState :=
  let chip := M.getChipOnRUInfo ruType chipIDSW
  { cableData := (Function.update st.cableData chip.cableSW
      (st.cableData chip.cableSW ++ emptyChipBytes chip.chipOnModuleHW bc)),
    cableHWID := Function.update st.cableHWID chip.cableSW chip.cableHW }

/-- `RawPixelReader::convertEmptyChips` (source lines 408-419): empty-chip
records for every chip id in `[fromChip, uptoChip)`. -/
def convertEmptyChipsModel (M : Mapping) (ruType bc : Nat)
    (fromChip uptoChip : Nat) (st : CableState) : CableState :=
  (List.range' fromChip (uptoChip - fromChip)).foldl
    (fun s i => addEmptyChipTo M ruType bc i s) st

/-- The fired-chip loop of `digits2raw` for one RU (source lines 367-375):
interleave `convertEmptyChips` for skipped chip ids with `convertChip` for
fired chips, then flag the chips after the last fired one. -/
def processChipsLoop (M : Mapping) (ruType bc nchTot : Nat) :
    List EncChip → Nat → CableState → CableState
  | [], next, st => convertEmptyChipsModel M ruType bc next nchTot st
  | c :: rest, next, st =>
    processChipsLoop M ruType bc nchTot rest (c.id + 1)
      (convertChipModel M ruType bc c
        (convertEmptyChipsModel M ruType bc next c.id st))

/-- The running state of the digit-placement loop of `digits2raw` (source
lines 347-362): the currently processed software chip id (sentinel `0xffff`),
the RU of the current chip, and the fired chips collected per RU. -/
structure PlaceState where
  curChipID : Nat := 0xffff
  curRU : Nat := 0
  fired : Nat → List EncChip := fun _ => []

/-- Append a digit to the currently filled chip — the last entry of the RU's
fired-chip list (`curChipData->getData().emplace_back(&dig)`). -/
def appendHitLast (l : List EncChip) (h : Nat × Nat) : List EncChip :=
  match l.getLast? with
  | none => l
  | some c => l.dropLast ++ [{ c with hits := c.hits ++ [h] }]

/-- The digit-placement loop of `digits2raw` (source lines 347-362): digits of
the current chip are appended to it; a digit of a new chip looks the chip up,
skips it when its RU is outside `[lo, hi]` (leaving the current-chip id
unchanged, as the source's `continue` does), and otherwise opens a new fired
chip in that RU. -/
def placeDigitsLoop (M : Mapping) (lo hi : Nat) :
    List Digit → PlaceState → PlaceState
  | [], s => s
  | d :: ds, s =>
    if d.chipIndex = s.curChipID then
      placeDigitsLoop M lo hi ds
        { s with fired := (Function.update s.fired s.curRU
            (appendHitLast (s.fired s.curRU) (d.row, d.col))) }
    else
      let ci := M.getChipInfoSW d.chipIndex
      if ci.ru < lo ∨ hi < ci.ru then placeDigitsLoop M lo hi ds s
      else
        placeDigitsLoop M lo hi ds
          { curChipID := d.chipIndex, curRU := ci.ru,
            fired := (Function.update s.fired ci.ru
              (s.fired ci.ru ++ [{ id := ci.chOnRU.id, hits := [(d.row, d.col)] }])) }

/-- `maxGBTWordsPerPacket` of `fillRULinks` (source line 437):
`(MaxGBTPacketBytes - rdh.headerSize) / GBTPaddedWordLength - 2 = 506`. -/
def maxGBTWordsPerPacket : Nat :=
  (MaxGBTPacketBytes - RDHSize) / GBTPaddedWordLength - 2

/-- GBT words needed for a cable buffer of `nb` bytes:
`nb ? 1 + (nb - 1) / 9 : 0` (source line 449). -/
def nWordsFor (nb : Nat) : Nat := if nb = 0 then 0 else 1 + (nb - 1) / 9

/-- Total number of GBT words needed on a link (source lines 445-451). -/
def nGBTWordsNeededFor (lanes nCables : Nat) (bufs : Nat → List Nat) : Nat :=
  ((List.range nCables).map
    (fun icab => if lanes &&& (1 <<< icab) ≠ 0 then nWordsFor (bufs icab).length
                 else 0)).sum

/-- The RDH written by `fillRULinks` when opening a page (source lines
430-461 for page 0 and 511-519 for later pages; the model fixes the default
128-bit padding, under which `mGBTWordSize = GBTPaddedWordLength`):
`memorySize` is the header plus `remaining + 2` padded GBT words capped at the
8-KB page, `offsetToNext` equals the page cap when fixed-size CRU pages are
imposed and `memorySize` otherwise, both interaction records take the
trigger's orbit/bc and the trigger type is `PhT`. -/
def encodeRDH (M : Mapping) (ruInfo : RUInfo) (il : Nat) (ir : IR)
    (imposeMaxPage : Bool) (pageCnt stop remaining : Nat) : RDH :=
  let msz := min (RDHSize + (remaining + 2) * GBTPaddedWordLength) MaxGBTPacketBytes
  { headerSize := RDHSize, blockLength := 0xffff,
    feeId := M.ruSW2FEEId ruInfo.idSW il, linkID := il,
    pageCnt := pageCnt, stop := stop,
    memorySize := msz,
    offsetToNext := if imposeMaxPage then MaxGBTPacketBytes else msz,
    triggerOrbit := ir.orbit, triggerBC := ir.bc,
    heartbeatOrbit := ir.orbit, heartbeatBC := ir.bc,
    triggerType := trgPhT, detectorField := M.getRUDetectorField,
    zeroFields := 0 }

/-- One pass of the cable loop of `fillRULinks` (source lines 480-503): visit
the cables in order, taking at most 9 bytes from each cable the link serves
into one GBT data word (zero-filled, cable-flag byte from
`getGBTHeaderRUType`), stopping early when the packet reaches
`maxGBTWordsPerPacket` words (`room` counts the remaining words). -/
def emitPass (M : Mapping) (ruType lanes : Nat) (hwid : Nat → Nat) :
    Nat → Nat → (Nat → List Nat) → Nat → (List GbtWord × (Nat → List Nat))
  | 0, _, bufs, _ => ([], bufs)
  | cablesLeft + 1, icab, bufs, room =>
    if room = 0 then ([], bufs)
    else if lanes &&& (1 <<< icab) ≠ 0 ∧ bufs icab ≠ [] then
      let nb := min 9 (bufs icab).length
      let w : GbtWord := .dataW ((bufs icab).take 9 ++ List.replicate (9 - nb) 0)
        (M.getGBTHeaderRUType ruType (hwid icab))
      let res := emitPass M ruType lanes hwid cablesLeft (icab + 1)
        (Function.update bufs icab ((bufs icab).drop 9)) (room - 1)
      (w :: res.1, res.2)
    else emitPass M ruType lanes hwid cablesLeft (icab + 1) bufs room

/-- The page-filling do-while loop of `fillRULinks` (source lines 479-541).
`n` is the source's `nGBTWordsNeeded` counter (GBT words still to write),
`wordsInPacket` the data words already in the open page, `curRdh`/`curWords`
the open page, `pageCnt` the page counter.  A full page with words remaining
is closed with an empty GBT trailer and a new page is opened whose RDH gets
the incremented page counter and `stop = (remaining < maxGBTWordsPerPacket)`;
when all words are written the trigger closes with the trailer carrying
`lanesStop = lanes` and the `PacketDone` packet state.  (When a pass makes no
progress although `n ≠ 0` — impossible when `n` counts the words the buffers
hold — the model also closes the trigger; the source would loop forever.  The
explicit `fuel` bounds the iterations: every iteration lowers `n`, so the
top-level call's `fuel = n + 1` is never exhausted.) -/
def linkLoop (M : Mapping) (ruInfo : RUInfo) (il : Nat) (ir : IR)
    (imposeMaxPage : Bool) (lanes : Nat) (hwid : Nat → Nat) :
    Nat → Nat → (Nat → List Nat) → Nat → RDH → List GbtWord → Nat → List Page
  | 0, _, _, _, curRdh, curWords, _ =>
    [{ rdh := curRdh,
       content := curWords ++ [.trailer lanes 0 (1 <<< PacketDone)] }]
  | fuel + 1, n, bufs, wordsInPacket, curRdh, curWords, pageCnt =>
    let pr := emitPass M ruInfo.ruType lanes hwid ruInfo.nCables 0 bufs
      (maxGBTWordsPerPacket - wordsInPacket)
    if pr.1.length = 0 ∨ n - pr.1.length = 0 then
      [{ rdh := curRdh,
         content := curWords ++ pr.1 ++ [.trailer lanes 0 (1 <<< PacketDone)] }]
    else if wordsInPacket + pr.1.length ≥ maxGBTWordsPerPacket then
      { rdh := curRdh, content := curWords ++ pr.1 ++ [.trailer 0 0 0] } ::
        linkLoop M ruInfo il ir imposeMaxPage lanes hwid fuel
          (n - pr.1.length) pr.2 0
          (encodeRDH M ruInfo il ir imposeMaxPage (pageCnt + 1)
            (if n - pr.1.length < maxGBTWordsPerPacket then 1 else 0)
            (n - pr.1.length))
          [.header (pageCnt + 1) lanes] (pageCnt + 1)
    else
      linkLoop M ruInfo il ir imposeMaxPage lanes hwid fuel
        (n - pr.1.length) pr.2
        (wordsInPacket + pr.1.length) curRdh (curWords ++ pr.1) pageCnt

/-- `fillRULinks` for one link (source lines 440-547): compute the needed GBT
words, open page 0 (page counter 0, `stop = 0`, GBT data header with the
link's lane mask) and run the page-filling loop. -/
def fillRULinksLink (M : Mapping) (ruInfo : RUInfo) (il : Nat) (ir : IR)
    (imposeMaxPage : Bool) (lanes : Nat) (st : CableState) : List Page :=
  let n := nGBTWordsNeededFor lanes ruInfo.nCables st.cableData
  linkLoop M ruInfo il ir imposeMaxPage lanes st.cableHWID (n + 1) n
    st.cableData 0 (encodeRDH M ruInfo il ir imposeMaxPage 0 0 n)
    [.header 0 lanes] 0

/-- The per-RU body of `digits2raw` (source lines 365-380) under the imposed
single-link readout (when an RU has no links, `digits2raw` creates link 0
serving all cables of the RU type, source lines 338-343): empty-chip records
and `convertChip` conversions in chip order, then `fillRULinks`. -/
def encodeRU (M : Mapping) (ir : IR) (imposeMaxPage : Bool) (r : Nat)
    (fired : List EncChip) : List Page :=
  let info := M.getRUInfoSW r
  let st := processChipsLoop M info.ruType ir.bc
    (M.getNChipsOnRUType info.ruType) fired 0 emptyCableState
  fillRULinksLink M info 0 ir imposeMaxPage (M.getCablesOnRUType info.ruType) st

/-- `digits2raw` (source lines 313-383): clamp the RU range, place the digits
into per-RU fired chips, and encode every RU of the range; yields the pages
of link 0 of each RU. -/
def digits2rawPages (M : Mapping) (lo hi : Nat) (digits : List Digit)
    (ir : IR) (imposeMaxPage : Bool) : Nat → List Page :=
  let hi' := if hi < M.getNRUs then hi else M.getNRUs - 1
  let fired := (placeDigitsLoop M lo hi' digits {}).fired
  fun r =>
    if lo ≤ r ∧ r ≤ hi' then encodeRU M ir imposeMaxPage r (fired r) else []

/-- The per-link page-flushing loop of `flushSuperPages` (source lines
570-581): while pages remain and fewer than `maxPages` were flushed, copy
`memorySize` bytes of the page from the link buffer into the sink, zero-fill
up to the 8-KB CRU page, and consume the copied bytes.  Returns the sink
addition, the unconsumed buffer and the page count; `fuel` bounds the
iterations (on well-formed data every page consumes at least one unit). -/
def flushLinkLoop : Nat → List Cell → Nat → Nat → (List Cell × List Cell × Nat)
  | 0, data, nPages, _ => ([], data, nPages)
  | fuel + 1, data, nPages, maxPages =>
    if nPages < maxPages ∧ data ≠ [] then
      let rdh := readRDH data 0
      let ncell := rdh.memorySize / GBTPaddedWordLength
      let res := flushLinkLoop fuel (data.drop ncell) (nPages + 1) maxPages
      (data.take ncell ++
        List.replicate ((MaxGBTPacketBytes - rdh.memorySize) / GBTPaddedWordLength) zeroCell ++
        res.1,
       res.2.1, res.2.2)
    else ([], data, nPages)

/-- `flushSuperPages` (source lines 553-587): for every RU in software-id
order flush up to `maxPages` pages of its (single) link into the sink. -/
def flushSuperPagesModel (M : Mapping) (maxPages : Nat)
    (linkPages : Nat → List Page) : List Cell :=
  (List.range M.getNRUs).flatMap (fun r =>
    let data := (linkPages r).flatMap Page.cells
    (flushLinkLoop (data.length + 1) data 0 maxPages).1)

/-- The whole encode path of claim C1: `digits2raw` then `flushSuperPages`. -/
def encodePipeline (M : Mapping) (lo hi : Nat) (digits : List Digit) (ir : IR)
    (imposeMaxPage : Bool) (maxPages : Nat) : List Cell :=
  flushSuperPagesModel M maxPages (digits2rawPages M lo hi digits ir imposeMaxPage)

end RawPix

namespace RawPix

/-- `RawDecodingStat` (source lines 144-171): the global decoding counters. -/
structure RawDecodingStat where
  nPagesProcessed : Nat := 0
  nRUsProcessed : Nat := 0
  nBytesProcessed : Nat := 0
  nNonEmptyChips : Nat := 0
  nHitsDecoded : Nat := 0
  deriving Repr, DecidableEq

/-- A decoded chip (`ChipPixelData`): global chip id, interaction record,
trigger mask and hits. -/
structure ChipRec where
  chipID : Nat
  ir : IR
  trigger : Nat
  hits : List (Nat × Nat)
  deriving Repr, DecidableEq

/-- `RULink` (source lines 174-179): the per-link page cache.  `data` holds
the cached 16-byte units, `lastPageSize` the byte size of the most recently
appended page, `nTriggers` the cached-trigger counter (a C `int`). -/
structure RULink where
  data : List Cell := []
  lastPageSize : Nat := 0
  nTriggers : Int := 0
  lanes : Nat := 0
  deriving Repr, DecidableEq

/-- `RUDecodeData` (source lines 181-209) on the decode side. `chipsData`
holds the `nChipsFired` decoded chips in order; `lastChipChecked` marks how
many of them were already yielded. -/
structure RUDecodeDataRec where
  cableData : Nat → List Nat := fun _ => []
  cableHWID : Nat → Nat := fun _ => 0
  chipsData : List ChipRec := []
  links : Nat → Option RULink := fun _ => none
  statistics : RUDecodingStat := {}
  nCables : Nat := 0
  lastChipChecked : Nat := 0
  ruInfo : RUInfo := {}

/-- `RUDecodeData::clearTrigger` (source lines 202-208): clear the cable
buffers of the cables in use and reset `nCables`. -/
def clearTriggerModel (ru : RUDecodeDataRec) : RUDecodeDataRec :=
  { ru with
    cableData := fun i => if i < ru.nCables then [] else ru.cableData i,
    nCables := 0 }

/-- `INT_MAX`, the seed of the minimum-trigger scans. -/
def intMax : Int := 2 ^ 31 - 1

/-- The decoding state of a `RawPixelReader`: the RU containers in creation
order (`mRUDecodeVec[0..mNRUs)`), the RU-to-slot table (`mRUEntry`, `-1` when
absent), the link counter, the trigger-cache counters, the global statistics
and the current trigger data. -/
structure ReaderState where
  rus : List RUDecodeDataRec := []
  ruEntry : Nat → Int := fun _ => -1
  nLinks : Nat := 0
  minTriggersCached : Int := 0
  minTriggersToCache : Int := (NCRUPagesPerSuperpage : Int) + 10
  decodingStat : RawDecodingStat := {}
  ir : IR := {}
  irHB : IR := {}
  trigger : Nat := 0

/-- Update the RU container in slot `i`. -/
def modifySlot (rus : List RUDecodeDataRec) (i : Nat)
    (f : RUDecodeDataRec → RUDecodeDataRec) : List RUDecodeDataRec :=
  match rus.get? i with
  | some ru => rus.set i (f ru)
  | none => rus

/-- `RawPixelReader::getCreateRUDecode` (source lines 1376-1385): look the RU
up in `mRUEntry`; when absent, append a fresh container (slot = current
`mNRUs`) holding the RU's `ruInfo`.  Returns the state and the slot. -/
def getCreateRU (M : Mapping) (st : ReaderState) (ruSW : Nat) :
    ReaderState × Nat :=
  if st.ruEntry ruSW < 0 then
    ({ st with rus := st.rus ++ [{ ruInfo := M.getRUInfoSW ruSW }],
               ruEntry := Function.update st.ruEntry ruSW (st.rus.length : Int) },
     st.rus.length)
  else (st, (st.ruEntry ruSW).toNat)

/-- `RawPixelReader::findNextRDH` (source lines 752-782) as a position scan:
starting right after `pos`, skip one padded GBT word (16 bytes) at a time
until a unit passing the RDH heuristic is found (its position is returned) or
the buffer is exhausted (`none`). -/
def findNextRDHPos (buf : List Cell) : Nat → Nat → Option Nat
  | _, 0 => none
  | pos, fuel + 1 =>
    let p := pos + 1
    if p ≥ buf.length then none
    else if isRDHHeuristic (readRDH buf p) then some p
    else findNextRDHPos buf p fuel

/-- The first cell of a page slice with its stored `offsetToNext` rewritten,
as `cacheLinksData` does on the cached copy (source line 647). -/
def patchFirstCell (cells : List Cell) (msz : Nat) : List Cell :=
  match cells with
  | .rdhC h :: rest => .rdhC { h with offsetToNext := msz } :: rest
  | other => other

/-- The epilogue of `cacheLinksData` (source lines 674-686): when every link
reached the requested trigger count, `minTriggersCached` is that count;
otherwise it is the minimum of `nTriggers` over all known links (starting
from `INT_MAX`). -/
def finishCache (st : ReaderState) (enough : List (Nat × Nat)) : ReaderState :=
  if st.nLinks = enough.length then
    { st with minTriggersCached := st.minTriggersToCache }
  else
    { st with minTriggersCached :=
        st.rus.foldl (fun m ru =>
          (List.range MaxLinksPerRU).foldl (fun m il =>
            match ru.links il with
            | some lk => if lk.nTriggers < m then lk.nTriggers else m
            | none => m) m) intMax }

/-- One iteration step plus loop of `RawPixelReader::cacheLinksData` (source
lines 604-690): at each position interpret the unit as an RDH (recovering via
`findNextRDH` when the heuristic fails), route the page's `memorySize` bytes
into the link cache of the RU given by `FEEId2RUSW`, rewriting the cached
`offsetToNext` to `memorySize`; count a new trigger when the previous cached
RDH of the link does not continue into this one; advance by `offsetToNext`;
stop when every known link has `minTriggersToCache` triggers or the buffer is
exhausted.  `enough` is the `enoughTriggers` flag table (as the list of
flagged `(ruSW, linkID)` pairs).  `fuel` bounds the iterations. -/
def cacheBody (M : Mapping) (rdh : RDH) (pageCells : List Cell)
    (st : ReaderState) (enough : List (Nat × Nat)) :
    ReaderState × List (Nat × Nat) :=
  let ruIDSW := M.feeId2RUSW rdh.feeId
  let pr := getCreateRU M st ruIDSW
  let st := pr.1
  let slot := pr.2
  let linkO := (st.rus.getD slot {}).links rdh.linkID
  let newTrigger :=
    match linkO with
    | some link =>
      !(isSameRUandTrigger
        (readRDH link.data (link.data.length - link.lastPageSize / GBTPaddedWordLength))
        rdh)
    | none => true
  let st :=
    match linkO with
    | some _ => st
    | none =>
      { st with
        rus := modifySlot st.rus slot (fun ru =>
          { ru with links := Function.update ru.links rdh.linkID (some {}) }),
        nLinks := st.nLinks + 1 }
  let st :=
    { st with
      rus := modifySlot st.rus slot (fun ru =>
        { ru with links := (Function.update ru.links rdh.linkID
            (some (let lk := (ru.links rdh.linkID).getD {}
                   { lk with data := lk.data ++ pageCells,
                             lastPageSize := rdh.memorySize,
                             nTriggers := lk.nTriggers + (if newTrigger then 1 else 0) }))) }) }
  let lkNow : RULink := ((st.rus.getD slot {}).links rdh.linkID).getD {}
  let enough :=
    if newTrigger = true ∧ lkNow.nTriggers ≥ st.minTriggersToCache ∧
        (ruIDSW, rdh.linkID) ∉ enough then
      (ruIDSW, rdh.linkID) :: enough
    else enough
  let st :=
    { st with decodingStat :=
        { st.decodingStat with
          nBytesProcessed := st.decodingStat.nBytesProcessed + rdh.memorySize,
          nPagesProcessed := st.decodingStat.nPagesProcessed + 1 } }
  (st, enough)

def cacheLoop (M : Mapping) (buf : List Cell) :
    Nat → Nat → ReaderState → List (Nat × Nat) → ReaderState
  | 0, _, st, _ => st
  | fuel + 1, pos, st, enough =>
    let rdh0 := readRDH buf pos
    let posO : Option Nat :=
      if isRDHHeuristic rdh0 then some pos
      else findNextRDHPos buf pos (buf.length - pos)
    match posO with
    | none => st
    | some pos =>
      let rdh := readRDH buf pos
      let pr := cacheBody M rdh
        (patchFirstCell
          ((buf.drop pos).take (rdh.memorySize / GBTPaddedWordLength)) rdh.memorySize)
        st enough
      let st := pr.1
      let enough := pr.2
      let pos := pos + rdh.offsetToNext / GBTPaddedWordLength
      if st.nLinks = enough.length then finishCache st enough
      else if pos ≥ buf.length then finishCache st enough
      else cacheLoop M buf fuel pos st enough

/-- `RawPixelReader::cacheLinksData` on a fully loaded buffer. -/
def cacheLinksDataModel (M : Mapping) (st : ReaderState) (buf : List Cell) :
    ReaderState :=
  if buf.isEmpty then st
  else cacheLoop M buf (buf.length + 1) 0 st []

end RawPix

namespace RawPix

/-- Bump one error counter of an RU's statistics. -/
def bumpErr (ru : RUDecodeDataRec) (f : ErrorCounts → ErrorCounts) :
    RUDecodeDataRec :=
  { ru with statistics := { ru.statistics with
      errorCounts := f ru.statistics.errorCounts } }

/-- The body of the data-word loop of `decodeRUData` for one GBT data word
(source lines 884-895): the word's cable id is mapped to `cableSW`, its first
9 bytes are appended to that cable's buffer, the hardware id is registered,
the lane is flagged in `lanesWithData`, and traffic on a stopped lane counts
`ErrDataForStoppedLane`. -/
def wordEffect (M : Mapping) (t : Nat) (ru : RUDecodeDataRec) (w : GbtWord) :
    RUDecodeDataRec :=
  let cableHW := w.getCableID
  let cableSW := M.cableHW2SW t cableHW
  let ru := { ru with
    cableData := (Function.update ru.cableData cableSW
      (ru.cableData cableSW ++ w.payload9)),
    cableHWID := Function.update ru.cableHWID cableSW cableHW }
  let ru := { ru with statistics := { ru.statistics with
    lanesWithData := ru.statistics.lanesWithData ||| (1 <<< cableSW) } }
  if ru.statistics.lanesStop &&& (1 <<< cableSW) ≠ 0 then
    bumpErr ru (fun e => { e with errDataForStoppedLane :=
      e.errDataForStoppedLane + 1 })
  else ru

/-- The cumulative effect of a list of GBT data words on the RU container:
the word loop of `decodeRUData` stripped of its position bookkeeping. -/
def decodeWordsEffect (M : Mapping) (t : Nat) (words : List GbtWord)
    (ru : RUDecodeDataRec) : RUDecodeDataRec :=
  words.foldl (wordEffect M t) ru

/-- The data-word loop of `decodeRUData` (source lines 871-897): read up to
`cnt` GBT words, stopping early at a data trailer, applying `wordEffect` to
every data word.  Returns the position of the word that ended the loop (the
trailer candidate). -/
def procWords (M : Mapping) (info : RUInfo) (cells : List Cell) :
    Nat → Nat → RUDecodeDataRec → (Nat × RUDecodeDataRec)
  | 0, pos, ru => (pos, ru)
  | cnt + 1, pos, ru =>
    let w := readGbt cells pos
    if w.isDataTrailer then (pos, ru)
    else procWords M info cells cnt (pos + 1) (wordEffect M info.ruType ru w)

/-- The page loop of `RawPixelReader::decodeRUData` (source lines 830-958):
per page check the GBT data header (abort on `ErrMissingGBTHeader`), compare
its packet id with the RDH page counter (`ErrRDHvsGBTHPageCnt`), flag a
non-zero page counter after all lanes stopped (`ErrNonZeroPageAfterStop`),
take the active lanes from the header, on page 0 reset the stop/with-data
masks, decode the data words, require the trailer (abort on
`ErrMissingGBTTrailer`), accumulate its timeout and stop masks, and follow
`offsetToNext`: a non-continuing next RDH ends the trigger (with the
end-of-trigger checks), a continuing one must increment the page counter
(`ErrPageCounterDiscontinuity`).  Returns the position one past the consumed
trigger, the updated RU container and the aborted flag. -/
def decodeRUPageLoop (M : Mapping) (info : RUInfo) (cells : List Cell) :
    Nat → Nat → RDH → RUDecodeDataRec → (Nat × RUDecodeDataRec × Bool)
  | 0, pos, _, ru => (pos, ru, false)
  | fuel + 1, pos, rdh, ru =>
    let posH := pos + RDHSize / GBTPaddedWordLength
    let nGBTWords := (rdh.memorySize - RDHSize) / GBTPaddedWordLength - 2
    let gbtH := readGbt cells posH
    if ¬ gbtH.isDataHeader then
      (posH,
       bumpErr ru (fun e => { e with errMissingGBTHeader := e.errMissingGBTHeader + 1 }),
       true)
    else
      let ru :=
        if gbtH.getPacketID ≠ rdh.pageCnt then
          bumpErr ru (fun e => { e with errRDHvsGBTHPageCnt := e.errRDHvsGBTHPageCnt + 1 })
        else ru
      let ru :=
        if ru.statistics.lanesActive = ru.statistics.lanesStop ∧ rdh.pageCnt ≠ 0 then
          bumpErr ru (fun e => { e with errNonZeroPageAfterStop := e.errNonZeroPageAfterStop + 1 })
        else ru
      let ru := { ru with statistics := { ru.statistics with
        lanesActive := gbtH.getLanes } }
      let ru :=
        if rdh.pageCnt = 0 then
          { ru with statistics := { ru.statistics with
              lanesStop := 0, lanesWithData := 0 } }
        else ru
      let wr := procWords M info cells nGBTWords (posH + 1) ru
      let gbtT := readGbt cells wr.1
      if ¬ gbtT.isDataTrailer then
        (wr.1,
         bumpErr wr.2 (fun e => { e with errMissingGBTTrailer := e.errMissingGBTTrailer + 1 }),
         true)
      else
        let ru := { wr.2 with statistics := { wr.2.statistics with
          lanesTimeOut := wr.2.statistics.lanesTimeOut ||| gbtT.getLanesTimeout,
          lanesStop := wr.2.statistics.lanesStop ||| gbtT.getLanesStop } }
        if rdh.offsetToNext = 0 then (wr.1 + 1, ru, false)
        else
          let posN := pos + rdh.offsetToNext / GBTPaddedWordLength
          let rdhN := readRDH cells posN
          if ¬ isSameRUandTrigger rdh rdhN then
            (posN,
             { ru with statistics :=
                endOfTriggerChecks ru.statistics rdh.triggerType gbtT.getPacketState },
             false)
          else
            let ru :=
              if rdhN.pageCnt ≠ rdh.pageCnt + 1 then
                bumpErr ru (fun e => { e with errPageCounterDiscontinuity :=
                  e.errPageCounterDiscontinuity + 1 })
              else ru
            decodeRUPageLoop M info cells fuel posN rdhN ru

/-- `RawPixelReader::decodeRUData` (source lines 794-967): require an RDH at
the entry (else skip one GBT word and abort), count the packet, set
`nCables` from the RU info and run the page loop. -/
def decodeRUDataModel (M : Mapping) (info : RUInfo) (cells : List Cell)
    (ru : RUDecodeDataRec) : (Nat × RUDecodeDataRec × Bool) :=
  let rdh := readRDH cells 0
  if ¬ isRDHHeuristic rdh then (1, ru, true)
  else
    let ru := { ru with
      statistics := { ru.statistics with nPackets := ru.statistics.nPackets + 1 },
      nCables := info.nCables }
    decodeRUPageLoop M info cells (cells.length + 1) 0 rdh ru

/-- The per-cable chip loop of `decodeAlpideData` (source lines 1236-1261):
decode chips until the buffer is exhausted (or a malformed record aborts the
cable); each decoded chip is checked against the inner-barrel lane rule
(`ErrIBChipLaneMismatch` when `ruType == 0` and the shipped chip id differs
from the cable index), its global id is computed from the chip-on-module id
and the cable hardware id, and the global statistics count it; the loop stops
when `nChipsFired` reaches `MaxChipsPerRU`. -/
def cableChipLoop (M : Mapping) (info : RUInfo) (ir : IR) (trg : Nat)
    (icab hwid : Nat) :
    Nat → List Nat → (List ChipRec × Nat × RUDecodingStat × RawDecodingStat) →
    (List ChipRec × Nat × RUDecodingStat × RawDecodingStat)
  | 0, _, acc => acc
  | fuel + 1, buf, (chips, nFired, ruStat, gStat) =>
    match decodeChipFrom buf with
    | .stop => (chips, nFired, ruStat, gStat)
    | .fail => (chips, nFired, ruStat, gStat)
    | .chip cid hits rest =>
      let ruStat :=
        if info.ruType = 0 ∧ cid ≠ icab then
          { ruStat with errorCounts := { ruStat.errorCounts with
              errIBChipLaneMismatch := ruStat.errorCounts.errIBChipLaneMismatch + 1 } }
        else ruStat
      let g := M.getGlobalChipID cid hwid info
      let chips := chips ++ [{ chipID := g, ir := ir, trigger := trg, hits := hits }]
      let gStat := { gStat with
        nNonEmptyChips := gStat.nNonEmptyChips + 1,
        nHitsDecoded := gStat.nHitsDecoded + hits.length }
      if nFired + 1 < MaxChipsPerRU then
        cableChipLoop M info ir trg icab hwid fuel rest (chips, nFired + 1, ruStat, gStat)
      else (chips, nFired + 1, ruStat, gStat)

/-- `RawPixelReader::decodeAlpideData` (source lines 1213-1264): reset the
fired-chip store, then for every cable check that a non-empty buffer starts
with a chip header or chip-empty token (`ErrCableDataHeadWrong`) and run the
chip loop. -/
def decodeAlpideDataModel (M : Mapping) (ir : IR) (trg : Nat)
    (ru : RUDecodeDataRec) (gStat : RawDecodingStat) :
    (RUDecodeDataRec × RawDecodingStat) :=
  let res := (List.range ru.nCables).foldl
    (fun (acc : List ChipRec × Nat × RUDecodingStat × RawDecodingStat) icab =>
      let buf := ru.cableData icab
      let acc :=
        match buf.head? with
        | some h =>
          if ¬ isChipHeaderOrEmpty h then
            (acc.1, acc.2.1,
             { acc.2.2.1 with errorCounts := { acc.2.2.1.errorCounts with
                 errCableDataHeadWrong := acc.2.2.1.errorCounts.errCableDataHeadWrong + 1 } },
             acc.2.2.2)
          else acc
        | none => acc
      cableChipLoop M ru.ruInfo ir trg icab (ru.cableHWID icab)
        (buf.length + 1) buf acc)
    ([], 0, ru.statistics, gStat)
  ({ ru with chipsData := res.1, lastChipChecked := 0, statistics := res.2.2.1 },
   res.2.2.2)

/-- `RawPixelReader::decodeNextRUData` (source lines 724-750): clear the
per-trigger state, decode one trigger's pages from every non-empty link
(consuming them from the link cache and decrementing its trigger counter),
then decode the collected ALPIDE cable data.  Returns the RU container, the
global statistics and the number of links decoded. -/
def decodeNextRUDataModel (M : Mapping) (ru : RUDecodeDataRec)
    (gStat : RawDecodingStat) (ir : IR) (trg : Nat) :
    (RUDecodeDataRec × RawDecodingStat × Nat) :=
  let ru := clearTriggerModel ru
  let step := (List.range MaxLinksPerRU).foldl
    (fun (acc : RUDecodeDataRec × Nat) il =>
      let ru := acc.1
      match ru.links il with
      | some lk =>
        if lk.data.isEmpty then acc
        else
          let r := decodeRUDataModel M ru.ruInfo lk.data ru
          let lk' := { lk with data := lk.data.drop r.1,
                               nTriggers := lk.nTriggers - 1 }
          ({ r.2.1 with links := Function.update r.2.1.links il (some lk') },
           acc.2 + 1)
      | none => acc)
    (ru, 0)
  let ru := step.1
  if ru.nCables ≠ 0 then
    let ad := decodeAlpideDataModel M ir trg ru gStat
    (ad.1, ad.2, step.2)
  else (ru, gStat, step.2)

/-- The trigger-data extraction of `decodeNextTrigger` (source lines 702-714):
the RDH at the read position of the first non-empty link of the RU. -/
def firstLinkRDH (ru : RUDecodeDataRec) : Option RDH :=
  (List.range MaxLinksPerRU).findSome? (fun il =>
    match ru.links il with
    | some lk => if lk.data.isEmpty then none else some (readRDH lk.data 0)
    | none => none)

/-- `RawPixelReader::decodeNextTrigger` (source lines 692-722): when at least
one trigger is cached, walk the RU slots in descending order; on the first
RU that decodes links, the trigger's interaction records and trigger type were
taken from its first non-empty link's RDH; decrement the cached-trigger
count.  Returns the state and the number of links decoded. -/
def decodeNextTriggerModel (M : Mapping) (st : ReaderState) :
    ReaderState × Nat :=
  if st.minTriggersCached < 1 then (st, 0)
  else
    let res := (List.range st.rus.length).reverse.foldl
      (fun (acc : ReaderState × Nat) slot =>
        let st := acc.1
        let ru := st.rus.getD slot {}
        let st :=
          if acc.2 = 0 then
            match firstLinkRDH ru with
            | some rdh =>
              { st with ir := { orbit := rdh.triggerOrbit, bc := rdh.triggerBC },
                        irHB := { orbit := rdh.heartbeatOrbit, bc := rdh.heartbeatBC },
                        trigger := rdh.triggerType }
            | none => st
          else st
        let r := decodeNextRUDataModel M ru st.decodingStat st.ir st.trigger
        ({ st with rus := st.rus.set slot r.1,
                   decodingStat := { r.2.1 with
                     nRUsProcessed := r.2.1.nRUsProcessed + 1 } },
         acc.2 + r.2.2))
      (st, 0)
    ({ res.1 with minTriggersCached := res.1.minTriggersCached - 1 }, res.2)

/-- The slot scan of `getNextChipData` (source lines 1271-1279): the first RU
slot at or after `cur` that still has unchecked fired chips. -/
def findFiredSlot (rus : List RUDecodeDataRec) (cur : Nat) : Option Nat :=
  (List.range' cur (rus.length - cur)).find? (fun s =>
    (rus.getD s {}).lastChipChecked < (rus.getD s {}).chipsData.length)

/-- One `getNextChipData` yield (source lines 1267-1290, restricted to the
already-decoded trigger): yield the next unchecked chip of the first slot
that has one, advancing its `lastChipChecked`. -/
def nextChipYield (rus : List RUDecodeDataRec) (cur : Nat) :
    Option (ChipRec × List RUDecodeDataRec × Nat) :=
  match findFiredSlot rus cur with
  | some s =>
    let ru := rus.getD s {}
    some (ru.chipsData.getD ru.lastChipChecked
            { chipID := 0, ir := {}, trigger := 0, hits := [] },
          modifySlot rus s (fun ru => { ru with lastChipChecked := ru.lastChipChecked + 1 }),
          s)
  | none => none

/-- Repeated `getNextChipData` calls on a decoded trigger: the sequence of
chips yielded until exhaustion. -/
def drainLoop : Nat → List RUDecodeDataRec → Nat → List ChipRec
  | 0, _, _ => []
  | fuel + 1, rus, cur =>
    match nextChipYield rus cur with
    | some (c, rus', s) => c :: drainLoop fuel rus' s
    | none => []

/-- All chips yielded by successive `getNextChipData` calls after a decoded
trigger (`mCurRUDecodeID` starts at 0, set by `decodeNextTrigger`). -/
def drainChips (rus : List RUDecodeDataRec) : List ChipRec :=
  drainLoop ((rus.map (fun ru => ru.chipsData.length)).sum + 1) rus 0

/-- The decode path of claim C1: cache the whole stream, decode the next
trigger, yield all chips. -/
def decodePipeline (M : Mapping) (stream : List Cell) :
    ReaderState × List ChipRec :=
  let st := cacheLinksDataModel M {} stream
  let pr := decodeNextTriggerModel M st
  (pr.1, drainChips pr.1.rus)

end RawPix

namespace RawPix

/-- The 9-byte chunk a GBT data word takes from a cable buffer: up to 9 bytes,
zero-filled. -/
def chunkOf (l : List Nat) : List Nat :=
  l.take 9 ++ List.replicate (9 - min 9 l.length) 0

/-- A cable buffer as reassembled by the decoder: the encoder's bytes followed
by the zero fill of the last partial chunk. -/
def pad9 (l : List Nat) : List Nat :=
  l ++ List.replicate ((9 - l.length % 9) % 9) 0

/-- The cable indices served in one `emitPass` call, in visiting order. -/
def activeCap (lanes : Nat) : Nat → Nat → (Nat → List Nat) → Nat → List Nat
  | 0, _, _, _ => []
  | cl + 1, icab, bufs, room =>
    if room = 0 then []
    else if lanes &&& (1 <<< icab) ≠ 0 ∧ bufs icab ≠ [] then
      icab :: activeCap lanes cl (icab + 1) bufs (room - 1)
    else activeCap lanes cl (icab + 1) bufs room

theorem activeCap_ge (lanes cl : Nat) : ∀ icab bufs room j,
    j ∈ activeCap lanes cl icab bufs room → icab ≤ j ∧ j < icab + cl := by
  induction cl with
  | zero => intro icab bufs room j h; simp [activeCap] at h
  | succ cl ih =>
    intro icab bufs room j h
    rw [activeCap] at h
    split at h
    · simp at h
    · split at h
      · rcases List.mem_cons.1 h with rfl | h2
        · omega
        · have := ih _ _ _ _ h2
          omega
      · have := ih _ _ _ _ h
        omega

theorem activeCap_update_high (lanes cl : Nat) : ∀ icab bufs room i v, i < icab →
    activeCap lanes cl icab (Function.update bufs i v) room =
      activeCap lanes cl icab bufs room := by
  induction cl with
  | zero => intro icab bufs room i v h; simp [activeCap]
  | succ cl ih =>
    intro icab bufs room i v h
    rw [activeCap, activeCap]
    rw [Function.update_noteq (by omega)]
    split
    · rfl
    · split
      · rw [ih _ _ _ _ _ (by omega)]
      · rw [ih _ _ _ _ _ (by omega)]

theorem emitPass_eq (M : Mapping) (ruType lanes : Nat) (hwid : Nat → Nat)
    (cl : Nat) : ∀ icab bufs room,
    emitPass M ruType lanes hwid cl icab bufs room =
      ((activeCap lanes cl icab bufs room).map
        (fun j => GbtWord.dataW (chunkOf (bufs j)) (M.getGBTHeaderRUType ruType (hwid j))),
       fun j => if j ∈ activeCap lanes cl icab bufs room then (bufs j).drop 9
                else bufs j) := by
  induction cl with
  | zero =>
    intro icab bufs room
    rw [emitPass, activeCap]
    simp
  | succ cl ih =>
    intro icab bufs room
    rw [emitPass, activeCap]
    split
    · simp
    · split
      next hact =>
        rw [ih]
        rw [activeCap_update_high lanes cl (icab + 1) bufs (room - 1) icab _ (by omega)]
        simp only [Prod.mk.injEq]
        constructor
        · simp only [List.map_cons]
          congr 1
          apply List.map_congr_left
          intro j hj
          have hge := activeCap_ge lanes cl (icab + 1) bufs (room - 1) j hj
          rw [Function.update_noteq (by omega)]
        · funext j
          by_cases hji : j = icab
          · subst hji
            have hnm : j ∉ activeCap lanes cl (j + 1) bufs (room - 1) := by
              intro hmem
              have := activeCap_ge lanes cl (j + 1) bufs (room - 1) j hmem
              omega
            simp [hnm]
          · rw [Function.update_noteq hji]
            by_cases hmem : j ∈ activeCap lanes cl (icab + 1) bufs (room - 1) <;>
              simp [hmem, hji]
      next hact =>
        rw [ih]

end RawPix

namespace RawPix

theorem activeCap_length_le (lanes cl : Nat) : ∀ icab bufs room,
    (activeCap lanes cl icab bufs room).length ≤ room := by
  induction cl with
  | zero => intro icab bufs room; rw [activeCap]; simp
  | succ cl ih =>
    intro icab bufs room
    rw [activeCap]
    split
    · simp
    · split
      · have := ih (icab + 1) bufs (room - 1)
        simp only [List.length_cons]
        omega
      · exact ih (icab + 1) bufs room

/-- The `nGBTWordsNeeded` summation restricted to the cable range
`[icab, icab + cl)`. -/
def wordsInRange (lanes : Nat) (bufs : Nat → List Nat) (icab cl : Nat) : Nat :=
  ((List.range' icab cl).map
    (fun j => if lanes &&& (1 <<< j) ≠ 0 then nWordsFor (bufs j).length else 0)).sum

theorem nGBTWordsNeededFor_eq_wordsInRange (lanes nCables : Nat)
    (bufs : Nat → List Nat) :
    nGBTWordsNeededFor lanes nCables bufs = wordsInRange lanes bufs 0 nCables := by
  unfold nGBTWordsNeededFor wordsInRange
  rw [List.range_eq_range']

theorem wordsInRange_congr (lanes : Nat) {bufs bufs' : Nat → List Nat}
    (icab cl : Nat) (h : ∀ j, icab ≤ j → j < icab + cl → bufs j = bufs' j) :
    wordsInRange lanes bufs icab cl = wordsInRange lanes bufs' icab cl := by
  unfold wordsInRange
  congr 1
  apply List.map_congr_left
  intro j hj
  rw [List.mem_range'] at hj
  rw [h j (by omega) (by omega)]

theorem wordsInRange_succ (lanes : Nat) (bufs : Nat → List Nat) (icab cl : Nat) :
    wordsInRange lanes bufs icab (cl + 1) =
      (if lanes &&& (1 <<< icab) ≠ 0 then nWordsFor (bufs icab).length else 0) +
        wordsInRange lanes bufs (icab + 1) cl := by
  unfold wordsInRange
  rw [List.range'_succ]
  simp

theorem nWordsFor_drop9 (l : List Nat) (h : l ≠ []) :
    nWordsFor (l.drop 9).length = nWordsFor l.length - 1 := by
  have hlen : 0 < l.length := List.length_pos.2 h
  unfold nWordsFor
  simp only [List.length_drop]
  split <;> split <;> omega

theorem nWordsFor_pos (l : List Nat) (h : l ≠ []) : 1 ≤ nWordsFor l.length := by
  have hlen : 0 < l.length := List.length_pos.2 h
  unfold nWordsFor
  split <;> omega

theorem activeCap_words (lanes cl : Nat) : ∀ icab bufs room,
    wordsInRange lanes
        (fun j => if j ∈ activeCap lanes cl icab bufs room then (bufs j).drop 9
                  else bufs j) icab cl =
      wordsInRange lanes bufs icab cl - (activeCap lanes cl icab bufs room).length ∧
    (activeCap lanes cl icab bufs room).length ≤ wordsInRange lanes bufs icab cl := by
  induction cl with
  | zero =>
    intro icab bufs room
    rw [activeCap]
    simp [wordsInRange]
  | succ cl ih =>
    intro icab bufs room
    rw [activeCap]
    split
    next hroom =>
      constructor
      · apply wordsInRange_congr
        intro j _ _
        simp
      · simp
    next hroom =>
      split
      next hact =>
        have hne : bufs icab ≠ [] := hact.2
        have htail := ih (icab + 1) bufs (room - 1)
        have hmem : icab ∈ icab :: activeCap lanes cl (icab + 1) bufs (room - 1) :=
          List.mem_cons_self _ _
        have hcongr : wordsInRange lanes
            (fun j => if j ∈ icab :: activeCap lanes cl (icab + 1) bufs (room - 1)
                      then (bufs j).drop 9 else bufs j) (icab + 1) cl =
            wordsInRange lanes
              (fun j => if j ∈ activeCap lanes cl (icab + 1) bufs (room - 1)
                        then (bufs j).drop 9 else bufs j) (icab + 1) cl := by
          apply wordsInRange_congr
          intro j hj1 hj2
          have hji : j ≠ icab := by omega
          by_cases hm : j ∈ activeCap lanes cl (icab + 1) bufs (room - 1)
          · simp [hm, List.mem_cons]
          · simp [hm, List.mem_cons]
            exact fun h => absurd h hji
        have hpos := nWordsFor_pos _ hne
        constructor
        · rw [wordsInRange_succ, wordsInRange_succ, hcongr, htail.1,
              if_pos hact.1, if_pos hact.1, if_pos hmem, nWordsFor_drop9 _ hne]
          simp only [List.length_cons]
          have h2 := htail.2
          omega
        · rw [wordsInRange_succ]
          rw [if_pos hact.1]
          simp only [List.length_cons]
          have h2 := htail.2
          omega
      next hact =>
        have htail := ih (icab + 1) bufs room
        push_neg at hact
        constructor
        · rw [wordsInRange_succ, wordsInRange_succ]
          have hcongr : wordsInRange lanes
              (fun j => if j ∈ activeCap lanes cl (icab + 1) bufs room
                        then (bufs j).drop 9 else bufs j) (icab + 1) cl =
              wordsInRange lanes bufs (icab + 1) cl -
                (activeCap lanes cl (icab + 1) bufs room).length := htail.1
          rw [hcongr]
          have hhd : (if icab ∈ activeCap lanes cl (icab + 1) bufs room
              then (bufs icab).drop 9 else bufs icab) = bufs icab := by
            have : icab ∉ activeCap lanes cl (icab + 1) bufs room := by
              intro hm; have := activeCap_ge lanes cl (icab + 1) bufs room icab hm; omega
            simp [this]
          rw [hhd]
          have := htail.2
          by_cases hl : lanes &&& (1 <<< icab) ≠ 0
          · have hbe : bufs icab = [] := by
              by_contra hne
              exact absurd (hact hl) hne
            simp [hl, hbe, nWordsFor]
          · simp [hl]
        · rw [wordsInRange_succ]
          have := htail.2
          omega

end RawPix


namespace RawPix

theorem activeCap_ne_nil (lanes cl : Nat) : ∀ icab bufs room, room ≠ 0 →
    wordsInRange lanes bufs icab cl ≠ 0 →
    activeCap lanes cl icab bufs room ≠ [] := by
  induction cl with
  | zero =>
    intro icab bufs room _ hw
    exact absurd (by simp [wordsInRange]) hw
  | succ cl ih =>
    intro icab bufs room hroom hw
    rw [activeCap]
    rw [if_neg hroom]
    split
    · simp
    next hact =>
      apply ih
      · exact hroom
      · rw [wordsInRange_succ] at hw
        intro h0
        apply hw
        rw [h0]
        push_neg at hact
        by_cases hl : lanes &&& (1 <<< icab) ≠ 0
        · have : bufs icab = [] := by
            by_contra hne
            exact absurd (hact hl) hne
          simp [hl, this, nWordsFor]
        · simp [hl]

/-- The RDHs of the pages that `linkLoop` will open after the current one,
given `n` words still to write, `w` words already in the open page and page
counter `p`: a new page is opened whenever the remaining words exceed the room
of the open page; its RDH gets the incremented page counter, the remaining
word count, and `stop = 1` exactly when the remainder fits a single page. -/
def futureRDHs (M : Mapping) (info : RUInfo) (il : Nat) (ir : IR)
    (imp : Bool) : Nat → Nat → Nat → List RDH
  | n, w, p =>
    if h : maxGBTWordsPerPacket ≤ w ∨ n ≤ maxGBTWordsPerPacket - w then []
    else
      encodeRDH M info il ir imp (p + 1)
        (if n - (maxGBTWordsPerPacket - w) < maxGBTWordsPerPacket then 1 else 0)
        (n - (maxGBTWordsPerPacket - w)) ::
      futureRDHs M info il ir imp (n - (maxGBTWordsPerPacket - w)) 0 (p + 1)
  termination_by n _ _ => n
  decreasing_by push_neg at h; omega

theorem futureRDHs_shift (M : Mapping) (info : RUInfo) (il : Nat) (ir : IR)
    (imp : Bool) (n w p k : Nat) (hk : k ≤ n) (hwk : w + k < maxGBTWordsPerPacket) :
    futureRDHs M info il ir imp n w p =
      futureRDHs M info il ir imp (n - k) (w + k) p := by
  conv_lhs => rw [futureRDHs]
  conv_rhs => rw [futureRDHs]
  by_cases h2 : n ≤ maxGBTWordsPerPacket - w
  · rw [dif_pos (Or.inr h2), dif_pos (Or.inr (by omega))]
  · have harg : n - (maxGBTWordsPerPacket - w) =
        (n - k) - (maxGBTWordsPerPacket - (w + k)) := by omega
    rw [dif_neg (by push_neg; exact ⟨by omega, by omega⟩),
        dif_neg (by push_neg; exact ⟨by omega, by omega⟩), harg]

theorem linkLoop_rdhs (M : Mapping) (info : RUInfo) (il : Nat) (ir : IR)
    (imp : Bool) (lanes : Nat) (hwid : Nat → Nat) : ∀ fuel n bufs w rdh ws p,
    n = wordsInRange lanes bufs 0 info.nCables →
    w < maxGBTWordsPerPacket → n < fuel →
    (linkLoop M info il ir imp lanes hwid fuel n bufs w rdh ws p).map Page.rdh =
      rdh :: futureRDHs M info il ir imp n w p := by
  intro fuel
  induction fuel with
  | zero => intro n bufs w rdh ws p _ _ h; omega
  | succ fuel ih =>
    intro n bufs w rdh ws p hn hw hfuel
    rw [linkLoop]
    simp only [emitPass_eq]
    set A := activeCap lanes info.nCables 0 bufs (maxGBTWordsPerPacket - w) with hA
    have hAlen : A.length ≤ maxGBTWordsPerPacket - w :=
      activeCap_length_le lanes info.nCables 0 bufs _
    have hAwords := activeCap_words lanes info.nCables 0 bufs
      (maxGBTWordsPerPacket - w)
    have hk : (A.map (fun j => GbtWord.dataW (chunkOf (bufs j))
        (M.getGBTHeaderRUType info.ruType (hwid j)))).length = A.length := by
      simp
    split
    next hstop =>
      rw [hk] at hstop
      have hfut : futureRDHs M info il ir imp n w p = [] := by
        rw [futureRDHs]
        apply dif_pos
        rcases hstop with h0 | hnk
        · right
          have : wordsInRange lanes bufs 0 info.nCables = 0 := by
            by_contra hne
            exact absurd (List.length_eq_zero.1 h0)
              (activeCap_ne_nil lanes info.nCables 0 bufs _ (by omega) hne)
          omega
        · right
          omega
      rw [hfut]
      simp
    next hstop =>
      rw [hk] at hstop
      push_neg at hstop
      split
      next hbreak =>
        rw [hk] at hbreak
        have hkeq : A.length = maxGBTWordsPerPacket - w := by omega
        simp only [hk]
        rw [List.map_cons]
        have hn' : n - A.length =
            wordsInRange lanes (fun j => if j ∈ A then (bufs j).drop 9 else bufs j)
              0 info.nCables := by
          rw [(hAwords).1, ← hn]
        rw [ih (n - A.length) _ 0
          (encodeRDH M info il ir imp (p + 1)
            (if n - A.length < maxGBTWordsPerPacket then 1 else 0) (n - A.length))
          [.header (p + 1) lanes] (p + 1) hn'
          (by norm_num [maxGBTWordsPerPacket, MaxGBTPacketBytes, RDHSize, GBTPaddedWordLength])
          (by omega)]
        conv_rhs => rw [futureRDHs]
        rw [dif_neg (by push_neg; exact ⟨by omega, by omega⟩)]
        rw [hkeq]
      next hbreak =>
        rw [hk] at hbreak
        simp only [hk]
        have hn' : n - A.length =
            wordsInRange lanes (fun j => if j ∈ A then (bufs j).drop 9 else bufs j)
              0 info.nCables := by
          rw [(hAwords).1, ← hn]
        rw [ih (n - A.length) _ (w + A.length) rdh
          (ws ++ A.map (fun j => GbtWord.dataW (chunkOf (bufs j))
            (M.getGBTHeaderRUType info.ruType (hwid j)))) p hn' (by omega) (by omega)]
        rw [futureRDHs_shift M info il ir imp n w p A.length (by omega) (by omega)]

end RawPix

namespace RawPix

theorem maxGBTWordsPerPacket_eq : maxGBTWordsPerPacket = 506 := by
  norm_num [maxGBTWordsPerPacket, MaxGBTPacketBytes, RDHSize, GBTPaddedWordLength]

theorem futureRDHs_length (M : Mapping) (info : RUInfo) (il : Nat) (ir : IR)
    (imp : Bool) : ∀ n p,
    (futureRDHs M info il ir imp n 0 p).length = (n - 1) / maxGBTWordsPerPacket := by
  intro n
  induction n using Nat.strong_induction_on with
  | _ n ih =>
    intro p
    rw [futureRDHs]
    simp only [maxGBTWordsPerPacket_eq, Nat.sub_zero]
    by_cases h : (506 : Nat) ≤ 0 ∨ n ≤ 506
    · rw [dif_pos h]
      simp only [List.length_nil]
      omega
    · rw [dif_neg h]
      simp only [List.length_cons]
      have hr := ih (n - 506) (by omega) (p + 1)
      rw [maxGBTWordsPerPacket_eq] at hr
      rw [hr]
      omega

theorem futureRDHs_pageCnts (M : Mapping) (info : RUInfo) (il : Nat) (ir : IR)
    (imp : Bool) : ∀ n p,
    (futureRDHs M info il ir imp n 0 p).map RDH.pageCnt =
      List.range' (p + 1) (futureRDHs M info il ir imp n 0 p).length := by
  intro n
  induction n using Nat.strong_induction_on with
  | _ n ih =>
    intro p
    rw [futureRDHs]
    simp only [maxGBTWordsPerPacket_eq, Nat.sub_zero]
    by_cases h : (506 : Nat) ≤ 0 ∨ n ≤ 506
    · rw [dif_pos h]; rfl
    · rw [dif_neg h]
      simp only [List.map_cons, List.length_cons, List.range'_succ, List.cons.injEq]
      exact ⟨rfl, ih (n - 506) (by omega) (p + 1)⟩

theorem futureRDHs_stops (M : Mapping) (info : RUInfo) (il : Nat) (ir : IR)
    (imp : Bool) : ∀ n p, maxGBTWordsPerPacket < n →
    (futureRDHs M info il ir imp n 0 p).map RDH.stop =
      List.replicate ((futureRDHs M info il ir imp n 0 p).length - 1) 0 ++
        [if maxGBTWordsPerPacket ∣ n then 0 else 1] := by
  intro n
  induction n using Nat.strong_induction_on with
  | _ n ih =>
    intro p hn
    rw [maxGBTWordsPerPacket_eq] at hn
    rw [futureRDHs]
    simp only [maxGBTWordsPerPacket_eq, Nat.sub_zero]
    rw [dif_neg (by omega)]
    by_cases h2 : n - 506 ≤ 506
    · have hnil : futureRDHs M info il ir imp (n - 506) 0 (p + 1) = [] := by
        rw [futureRDHs]
        simp only [maxGBTWordsPerPacket_eq, Nat.sub_zero]
        exact dif_pos (Or.inr (by omega))
      rw [hnil]
      simp only [List.map_cons, List.map_nil, List.length_cons, List.length_nil]
      have hhd : (encodeRDH M info il ir imp (p + 1)
          (if n - 506 < 506 then 1 else 0) (n - 506)).stop =
          (if n - 506 < 506 then 1 else 0) := by simp only [encodeRDH]
      rw [hhd]
      have : (if n - 506 < 506 then (1 : Nat) else 0) =
          (if (506 : Nat) ∣ n then 0 else 1) := by
        by_cases hd : (506 : Nat) ∣ n
        · rw [if_pos hd, if_neg (by omega)]
        · rw [if_neg hd, if_pos (by omega)]
      rw [this]
      rfl
    · have hlen := futureRDHs_length M info il ir imp (n - 506) (p + 1)
      rw [maxGBTWordsPerPacket_eq] at hlen
      have hr := ih (n - 506) (by omega) (p + 1) (by rw [maxGBTWordsPerPacket_eq]; omega)
      rw [maxGBTWordsPerPacket_eq] at hr
      rw [List.map_cons, hr]
      have hhd : (encodeRDH M info il ir imp (p + 1)
          (if n - 506 < 506 then 1 else 0) (n - 506)).stop =
          (if n - 506 < 506 then 1 else 0) := by simp only [encodeRDH]
      rw [hhd, if_neg (by omega)]
      have hdiv : ((506 : Nat) ∣ (n - 506)) ↔ ((506 : Nat) ∣ n) := by
        constructor <;> intro hd <;> omega
      simp only [hdiv]
      have hlpos : 1 ≤ (futureRDHs M info il ir imp (n - 506) 0 (p + 1)).length := by
        rw [hlen]; omega
      simp only [List.length_cons]
      rw [show (futureRDHs M info il ir imp (n - 506) 0 (p + 1)).length + 1 - 1
          = ((futureRDHs M info il ir imp (n - 506) 0 (p + 1)).length - 1) + 1 by omega]
      rw [List.replicate_succ]
      simp

end RawPix

/-- C2 (amended): the pages `fillRULinks` emits for one link and one trigger
have page counters 0, 1, 2, … in order; every page except the last carries
`stop = 0`; and the last page carries `stop = 1` exactly when the trigger
spans at least two pages and its GBT-word count is not an exact multiple of
the per-page capacity — in particular a single-page trigger (and a multi-page
trigger whose last page is completely full) ends with `stop = 0`. -/
theorem C2_fillRULinks_page_structure (M : RawPix.Mapping) (info : RawPix.RUInfo)
    (il : Nat) (ir : RawPix.IR) (imp : Bool) (lanes : Nat) (st : RawPix.CableState) :
    (RawPix.fillRULinksLink M info il ir imp lanes st).map (fun pg => pg.rdh.pageCnt) =
      List.range (RawPix.fillRULinksLink M info il ir imp lanes st).length ∧
    (RawPix.fillRULinksLink M info il ir imp lanes st).map (fun pg => pg.rdh.stop) =
      List.replicate ((RawPix.fillRULinksLink M info il ir imp lanes st).length - 1) 0 ++
        [if 2 ≤ (RawPix.fillRULinksLink M info il ir imp lanes st).length ∧
            ¬ RawPix.maxGBTWordsPerPacket ∣
              RawPix.nGBTWordsNeededFor lanes info.nCables st.cableData
         then 1 else 0] := by
  set n := RawPix.nGBTWordsNeededFor lanes info.nCables st.cableData with hn
  have hmain := RawPix.linkLoop_rdhs M info il ir imp lanes st.cableHWID
    (n + 1) n st.cableData 0
    (RawPix.encodeRDH M info il ir imp 0 0 n) [.header 0 lanes] 0
    (by rw [hn, RawPix.nGBTWordsNeededFor_eq_wordsInRange])
    (by rw [RawPix.maxGBTWordsPerPacket_eq]; omega) (by omega)
  have hfill : RawPix.fillRULinksLink M info il ir imp lanes st =
      RawPix.linkLoop M info il ir imp lanes st.cableHWID (n + 1) n st.cableData 0
        (RawPix.encodeRDH M info il ir imp 0 0 n) [.header 0 lanes] 0 := rfl
  rw [hfill]
  set pages := RawPix.linkLoop M info il ir imp lanes st.cableHWID (n + 1) n
    st.cableData 0 (RawPix.encodeRDH M info il ir imp 0 0 n) [.header 0 lanes] 0
    with hpages
  have hlen : pages.length = (RawPix.futureRDHs M info il ir imp n 0 0).length + 1 := by
    have := congrArg List.length hmain
    simpa using this
  have hflen := RawPix.futureRDHs_length M info il ir imp n 0
  have hmap1 : pages.map (fun pg => pg.rdh.pageCnt) =
      (pages.map RawPix.Page.rdh).map RawPix.RDH.pageCnt := by
    rw [List.map_map]; rfl
  have hmap2 : pages.map (fun pg => pg.rdh.stop) =
      (pages.map RawPix.Page.rdh).map RawPix.RDH.stop := by
    rw [List.map_map]; rfl
  constructor
  · rw [hmap1, hmain, List.map_cons,
        RawPix.futureRDHs_pageCnts M info il ir imp n 0]
    have h0 : (RawPix.encodeRDH M info il ir imp 0 0 n).pageCnt = 0 := by
      simp only [RawPix.encodeRDH]
    rw [h0, hlen]
    rw [List.range_eq_range']
    rw [List.range'_succ]
  · rw [hmap2, hmain, List.map_cons]
    have h0 : (RawPix.encodeRDH M info il ir imp 0 0 n).stop = 0 := by
      simp only [RawPix.encodeRDH]
    rw [h0]
    by_cases hbig : RawPix.maxGBTWordsPerPacket < n
    · rw [RawPix.futureRDHs_stops M info il ir imp n 0 hbig]
      have hbig506 : (506 : Nat) < n := by
        rw [RawPix.maxGBTWordsPerPacket_eq] at hbig; exact hbig
      have hfpos : 1 ≤ (RawPix.futureRDHs M info il ir imp n 0 0).length := by
        rw [hflen, RawPix.maxGBTWordsPerPacket_eq]
        omega
      rw [hlen]
      have hif : (if RawPix.maxGBTWordsPerPacket ∣ n then (0 : Nat) else 1) =
          (if 2 ≤ (RawPix.futureRDHs M info il ir imp n 0 0).length + 1 ∧
              ¬ RawPix.maxGBTWordsPerPacket ∣ n then 1 else 0) := by
        by_cases hd : RawPix.maxGBTWordsPerPacket ∣ n
        · rw [if_pos hd, if_neg (by intro hc; exact hc.2 hd)]
        · rw [if_neg hd, if_pos ⟨by omega, hd⟩]
      rw [hif]
      rw [show (RawPix.futureRDHs M info il ir imp n 0 0).length + 1 - 1 =
        ((RawPix.futureRDHs M info il ir imp n 0 0).length - 1) + 1 by omega]
      rw [List.replicate_succ]
      simp
    · have hnil : RawPix.futureRDHs M info il ir imp n 0 0 = [] := by
        rw [RawPix.futureRDHs]
        exact dif_pos (Or.inr (by omega))
      rw [hnil]
      rw [hlen, hnil]
      simp

/-- C2 counterexample: a trigger that fits in a single page — here one digit
on chip 0 encoded through `digits2raw` — produces exactly one page, and the
RDH of that (last) page has `stop = 0`, not `stop = 1` as the claim states
for the single-page case (the encoder writes the first RDH of a trigger with
`stop = 0` and never rewrites it). -/
theorem C2_counterexample :
    (RawPix.digits2rawPages RawPix.specMapping 0 255 [⟨0, 1, 1⟩] ⟨4, 5⟩ true 0).length = 1 ∧
    ((RawPix.digits2rawPages RawPix.specMapping 0 255 [⟨0, 1, 1⟩] ⟨4, 5⟩ true 0).getLast?).map
      (fun pg => pg.rdh.stop) = some 0 := by
  constructor
  · decide
  · decide

namespace RawPix

/-- The state effect of `fillRULinks` on the RU container (source lines
422-551 minus the page building, which `fillRULinksLink` captures): `nCables`
is set to the RU's cable count (line 429), the per-trigger state is cleared at
the end (lines 548-550: `clearTrigger()` and `nChipsFired = 0`; the
fired-chip count is the length of `chipsData` in this embedding). -/
def fillRULinksState (info : RUInfo) (ru : RUDecodeDataRec) : RUDecodeDataRec :=
  let ru1 := { ru with nCables := info.nCables }
  let ru2 := clearTriggerModel ru1
  { ru2 with chipsData := [] }

/-- The per-RU state effect of one `digits2raw` call (source lines 347-380):
the conversion loops write the ALPIDE records into the cable buffers, and
`fillRULinks` consumes and clears them. -/
def digits2rawRUState (M : Mapping) (ir : IR) (r : Nat) (fired : List EncChip)
    (ru : RUDecodeDataRec) : RUDecodeDataRec :=
  let info := M.getRUInfoSW r
  let st := processChipsLoop M info.ruType ir.bc (M.getNChipsOnRUType info.ruType)
    fired 0 { cableData := ru.cableData, cableHWID := ru.cableHWID }
  fillRULinksState info
    { ru with cableData := st.cableData, cableHWID := st.cableHWID }

theorem convertEmptyChips_cableData_high (M : Mapping) (L : MappingLaws M)
    (r : Nat) (hr : r < M.getNRUs) (bc : Nat) :
    ∀ lo hi st j, hi ≤ M.getNChipsOnRUType (M.getRUInfoSW r).ruType →
    (M.getRUInfoSW r).nCables ≤ j →
    (convertEmptyChipsModel M (M.getRUInfoSW r).ruType bc lo hi st).cableData j =
      st.cableData j := by
  intro lo hi
  unfold convertEmptyChipsModel
  generalize hcnt : hi - lo = cnt
  induction cnt generalizing lo with
  | zero => intro st j _ _; rfl
  | succ cnt ih =>
    intro st j hhi hj
    rw [List.range'_succ, List.foldl_cons]
    have : hi - (lo + 1) = cnt := by omega
    rw [ih (lo + 1) this _ j hhi hj]
    unfold addEmptyChipTo
    have hlt := L.cableSW_lt r lo hr (by omega)
    exact Function.update_noteq (by omega) _ _

theorem convertChip_cableData_high (M : Mapping) (L : MappingLaws M)
    (r : Nat) (hr : r < M.getNRUs) (bc : Nat) (c : EncChip) (st : CableState)
    (j : Nat) (hc : c.id < M.getNChipsOnRUType (M.getRUInfoSW r).ruType)
    (hj : (M.getRUInfoSW r).nCables ≤ j) :
    (convertChipModel M (M.getRUInfoSW r).ruType bc c st).cableData j =
      st.cableData j := by
  unfold convertChipModel
  have hlt := L.cableSW_lt r c.id hr hc
  exact Function.update_noteq (by omega) _ _

theorem processChips_cableData_high (M : Mapping) (L : MappingLaws M)
    (r : Nat) (hr : r < M.getNRUs) (bc : Nat) :
    ∀ fired next st j,
    (∀ c ∈ fired, c.id < M.getNChipsOnRUType (M.getRUInfoSW r).ruType) →
    next ≤ M.getNChipsOnRUType (M.getRUInfoSW r).ruType →
    (M.getRUInfoSW r).nCables ≤ j →
    (processChipsLoop M (M.getRUInfoSW r).ruType bc
        (M.getNChipsOnRUType (M.getRUInfoSW r).ruType) fired next st).cableData j =
      st.cableData j := by
  intro fired
  induction fired with
  | nil =>
    intro next st j _ hnext hj
    rw [processChipsLoop]
    exact convertEmptyChips_cableData_high M L r hr bc next _ st j (by omega) hj
  | cons c rest ih =>
    intro next st j hids hnext hj
    rw [processChipsLoop]
    have hc := hids c (List.mem_cons_self _ _)
    rw [ih (c.id + 1) _ j (fun x hx => hids x (List.mem_cons_of_mem _ hx)) (by omega) hj]
    rw [convertChip_cableData_high M L r hr bc c _ j hc hj]
    exact convertEmptyChips_cableData_high M L r hr bc next c.id st j (by omega) hj

/-- C10: after the per-RU body of a `digits2raw` call — whose tail is
`fillRULinks` ending in `clearTrigger()` and `nChipsFired = 0` — the RU's
per-trigger decode state is empty: every cable buffer is cleared (the ones the
RU uses by `clearTrigger`, the others because the conversion loops never touch
them), `nCables = 0` and no fired chips remain, so a subsequent `digits2raw`
call finds clean cable buffers and cannot mix data of different triggers. -/
theorem C10_digits2raw_clears_trigger_state (M : Mapping) (L : MappingLaws M)
    (ir : IR) (r : Nat) (hr : r < M.getNRUs) (fired : List EncChip)
    (ru : RUDecodeDataRec)
    (hids : ∀ c ∈ fired, c.id < M.getNChipsOnRUType (M.getRUInfoSW r).ruType)
    (hpre : ∀ i, (M.getRUInfoSW r).nCables ≤ i → ru.cableData i = []) :
    (∀ i, (digits2rawRUState M ir r fired ru).cableData i = []) ∧
    (digits2rawRUState M ir r fired ru).nCables = 0 ∧
    (digits2rawRUState M ir r fired ru).chipsData = [] := by
  refine ⟨?_, rfl, rfl⟩
  intro i
  show (fillRULinksState (M.getRUInfoSW r) _).cableData i = []
  unfold fillRULinksState clearTriggerModel
  simp only
  by_cases hi : i < (M.getRUInfoSW r).nCables
  · rw [if_pos hi]
  · rw [if_neg hi]
    rw [processChips_cableData_high M L r hr ir.bc fired 0 _ i hids (by omega) (by omega)]
    exact hpre i (by omega)

/-- Witness for C10 at a concrete input: the spec mapping's RU 0, one fired
chip, a fresh container. -/
theorem C10_witness :
    (∀ i, (digits2rawRUState specMapping ⟨7, 3⟩ 0 [⟨0, [(1, 2)]⟩] {}).cableData i = []) ∧
    (digits2rawRUState specMapping ⟨7, 3⟩ 0 [⟨0, [(1, 2)]⟩] {}).nCables = 0 ∧
    (digits2rawRUState specMapping ⟨7, 3⟩ 0 [⟨0, [(1, 2)]⟩] {}).chipsData = [] :=
  C10_digits2raw_clears_trigger_state specMapping specMapping_laws ⟨7, 3⟩ 0
    (by decide) [⟨0, [(1, 2)]⟩] {}
    (by intro c hc; simp at hc; subst hc; decide)
    (fun i _ => rfl)

end RawPix

namespace RawPix

/-- A decoder input for claim C6: the trigger's pages of RU 1 placed before
the pages of RU 0 in the stream (each link flushed as full zero-padded CRU
pages, as `flushSuperPages` emits them). -/
def c6Stream : List Cell :=
  let pages := digits2rawPages specMapping 0 255 [⟨0, 1, 2⟩, ⟨4, 3, 4⟩] ⟨9, 11⟩ true
  let flush := fun (r : Nat) =>
    let data := (pages r).flatMap Page.cells
    (flushLinkLoop (data.length + 1) data 0 256).1
  flush 1 ++ flush 0

end RawPix

set_option maxRecDepth 100000 in
/-- C6 counterexample: decoding a stream in which RU software id 1 appears
before RU software id 0 yields the chip of RU 1 (global chip id 4) before the
chip of RU 0 (global chip id 0): `getNextChipData` walks the RU containers in
slot order — the order in which the RUs first appeared in the stream
(`getCreateRUDecode` assigns slots sequentially) — not in ascending RU
software id. -/
theorem C6_counterexample :
    ((RawPix.decodePipeline RawPix.specMapping RawPix.c6Stream).2.map
      (fun c => c.chipID)) = [4, 0] ∧
    ((RawPix.decodePipeline RawPix.specMapping RawPix.c6Stream).1.rus.map
      (fun ru => ru.ruInfo.idSW)) = [1, 0] := by
  constructor
  · decide
  · decide

namespace RawPix

/-- Whether a GBT word is a data word. -/
def isDataW : GbtWord → Bool
  | .dataW _ _ => true
  | _ => false

/-- The data words of a page (between the header and the trailer). -/
def pageData (p : Page) : List GbtWord := p.content.filter isDataW

theorem pad9_nil : pad9 [] = [] := rfl

theorem chunk_pad9 (l : List Nat) (h : l ≠ []) :
    chunkOf l ++ pad9 (l.drop 9) = pad9 l := by
  have hlen : 0 < l.length := List.length_pos.2 h
  by_cases hl : l.length ≤ 9
  · rw [List.drop_eq_nil_of_le hl, pad9_nil, List.append_nil]
    unfold chunkOf pad9
    rw [List.take_of_length_le hl]
    congr 1
    congr 1
    omega
  · unfold chunkOf pad9
    rw [show 9 - min 9 l.length = 0 by omega]
    simp only [List.replicate_zero, List.append_nil, List.length_drop]
    rw [← List.append_assoc, List.take_append_drop]
    congr 2
    omega

/-- The mask with exactly the bits of a cable list set. -/
def maskOfList : List Nat → Nat
  | [] => 0
  | c :: t => (1 <<< c) ||| maskOfList t

theorem testBit_maskOfList (ac : List Nat) (b : Nat) :
    (maskOfList ac).testBit b ↔ b ∈ ac := by
  induction ac with
  | nil => simp [maskOfList]
  | cons c t ih =>
    rw [maskOfList]
    rw [Nat.testBit_or]
    simp only [List.mem_cons, Bool.or_eq_true, ih]
    constructor
    · rintro (h1 | h2)
      · left
        rw [Nat.testBit_shiftLeft] at h1
        simp only [Bool.and_eq_true, decide_eq_true_eq] at h1
        have := h1.2
        rw [Nat.testBit_one_eq_true_iff_self_eq_zero] at this
        omega
      · right; exact h2
    · rintro (rfl | h2)
      · left
        rw [Nat.testBit_shiftLeft]
        simp [Nat.testBit_one_eq_true_iff_self_eq_zero]
      · right; exact h2

end RawPix

namespace RawPix

/-- The software cable a GBT word routes to in the decoder. -/
def swOfW (M : Mapping) (t : Nat) (w : GbtWord) : Nat :=
  M.cableHW2SW t w.getCableID

/-- The bytes a word list contributes to cable `c`, in stream order. -/
def routedBytes (M : Mapping) (t c : Nat) : List GbtWord → List Nat
  | [] => []
  | w :: ws => (if swOfW M t w = c then w.payload9 else []) ++ routedBytes M t c ws

/-- The hardware cable id the decoder leaves registered for cable `c` after a
word list (the id of the last word routed to `c`). -/
def hwOf (M : Mapping) (t c : Nat) : List GbtWord → Option Nat
  | [] => none
  | w :: ws =>
    match hwOf M t c ws with
    | some x => some x
    | none => if swOfW M t w = c then some w.getCableID else none

/-- The `lanesWithData` bits a word list sets. -/
def maskOfW (M : Mapping) (t : Nat) : List GbtWord → Nat
  | [] => 0
  | w :: ws => (1 <<< swOfW M t w) ||| maskOfW M t ws

theorem wordEffect_lanesStop (M : Mapping) (t : Nat) (ru : RUDecodeDataRec)
    (w : GbtWord) :
    (wordEffect M t ru w).statistics.lanesStop = ru.statistics.lanesStop := by
  unfold wordEffect
  dsimp only
  split
  · rfl
  · rfl

theorem wordEffect_eq (M : Mapping) (t : Nat) (ru : RUDecodeDataRec)
    (w : GbtWord) (hstop : ru.statistics.lanesStop = 0) :
    wordEffect M t ru w =
      { ru with
        cableData := (Function.update ru.cableData (swOfW M t w)
          (ru.cableData (swOfW M t w) ++ w.payload9)),
        cableHWID := Function.update ru.cableHWID (swOfW M t w) w.getCableID,
        statistics := { ru.statistics with
          lanesWithData := ru.statistics.lanesWithData ||| (1 <<< swOfW M t w) } } := by
  unfold wordEffect swOfW
  rw [if_neg (by rw [hstop, Nat.zero_and]; exact fun hc => hc rfl)]

/-- The field-level view of the word loop's cumulative effect: per-cable
byte routing, last-registered hardware ids, accumulated `lanesWithData`,
everything else untouched (no `ErrDataForStoppedLane` can fire while
`lanesStop = 0`). -/
theorem decodeWordsEffect_spec (M : Mapping) (t : Nat) :
    ∀ (ws : List GbtWord) (ru : RUDecodeDataRec),
    ru.statistics.lanesStop = 0 →
    decodeWordsEffect M t ws ru =
      { ru with
        cableData := fun c => ru.cableData c ++ routedBytes M t c ws,
        cableHWID := fun c => (hwOf M t c ws).getD (ru.cableHWID c),
        statistics := { ru.statistics with
          lanesWithData := ru.statistics.lanesWithData ||| maskOfW M t ws } } := by
  intro ws
  induction ws with
  | nil =>
    intro ru _
    show ru = _
    have h1 : (fun c => ru.cableData c ++ routedBytes M t c []) = ru.cableData := by
      funext c; simp [routedBytes]
    have h2 : (fun c => (hwOf M t c []).getD (ru.cableHWID c)) = ru.cableHWID := by
      funext c; simp [hwOf]
    rw [h1, h2]
    show ru = { ru with statistics := { ru.statistics with
      lanesWithData := ru.statistics.lanesWithData ||| maskOfW M t [] } }
    have h3 : ru.statistics.lanesWithData ||| maskOfW M t [] =
        ru.statistics.lanesWithData := by
      simp [maskOfW]
    rw [h3]
  | cons w ws ih =>
    intro ru hstop
    show decodeWordsEffect M t ws (wordEffect M t ru w) = _
    rw [ih (wordEffect M t ru w) (by rw [wordEffect_lanesStop]; exact hstop)]
    rw [wordEffect_eq M t ru w hstop]
    congr 1
    · funext c
      dsimp only
      by_cases hc : swOfW M t w = c
      · subst hc
        rw [Function.update_same]
        show (ru.cableData (swOfW M t w) ++ w.payload9) ++ _ = _
        rw [List.append_assoc]
        congr 1
        show _ = routedBytes M t (swOfW M t w) (w :: ws)
        rw [routedBytes, if_pos rfl]
      · rw [Function.update_noteq (by omega)]
        congr 1
        show _ = routedBytes M t c (w :: ws)
        rw [routedBytes, if_neg hc, List.nil_append]
    · funext c
      dsimp only
      show (hwOf M t c ws).getD _ = (hwOf M t c (w :: ws)).getD _
      rw [hwOf]
      cases hws : hwOf M t c ws with
      | some x => simp
      | none =>
        simp only [Option.getD_none]
        by_cases hc : swOfW M t w = c
        · subst hc
          rw [Function.update_same, if_pos rfl]
          rfl
        · rw [Function.update_noteq (by omega), if_neg hc]
          rfl
    · dsimp only
      congr 1
      rw [maskOfW, Nat.or_assoc]

theorem routedBytes_append (M : Mapping) (t c : Nat) (a b : List GbtWord) :
    routedBytes M t c (a ++ b) = routedBytes M t c a ++ routedBytes M t c b := by
  induction a with
  | nil => simp [routedBytes]
  | cons w ws ih =>
    rw [List.cons_append, routedBytes, routedBytes, ih, List.append_assoc]

theorem hwOf_append (M : Mapping) (t c : Nat) (a b : List GbtWord) :
    hwOf M t c (a ++ b) =
      match hwOf M t c b with
      | some x => some x
      | none => hwOf M t c a := by
  induction a with
  | nil =>
    rw [List.nil_append, hwOf]
    cases hwOf M t c b <;> rfl
  | cons w ws ih =>
    rw [List.cons_append, hwOf, ih, hwOf]
    cases hwOf M t c b <;> cases hwOf M t c ws <;> simp

theorem maskOfW_append (M : Mapping) (t : Nat) (a b : List GbtWord) :
    maskOfW M t (a ++ b) = maskOfW M t a ||| maskOfW M t b := by
  induction a with
  | nil => simp [maskOfW]
  | cons w ws ih =>
    rw [List.cons_append, maskOfW, maskOfW, ih, Nat.or_assoc]

/-- The chips still to be yielded from slot `cur` onwards, in slot order. -/
def dropFlat (rus : List RUDecodeDataRec) (cur : Nat) : List ChipRec :=
  ((rus.drop cur).map (fun ru => ru.chipsData.drop ru.lastChipChecked)).flatten

/-- The number of chips still to be yielded from slot `cur` onwards. -/
def sumRem (rus : List RUDecodeDataRec) (cur : Nat) : Nat :=
  ((rus.drop cur).map (fun ru => ru.chipsData.length - ru.lastChipChecked)).sum

theorem dropFlat_ge (rus : List RUDecodeDataRec) (cur : Nat)
    (h : rus.length ≤ cur) : dropFlat rus cur = [] := by
  unfold dropFlat
  rw [List.drop_eq_nil_of_le h]
  rfl

theorem dropFlat_step (rus : List RUDecodeDataRec) (cur : Nat)
    (h : cur < rus.length) :
    dropFlat rus cur =
      (rus.getD cur {}).chipsData.drop (rus.getD cur {}).lastChipChecked ++
        dropFlat rus (cur + 1) := by
  unfold dropFlat
  rw [List.drop_eq_getElem_cons h, List.map_cons, List.flatten_cons,
      List.getD_eq_getElem rus {} h]

theorem sumRem_ge (rus : List RUDecodeDataRec) (cur : Nat)
    (h : rus.length ≤ cur) : sumRem rus cur = 0 := by
  unfold sumRem
  rw [List.drop_eq_nil_of_le h]
  rfl

theorem sumRem_step (rus : List RUDecodeDataRec) (cur : Nat)
    (h : cur < rus.length) :
    sumRem rus cur =
      ((rus.getD cur {}).chipsData.length - (rus.getD cur {}).lastChipChecked) +
        sumRem rus (cur + 1) := by
  unfold sumRem
  rw [List.drop_eq_getElem_cons h, List.map_cons, List.sum_cons,
      List.getD_eq_getElem rus {} h]

theorem findFiredSlot_ge (rus : List RUDecodeDataRec) (cur : Nat)
    (h : rus.length ≤ cur) : findFiredSlot rus cur = none := by
  unfold findFiredSlot
  rw [show rus.length - cur = 0 from by omega]
  rfl

theorem findFiredSlot_rec (rus : List RUDecodeDataRec) (cur : Nat)
    (h : cur < rus.length) :
    findFiredSlot rus cur =
      if (rus.getD cur {}).lastChipChecked < (rus.getD cur {}).chipsData.length
      then some cur else findFiredSlot rus (cur + 1) := by
  unfold findFiredSlot
  rw [show rus.length - cur = (rus.length - (cur + 1)) + 1 from by omega,
      List.range'_succ]
  by_cases hp : (rus.getD cur {}).lastChipChecked < (rus.getD cur {}).chipsData.length
  · rw [List.find?_cons_of_pos _ (by simpa using hp), if_pos hp]
  · rw [List.find?_cons_of_neg _ (by simpa using hp), if_neg hp]

theorem findFiredSlot_none (rus : List RUDecodeDataRec) : ∀ k cur,
    rus.length - cur ≤ k →
    findFiredSlot rus cur = none →
    ∀ j, cur ≤ j → j < rus.length →
      (rus.getD j {}).chipsData.length ≤ (rus.getD j {}).lastChipChecked := by
  intro k
  induction k with
  | zero =>
    intro cur hk _ j hj1 hj2
    omega
  | succ k ih =>
    intro cur hk hn j hj1 hj2
    by_cases hc : cur < rus.length
    · rw [findFiredSlot_rec rus cur hc] at hn
      split at hn
      · exact absurd hn (by simp)
      next hp =>
        by_cases hjc : j = cur
        · subst hjc; omega
        · exact ih (cur + 1) (by omega) hn j (by omega) hj2
    · omega

theorem findFiredSlot_some (rus : List RUDecodeDataRec) : ∀ k cur s,
    rus.length - cur ≤ k →
    findFiredSlot rus cur = some s →
    cur ≤ s ∧ s < rus.length ∧
      (rus.getD s {}).lastChipChecked < (rus.getD s {}).chipsData.length ∧
      ∀ j, cur ≤ j → j < s →
        (rus.getD j {}).chipsData.length ≤ (rus.getD j {}).lastChipChecked := by
  intro k
  induction k with
  | zero =>
    intro cur s hk hs
    rw [findFiredSlot_ge rus cur (by omega)] at hs
    exact absurd hs (by simp)
  | succ k ih =>
    intro cur s hk hs
    by_cases hc : cur < rus.length
    · rw [findFiredSlot_rec rus cur hc] at hs
      split at hs
      next hp =>
        have hsc : s = cur := by
          have := Option.some.inj hs
          omega
        subst hsc
        exact ⟨le_refl _, hc, hp, fun j h1 h2 => by omega⟩
      next hp =>
        have := ih (cur + 1) s (by omega) hs
        refine ⟨by omega, this.2.1, this.2.2.1, ?_⟩
        intro j hj1 hj2
        by_cases hjc : j = cur
        · subst hjc; omega
        · exact this.2.2.2 j (by omega) hj2
    · rw [findFiredSlot_ge rus cur (by omega)] at hs
      exact absurd hs (by simp)

theorem dropFlat_skip (rus : List RUDecodeDataRec) : ∀ k cur s,
    s - cur ≤ k → cur ≤ s →
    (∀ j, cur ≤ j → j < s →
      (rus.getD j {}).chipsData.length ≤ (rus.getD j {}).lastChipChecked) →
    dropFlat rus cur = dropFlat rus s ∧ sumRem rus cur = sumRem rus s := by
  intro k
  induction k with
  | zero =>
    intro cur s hk hcs _
    rw [show cur = s from by omega]
    exact ⟨rfl, rfl⟩
  | succ k ih =>
    intro cur s hk hcs hemp
    by_cases hc : cur = s
    · rw [hc]; exact ⟨rfl, rfl⟩
    · by_cases hlen : cur < rus.length
      · have h1 := hemp cur (le_refl _) (by omega)
        have ht := ih (cur + 1) s (by omega) (by omega)
          (fun j hj1 hj2 => hemp j (by omega) hj2)
        rw [dropFlat_step rus cur hlen, sumRem_step rus cur hlen,
            List.drop_eq_nil_of_le h1]
        rw [show (rus.getD cur {}).chipsData.length -
              (rus.getD cur {}).lastChipChecked = 0 from by omega]
        simpa using ht
      · have hcur := dropFlat_ge rus cur (by omega)
        have hs := dropFlat_ge rus s (by omega)
        have hcur2 := sumRem_ge rus cur (by omega)
        have hs2 := sumRem_ge rus s (by omega)
        rw [hcur, hs, hcur2, hs2]
        exact ⟨rfl, rfl⟩

theorem modifySlot_length (rus : List RUDecodeDataRec) (s : Nat)
    (f : RUDecodeDataRec → RUDecodeDataRec) :
    (modifySlot rus s f).length = rus.length := by
  unfold modifySlot
  cases rus.get? s <;> simp

theorem modifySlot_getD_self (rus : List RUDecodeDataRec) (s : Nat)
    (f : RUDecodeDataRec → RUDecodeDataRec) (h : s < rus.length) :
    (modifySlot rus s f).getD s {} = f (rus.getD s {}) := by
  unfold modifySlot
  rw [List.get?_eq_getElem? rus s, List.getElem?_eq_getElem h]
  show (rus.set s (f rus[s])).getD s {} = f (rus.getD s {})
  rw [List.getD_eq_getElem (rus.set s (f rus[s])) {} (by simpa using h),
      List.getElem_set_self (by simpa using h), List.getD_eq_getElem rus {} h]

theorem modifySlot_getD_ne (rus : List RUDecodeDataRec) (s : Nat)
    (f : RUDecodeDataRec → RUDecodeDataRec) (j : Nat) (h : j ≠ s) :
    (modifySlot rus s f).getD j {} = rus.getD j {} := by
  unfold modifySlot
  cases hg : rus.get? s with
  | none => rfl
  | some ru =>
    show (rus.set s (f ru)).getD j {} = rus.getD j {}
    by_cases hj : j < rus.length
    · rw [List.getD_eq_getElem (rus.set s (f ru)) {} (by simpa using hj),
          List.getElem_set_ne (by omega) (by simpa using hj),
          List.getD_eq_getElem rus {} hj]
    · rw [List.getD_eq_default (rus.set s (f ru)) {} (by simpa using not_lt.1 hj),
          List.getD_eq_default rus {} (by simpa using not_lt.1 hj)]

theorem dropFlat_modify_after (rus : List RUDecodeDataRec)
    (f : RUDecodeDataRec → RUDecodeDataRec) : ∀ k s cur, s < cur →
    rus.length - cur ≤ k →
    dropFlat (modifySlot rus s f) cur = dropFlat rus cur ∧
    sumRem (modifySlot rus s f) cur = sumRem rus cur := by
  intro k
  induction k with
  | zero =>
    intro s cur _ hk
    rw [dropFlat_ge _ cur (by rw [modifySlot_length]; omega),
        dropFlat_ge rus cur (by omega),
        sumRem_ge _ cur (by rw [modifySlot_length]; omega),
        sumRem_ge rus cur (by omega)]
    exact ⟨rfl, rfl⟩
  | succ k ih =>
    intro s cur hs hk
    by_cases hc : cur < rus.length
    · have hm := modifySlot_getD_ne rus s f cur (by omega)
      have ht := ih s (cur + 1) (by omega) (by omega)
      rw [dropFlat_step _ cur (by rw [modifySlot_length]; omega),
          dropFlat_step rus cur hc, sumRem_step _ cur (by rw [modifySlot_length]; omega),
          sumRem_step rus cur hc, hm, ht.1, ht.2]
      exact ⟨rfl, rfl⟩
    · rw [dropFlat_ge _ cur (by rw [modifySlot_length]; omega),
          dropFlat_ge rus cur (by omega),
          sumRem_ge _ cur (by rw [modifySlot_length]; omega),
          sumRem_ge rus cur (by omega)]
      exact ⟨rfl, rfl⟩

theorem drainLoop_spec : ∀ fuel rus cur, sumRem rus cur < fuel →
    drainLoop fuel rus cur = dropFlat rus cur := by
  intro fuel
  induction fuel with
  | zero => intro rus cur h; omega
  | succ fuel ih =>
    intro rus cur hf
    cases hs : findFiredSlot rus cur with
    | none =>
      have hyield : nextChipYield rus cur = none := by
        unfold nextChipYield
        rw [hs]
      rw [drainLoop, hyield]
      have hemp := findFiredSlot_none rus (rus.length - cur) cur (le_refl _) hs
      symm
      by_cases hc : cur ≤ rus.length
      · have := dropFlat_skip rus (rus.length - cur) cur rus.length (by omega) hc
          (fun j h1 h2 => hemp j h1 h2)
        rw [this.1, dropFlat_ge rus rus.length (le_refl _)]
      · exact dropFlat_ge rus cur (by omega)
    | some s =>
      have hyield : nextChipYield rus cur = some
          ((rus.getD s {}).chipsData.getD (rus.getD s {}).lastChipChecked
             { chipID := 0, ir := {}, trigger := 0, hits := [] },
           modifySlot rus s
             (fun ru => { ru with lastChipChecked := ru.lastChipChecked + 1 }),
           s) := by
        unfold nextChipYield
        rw [hs]
      rw [drainLoop, hyield]
      dsimp only
      have hc := findFiredSlot_some rus (rus.length - cur) cur s (le_refl _) hs
      obtain ⟨hcs, hslen, hp, hemp⟩ := hc
      have hskip := dropFlat_skip rus (s - cur) cur s (le_refl _) hcs hemp
      have hlen2 : (modifySlot rus s
          (fun ru => { ru with lastChipChecked := ru.lastChipChecked + 1 })).length =
          rus.length := modifySlot_length _ _ _
      have hget2 := modifySlot_getD_self rus s
        (fun ru => { ru with lastChipChecked := ru.lastChipChecked + 1 }) hslen
      have hafter := dropFlat_modify_after rus
        (fun ru => { ru with lastChipChecked := ru.lastChipChecked + 1 })
        (rus.length - (s + 1)) s (s + 1) (by omega) (by omega)
      have hsum2 : sumRem (modifySlot rus s
          (fun ru => { ru with lastChipChecked := ru.lastChipChecked + 1 })) s < fuel := by
        rw [sumRem_step _ s (by omega), hget2, hafter.2]
        rw [hskip.2, sumRem_step rus s hslen] at hf
        dsimp only
        omega
      rw [ih _ s hsum2]
      rw [hskip.1, dropFlat_step rus s hslen,
          List.drop_eq_getElem_cons
            (by omega : (rus.getD s {}).lastChipChecked < (rus.getD s {}).chipsData.length),
          List.getD_eq_getElem (rus.getD s {}).chipsData _ (by omega)]
      rw [dropFlat_step _ s (by omega), hget2, hafter.1]
      rfl

/-- Every chip still unchecked, yielded in RU-slot order: what successive
`getNextChipData` calls return. -/
theorem drainChips_eq_dropFlat (rus : List RUDecodeDataRec) :
    drainChips rus = dropFlat rus 0 := by
  unfold drainChips
  apply drainLoop_spec
  have : sumRem rus 0 ≤ (rus.map (fun ru => ru.chipsData.length)).sum := by
    unfold sumRem
    rw [List.drop_zero]
    apply List.sum_le_sum
    intro ru _
    omega
  omega

end RawPix

/-- C6 (amended): within one decoded trigger, successive `getNextChipData`
calls yield the chips slot by slot in the order the RU containers were
created by `getCreateRUDecode` (the order the RUs first appeared in the input
stream), concatenating each slot's `chipsData`; the yield order is *not* the
RU-software-id ascending order when the stream presents the RUs out of
order. -/
theorem C6_drain_follows_slot_order (rus : List RawPix.RUDecodeDataRec)
    (h : ∀ ru ∈ rus, ru.lastChipChecked = 0) :
    RawPix.drainChips rus = (rus.map RawPix.RUDecodeDataRec.chipsData).flatten := by
  rw [RawPix.drainChips_eq_dropFlat]
  unfold RawPix.dropFlat
  rw [List.drop_zero]
  congr 1
  apply List.map_congr_left
  intro ru hru
  rw [h ru hru, List.drop_zero]

/-- Witness for `C6_drain_follows_slot_order` at a concrete two-slot state. -/
theorem C6_drain_follows_slot_order_witness :
    (∀ ru ∈ [({ chipsData := [{ chipID := 4, ir := {}, trigger := 0, hits := [] }] } :
          RawPix.RUDecodeDataRec),
        { chipsData := [{ chipID := 0, ir := {}, trigger := 0, hits := [(1, 2)] }] }],
      ru.lastChipChecked = 0) ∧
    RawPix.drainChips
        [({ chipsData := [{ chipID := 4, ir := {}, trigger := 0, hits := [] }] } :
          RawPix.RUDecodeDataRec),
         { chipsData := [{ chipID := 0, ir := {}, trigger := 0, hits := [(1, 2)] }] }] =
      ([({ chipsData := [{ chipID := 4, ir := {}, trigger := 0, hits := [] }] } :
          RawPix.RUDecodeDataRec),
        { chipsData := [{ chipID := 0, ir := {}, trigger := 0, hits := [(1, 2)] }] }].map
          RawPix.RUDecodeDataRec.chipsData).flatten := by
  refine ⟨?_, C6_drain_follows_slot_order _ ?_⟩ <;>
  · intro ru hru
    rcases List.mem_cons.1 hru with rfl | hru2
    · rfl
    · rcases List.mem_cons.1 hru2 with rfl | hru3
      · rfl
      · exact absurd hru3 (by simp)

namespace RawPix

/-- A cache buffer is densely packed: it is a back-to-back sequence of pages,
each starting with a plausible RDH whose stored `offsetToNext` equals its
`memorySize`, each occupying exactly `memorySize` bytes (the next page starts
`memorySize / 16` units later), with nothing after the last page. -/
def denselyPackedFuel : Nat → List Cell → Bool
  | _, [] => true
  | 0, _ :: _ => false
  | fuel + 1, c :: rest =>
    isRDHHeuristic (readRDH (c :: rest) 0) &&
    (readRDH (c :: rest) 0).offsetToNext == (readRDH (c :: rest) 0).memorySize &&
    decide (1 ≤ (readRDH (c :: rest) 0).memorySize / GBTPaddedWordLength) &&
    decide ((readRDH (c :: rest) 0).memorySize / GBTPaddedWordLength ≤
      (c :: rest).length) &&
    denselyPackedFuel fuel
      ((c :: rest).drop ((readRDH (c :: rest) 0).memorySize / GBTPaddedWordLength))

/-- `denselyPackedFuel` with enough fuel for the whole buffer. -/
def denselyPacked (data : List Cell) : Bool := denselyPackedFuel data.length data

theorem denselyPackedFuel_nil (f : Nat) : denselyPackedFuel f [] = true := by
  cases f <;> rfl

theorem denselyPackedFuel_mono : ∀ f f' d, f ≤ f' →
    denselyPackedFuel f d = true → denselyPackedFuel f' d = true := by
  intro f
  induction f with
  | zero =>
    intro f' d _ hd
    cases d with
    | nil => cases f' <;> rfl
    | cons c rest => exact absurd hd (by rw [denselyPackedFuel]; simp)
  | succ f ih =>
    intro f' d hff hd
    cases d with
    | nil => cases f' <;> rfl
    | cons c rest =>
      match f', hff with
      | f' + 1, hff =>
        rw [denselyPackedFuel] at hd
        rw [denselyPackedFuel]
        simp only [Bool.and_eq_true] at hd ⊢
        exact ⟨hd.1, ih f' _ (by omega) hd.2⟩

theorem readRDH_append_left (a b : List Cell) (pos : Nat) (h : pos < a.length) :
    readRDH (a ++ b) pos = readRDH a pos := by
  unfold readRDH
  rw [List.getD_eq_getElem (a ++ b) zeroCell (by rw [List.length_append]; omega),
      List.getElem_append_left h, List.getD_eq_getElem a zeroCell h]

theorem denselyPackedFuel_append : ∀ f a b,
    denselyPackedFuel f a = true → denselyPacked b = true →
    denselyPackedFuel (f + b.length) (a ++ b) = true := by
  intro f
  induction f with
  | zero =>
    intro a b ha hb
    cases a with
    | nil => exact denselyPackedFuel_mono b.length _ b (by omega) hb
    | cons c rest => exact absurd ha (by rw [denselyPackedFuel]; simp)
  | succ f ih =>
    intro a b ha hb
    cases a with
    | nil =>
      rw [List.nil_append]
      exact denselyPackedFuel_mono b.length _ b (by omega) hb
    | cons c rest =>
      rw [denselyPackedFuel] at ha
      simp only [Bool.and_eq_true, beq_iff_eq, decide_eq_true_eq] at ha
      obtain ⟨⟨⟨⟨hh, ho⟩, h1⟩, h2⟩, hrec⟩ := ha
      have hread : readRDH ((c :: rest) ++ b) 0 = readRDH (c :: rest) 0 :=
        readRDH_append_left (c :: rest) b 0 (by simp)
      have hgoal : denselyPackedFuel (f + b.length + 1) ((c :: rest) ++ b) = true := by
        rw [List.cons_append, denselyPackedFuel]
        simp only [Bool.and_eq_true, beq_iff_eq, decide_eq_true_eq]
        rw [← List.cons_append, hread]
        refine ⟨⟨⟨⟨hh, ho⟩, h1⟩, ?_⟩, ?_⟩
        · rw [List.length_append]
          simp only [List.length_cons] at h2 ⊢
          omega
        · rw [List.drop_append_of_le_length h2]
          exact ih _ b hrec hb
      rw [show f + 1 + b.length = f + b.length + 1 from by omega]
      exact hgoal

/-- A plausible RDH read comes from an `rdhC` cell. -/
theorem heuristic_cell (buf : List Cell) (pos : Nat)
    (h : isRDHHeuristic (readRDH buf pos) = true) :
    buf.getD pos zeroCell = Cell.rdhC (readRDH buf pos) := by
  cases hc : buf.getD pos zeroCell with
  | rdhC hh =>
    have he : readRDH buf pos = hh := by unfold readRDH; rw [hc]
    rw [he]
  | rdhTail =>
    have he : readRDH buf pos = zeroRDH := by unfold readRDH; rw [hc]
    rw [he] at h
    exact absurd h (by decide)
  | gbt w =>
    have he : readRDH buf pos = zeroRDH := by unfold readRDH; rw [hc]
    rw [he] at h
    exact absurd h (by decide)
  | junk =>
    have he : readRDH buf pos = zeroRDH := by unfold readRDH; rw [hc]
    rw [he] at h
    exact absurd h (by decide)

/-- The page slice `cacheLinksData` copies into the link cache is itself a
densely packed single page. -/
theorem block_packed (buf : List Cell) (pos : Nat)
    (h : isRDHHeuristic (readRDH buf pos) = true)
    (h1 : 1 ≤ (readRDH buf pos).memorySize / GBTPaddedWordLength)
    (h2 : pos + (readRDH buf pos).memorySize / GBTPaddedWordLength ≤ buf.length) :
    denselyPacked (patchFirstCell
      ((buf.drop pos).take ((readRDH buf pos).memorySize / GBTPaddedWordLength))
      (readRDH buf pos).memorySize) = true := by
  have hpos : pos < buf.length := by omega
  have hdrop : buf.drop pos = buf[pos] :: buf.drop (pos + 1) :=
    List.drop_eq_getElem_cons hpos
  have hcell : buf[pos] = Cell.rdhC (readRDH buf pos) := by
    rw [← List.getD_eq_getElem buf zeroCell hpos]
    exact heuristic_cell buf pos h
  obtain ⟨k, hk⟩ : ∃ k, (readRDH buf pos).memorySize / GBTPaddedWordLength = k + 1 :=
    ⟨(readRDH buf pos).memorySize / GBTPaddedWordLength - 1, by omega⟩
  rw [hk, hdrop, hcell, List.take_succ_cons]
  unfold patchFirstCell
  have hlen : (List.take k (buf.drop (pos + 1))).length = k := by
    rw [List.length_take, List.length_drop]
    omega
  unfold denselyPacked
  simp only [List.length_cons, hlen]
  rw [denselyPackedFuel]
  simp only [Bool.and_eq_true, beq_iff_eq, decide_eq_true_eq]
  have hr : readRDH (Cell.rdhC { readRDH buf pos with
      offsetToNext := (readRDH buf pos).memorySize } ::
      List.take k (buf.drop (pos + 1))) 0 =
      { readRDH buf pos with offsetToNext := (readRDH buf pos).memorySize } := rfl
  rw [hr]
  have hmem : ({ readRDH buf pos with
      offsetToNext := (readRDH buf pos).memorySize } : RDH).memorySize =
      (readRDH buf pos).memorySize := rfl
  have hheu : isRDHHeuristic { readRDH buf pos with
      offsetToNext := (readRDH buf pos).memorySize } = true := h
  refine ⟨⟨⟨⟨hheu, rfl⟩, ?_⟩, ?_⟩, ?_⟩
  · rw [hmem]; omega
  · rw [hmem, hk]
    simp only [List.length_cons, hlen]
    omega
  · rw [hmem, hk]
    rw [List.drop_eq_nil_of_le (by simp only [List.length_cons, hlen]; omega)]
    exact denselyPackedFuel_nil k

/-- The cache invariant of C9: every cached link buffer is densely packed. -/
def linksPacked (st : ReaderState) : Prop :=
  ∀ ru ∈ st.rus, ∀ il lk, ru.links il = some lk → denselyPacked lk.data = true

theorem linksPacked_modify (rus : List RUDecodeDataRec) (slot : Nat)
    (f : RUDecodeDataRec → RUDecodeDataRec)
    (hrus : ∀ ru ∈ rus, ∀ il lk, ru.links il = some lk → denselyPacked lk.data = true)
    (hf : ∀ ru, (∀ il lk, ru.links il = some lk → denselyPacked lk.data = true) →
      ∀ il lk, (f ru).links il = some lk → denselyPacked lk.data = true) :
    ∀ ru ∈ modifySlot rus slot f, ∀ il lk, ru.links il = some lk →
      denselyPacked lk.data = true := by
  intro ru hru
  unfold modifySlot at hru
  cases hg : rus.get? slot with
  | none => rw [hg] at hru; exact hrus ru hru
  | some r0 =>
    rw [hg] at hru
    rcases List.mem_or_eq_of_mem_set hru with hmem | rfl
    · exact hrus ru hmem
    · exact hf r0 (hrus r0 (by
        have := List.get?_eq_getElem? rus slot
        rw [this] at hg
        exact List.getElem?_mem hg))

theorem getCreateRU_packed (M : Mapping) (st : ReaderState) (r : Nat)
    (hst : linksPacked st) : linksPacked (getCreateRU M st r).1 := by
  unfold getCreateRU
  split
  · intro ru hru il lk hlk
    dsimp only at hru
    rcases List.mem_append.1 hru with hm | hm
    · exact hst ru hm il lk hlk
    · have hh : ru = { ruInfo := M.getRUInfoSW r } := by simpa using hm
      rw [hh] at hlk
      exact Option.noConfusion hlk
  · exact hst

theorem cacheBody_packed (M : Mapping) (rdh : RDH) (pageCells : List Cell)
    (st : ReaderState) (enough : List (Nat × Nat))
    (hst : linksPacked st) (hpage : denselyPacked pageCells = true) :
    linksPacked (cacheBody M rdh pageCells st enough).1 := by
  have h1 : linksPacked (getCreateRU M st (M.feeId2RUSW rdh.feeId)).1 :=
    getCreateRU_packed M st _ hst
  have happ : ∀ ru2 : RUDecodeDataRec,
      (∀ il lk, ru2.links il = some lk → denselyPacked lk.data = true) →
      ∀ il lk,
        ({ ru2 with links := (Function.update ru2.links rdh.linkID
            (some (let lk := (ru2.links rdh.linkID).getD {}
                   { lk with data := lk.data ++ pageCells,
                             lastPageSize := rdh.memorySize,
                             nTriggers := lk.nTriggers +
                               (if (match ((getCreateRU M st (M.feeId2RUSW rdh.feeId)).1.rus.getD
                                     (getCreateRU M st (M.feeId2RUSW rdh.feeId)).2 {}).links rdh.linkID with
                                   | some link =>
                                     !(isSameRUandTrigger
                                       (readRDH link.data
                                         (link.data.length - link.lastPageSize / GBTPaddedWordLength))
                                       rdh)
                                   | none => true) then 1 else 0) }))) } :
          RUDecodeDataRec).links il = some lk →
        denselyPacked lk.data = true := by
    intro ru2 hru2 il lk hlk
    dsimp only at hlk
    by_cases hil : il = rdh.linkID
    · rw [hil, Function.update_same] at hlk
      have hx := Option.some.inj hlk
      rw [← hx]
      dsimp only
      have hold : denselyPacked ((ru2.links rdh.linkID).getD {}).data = true := by
        cases ho : ru2.links rdh.linkID with
        | none => rfl
        | some lk0 => exact hru2 rdh.linkID lk0 ho
      unfold denselyPacked
      rw [List.length_append]
      exact denselyPackedFuel_append _ _ _ hold hpage
    · rw [Function.update_noteq hil] at hlk
      exact hru2 il lk hlk
  unfold cacheBody
  dsimp only
  cases hlo : ((getCreateRU M st (M.feeId2RUSW rdh.feeId)).1.rus.getD
      (getCreateRU M st (M.feeId2RUSW rdh.feeId)).2 {}).links rdh.linkID with
  | some lk0 =>
    intro ru hru il lk hlk
    dsimp only at hru
    refine linksPacked_modify _ _ _ h1 ?_ ru hru il lk hlk
    intro ru2 hru2 il2 lk2 hlk2
    revert hlk2
    have := happ ru2 hru2 il2 lk2
    rw [hlo] at this
    exact this
  | none =>
    intro ru hru il lk hlk
    dsimp only at hru
    have h2 : ∀ ru3 ∈ modifySlot (getCreateRU M st (M.feeId2RUSW rdh.feeId)).1.rus
        (getCreateRU M st (M.feeId2RUSW rdh.feeId)).2
        (fun ru => { ru with links := Function.update ru.links rdh.linkID (some {}) }),
        ∀ il lk, ru3.links il = some lk → denselyPacked lk.data = true := by
      apply linksPacked_modify _ _ _ h1
      intro ru3 hru3 il3 lk3 hlk3
      dsimp only at hlk3
      by_cases hil : il3 = rdh.linkID
      · rw [hil, Function.update_same] at hlk3
        rw [← Option.some.inj hlk3]
        rfl
      · rw [Function.update_noteq hil] at hlk3
        exact hru3 il3 lk3 hlk3
    refine linksPacked_modify _ _ _ h2 ?_ ru hru il lk hlk
    intro ru2 hru2 il2 lk2 hlk2
    revert hlk2
    have := happ ru2 hru2 il2 lk2
    rw [hlo] at this
    exact this

theorem findNextRDHPos_heuristic (buf : List Cell) : ∀ fuel pos p,
    findNextRDHPos buf pos fuel = some p →
    isRDHHeuristic (readRDH buf p) = true := by
  intro fuel
  induction fuel with
  | zero => intro pos p h; exact absurd h (by rw [findNextRDHPos]; simp)
  | succ fuel ih =>
    intro pos p h
    rw [findNextRDHPos] at h
    split at h
    · exact absurd h (by simp)
    · split at h
      next hheu =>
        rw [show p = pos + 1 from (Option.some.inj h).symm]
        simpa using hheu
      · exact ih (pos + 1) p h

theorem cacheLoop_packed (M : Mapping) (buf : List Cell)
    (hwf : ∀ pos, isRDHHeuristic (readRDH buf pos) = true →
      1 ≤ (readRDH buf pos).memorySize / GBTPaddedWordLength ∧
      pos + (readRDH buf pos).memorySize / GBTPaddedWordLength ≤ buf.length) :
    ∀ fuel pos st enough, linksPacked st →
    linksPacked (cacheLoop M buf fuel pos st enough) := by
  intro fuel
  induction fuel with
  | zero => intro pos st enough hst; exact hst
  | succ fuel ih =>
    intro pos st enough hst
    rw [cacheLoop]
    have hfin : ∀ (st2 : ReaderState) en2, linksPacked st2 →
        linksPacked (finishCache st2 en2) := by
      intro st2 en2 h2
      unfold finishCache
      split <;> exact h2
    cases hpos : (if isRDHHeuristic (readRDH buf pos) then some pos
        else findNextRDHPos buf pos (buf.length - pos)) with
    | none => exact hst
    | some pos2 =>
      have hheu : isRDHHeuristic (readRDH buf pos2) = true := by
        split at hpos
        next hh => rw [← Option.some.inj hpos]; exact hh
        · exact findNextRDHPos_heuristic buf _ pos pos2 hpos
      have hw := hwf pos2 hheu
      have hbody := cacheBody_packed M (readRDH buf pos2)
        (patchFirstCell
          ((buf.drop pos2).take ((readRDH buf pos2).memorySize / GBTPaddedWordLength))
          (readRDH buf pos2).memorySize) st enough hst
        (block_packed buf pos2 hheu hw.1 hw.2)
      dsimp only
      split
      · exact hfin _ _ hbody
      · split
        · exact hfin _ _ hbody
        · exact ih _ _ _ hbody

end RawPix

/-- C9: invariant of `cacheLinksData` — on a well-formed input stream (every
unit passing the RDH heuristic carries a `memorySize` of at least one padded
word that fits in the remaining buffer), every page stored in a link's cache
buffer occupies exactly its RDH `memorySize` bytes and has its stored
`offsetToNext` rewritten to `memorySize`, so the cached pages are densely
packed back to back (`denselyPacked`) even when the input stream used fixed
8-KB CRU pages with zero tail padding. -/
theorem C9_cached_pages_densely_packed (M : RawPix.Mapping) (buf : List RawPix.Cell)
    (hwf : ∀ pos, RawPix.isRDHHeuristic (RawPix.readRDH buf pos) = true →
      1 ≤ (RawPix.readRDH buf pos).memorySize / RawPix.GBTPaddedWordLength ∧
      pos + (RawPix.readRDH buf pos).memorySize / RawPix.GBTPaddedWordLength ≤
        buf.length) :
    ∀ ru ∈ (RawPix.cacheLinksDataModel M {} buf).rus, ∀ il lk,
      ru.links il = some lk → RawPix.denselyPacked lk.data = true := by
  unfold RawPix.cacheLinksDataModel
  split
  · intro ru hru
    exact absurd hru (by simp)
  · exact RawPix.cacheLoop_packed M buf hwf _ 0 {} []
      (by intro ru hru; exact absurd hru (by simp))

namespace RawPix

/-- A two-page input buffer for the C9 witness: a 32-byte page (RDH unit plus
one GBT unit) followed by a full 8-KB page truncated to its RDH alone is not
used — instead a second 32-byte page, so the whole buffer is covered. -/
def c9Buf : List Cell :=
  [.rdhC { memorySize := 32, offsetToNext := 32 }, .gbt (.header 0 3),
   .rdhC { memorySize := 32, offsetToNext := 32 }, .gbt (.trailer 3 0 1)]

end RawPix

/-- Witness for `C9_cached_pages_densely_packed` on a concrete two-page
buffer. -/
theorem C9_cached_pages_densely_packed_witness :
    (∀ pos, RawPix.isRDHHeuristic (RawPix.readRDH RawPix.c9Buf pos) = true →
      1 ≤ (RawPix.readRDH RawPix.c9Buf pos).memorySize / RawPix.GBTPaddedWordLength ∧
      pos + (RawPix.readRDH RawPix.c9Buf pos).memorySize / RawPix.GBTPaddedWordLength ≤
        RawPix.c9Buf.length) ∧
    (∀ ru ∈ (RawPix.cacheLinksDataModel RawPix.specMapping {} RawPix.c9Buf).rus,
      ∀ il lk, ru.links il = some lk → RawPix.denselyPacked lk.data = true) := by
  have hwf : ∀ pos, RawPix.isRDHHeuristic (RawPix.readRDH RawPix.c9Buf pos) = true →
      1 ≤ (RawPix.readRDH RawPix.c9Buf pos).memorySize / RawPix.GBTPaddedWordLength ∧
      pos + (RawPix.readRDH RawPix.c9Buf pos).memorySize / RawPix.GBTPaddedWordLength ≤
        RawPix.c9Buf.length := by
    intro pos h
    match pos with
    | 0 => exact ⟨by decide, by decide⟩
    | 1 => exact absurd h (by decide)
    | 2 => exact ⟨by decide, by decide⟩
    | 3 => exact absurd h (by decide)
    | (n + 4) =>
      have : RawPix.readRDH RawPix.c9Buf (n + 4) = RawPix.zeroRDH := by
        unfold RawPix.readRDH
        rw [List.getD_eq_default _ _
          (by simp only [RawPix.c9Buf, List.length_cons, List.length_nil]; omega)]
        rfl
      rw [this] at h
      exact absurd h (by decide)
  exact ⟨hwf, C9_cached_pages_densely_packed RawPix.specMapping RawPix.c9Buf hwf⟩

namespace RawPix

/-- Modelled from the spec: the byte-level view of the resync scan.  A
serialized `RAWDataHeader` starts with its `headerSize` byte (64) followed by
a reserved byte that must be zero; `byteHeuristic` is `isRDHHeuristic` applied
to a `reinterpret_cast` of the byte position. -/
def byteHeuristic (s : List Nat) (pos : Nat) : Bool :=
  s.getD pos 0 == RDHSize && s.getD (pos + 1) 0 == 0

/-- Modelled from the spec: `findNextRDH` at byte level (source lines
752-782): the raw `uint8_t` pointer advances by `GBTPaddedWordLength` (16)
bytes per probe — never by one byte — until a probe position passes the RDH
heuristic or the buffer ends. -/
def byteFindNextRDH (s : List Nat) : Nat → Nat → Option Nat
  | _, 0 => none
  | pos, fuel + 1 =>
    if pos + GBTPaddedWordLength ≥ s.length then none
    else if byteHeuristic s (pos + GBTPaddedWordLength) then
      some (pos + GBTPaddedWordLength)
    else byteFindNextRDH s (pos + GBTPaddedWordLength) fuel

/-- A well-formed 80-byte stream head for the C3 counterexample: a plausible
RDH start followed by non-zero payload bytes. -/
def c3Bytes : List Nat := RDHSize :: 0 :: List.replicate 78 7

end RawPix

/-- C3 counterexample: a single garbage byte (far below the claimed
`MAX_GBT_PACKET_BYTES - 1` bound) in front of a well-formed stream defeats
the recovery entirely: `findNextRDH` advances 16 bytes at a time, so every
probe stays misaligned by one byte and no RDH is ever found — the decoder
yields none of the stream's triggers, not all of them. -/
theorem C3_counterexample :
    RawPix.byteHeuristic RawPix.c3Bytes 0 = true ∧
    ([(5 : Nat)].length < RawPix.MaxGBTPacketBytes) ∧
    RawPix.byteHeuristic (5 :: RawPix.c3Bytes) 0 = false ∧
    RawPix.byteFindNextRDH (5 :: RawPix.c3Bytes) 0 (5 :: RawPix.c3Bytes).length =
      none := by
  refine ⟨by decide, by decide, by decide, by decide⟩

namespace RawPix

theorem readRDH_shift (g buf : List Cell) (i : Nat) :
    readRDH (g ++ buf) (g.length + i) = readRDH buf i := by
  unfold readRDH
  rw [List.getD_append_right g buf zeroCell (g.length + i) (by omega),
      show g.length + i - g.length = i from by omega]

theorem findNextRDHPos_shift (g buf : List Cell) : ∀ f pos,
    findNextRDHPos (g ++ buf) (g.length + pos) f =
      (findNextRDHPos buf pos f).map (fun q => g.length + q) := by
  intro f
  induction f with
  | zero => intro pos; rfl
  | succ f ih =>
    intro pos
    rw [findNextRDHPos, findNextRDHPos]
    rw [show g.length + pos + 1 = g.length + (pos + 1) from by omega, readRDH_shift]
    by_cases hend : pos + 1 ≥ buf.length
    · rw [if_pos (by rw [List.length_append]; omega), if_pos hend]
      rfl
    · rw [if_neg (by rw [List.length_append]; omega), if_neg hend]
      split
      · rfl
      · exact ih (pos + 1)

theorem findNextRDHPos_mem (buf : List Cell) : ∀ f pos q,
    findNextRDHPos buf pos f = some q → pos < q ∧ q < buf.length := by
  intro f
  induction f with
  | zero => intro pos q h; exact absurd h (by rw [findNextRDHPos]; simp)
  | succ f ih =>
    intro pos q h
    rw [findNextRDHPos] at h
    split at h
    · exact absurd h (by simp)
    next hend =>
      split at h
      · have := Option.some.inj h
        omega
      · have := ih (pos + 1) q h
        omega

theorem findNext_prefix (g buf : List Cell) (hne : buf ≠ [])
    (hg : ∀ i, i < g.length → isRDHHeuristic (readRDH g i) = false)
    (hb0 : isRDHHeuristic (readRDH buf 0) = true) : ∀ f pos,
    pos < g.length → g.length - pos ≤ f →
    findNextRDHPos (g ++ buf) pos f = some g.length := by
  have hbuflen : 1 ≤ buf.length := by
    cases buf with
    | nil => exact absurd rfl hne
    | cons c r => simp
  intro f
  induction f with
  | zero => intro pos h1 h2; omega
  | succ f ih =>
    intro pos h1 h2
    rw [findNextRDHPos]
    rw [if_neg (by rw [List.length_append]; omega)]
    by_cases hp : pos + 1 = g.length
    · rw [hp]
      have : readRDH (g ++ buf) g.length = readRDH buf 0 := by
        have := readRDH_shift g buf 0
        rw [show g.length + 0 = g.length from by omega] at this
        exact this
      rw [if_pos (by rw [this]; exact hb0)]
    · have hrd : readRDH (g ++ buf) (pos + 1) = readRDH g (pos + 1) :=
        readRDH_append_left g buf (pos + 1) (by omega)
      rw [if_neg (by rw [hrd, hg (pos + 1) (by omega)]; simp)]
      exact ih (pos + 1) (by omega) (by omega)

theorem cacheLoop_shift (M : Mapping) (g buf : List Cell) : ∀ fuel pos st en,
    cacheLoop M (g ++ buf) fuel (g.length + pos) st en =
      cacheLoop M buf fuel pos st en := by
  intro fuel
  induction fuel with
  | zero => intro pos st en; rfl
  | succ fuel ih =>
    intro pos st en
    rw [cacheLoop, cacheLoop]
    dsimp only
    rw [readRDH_shift g buf pos]
    have hiter : ∀ q,
        (let rdh := readRDH (g ++ buf) (g.length + q);
         let pr := cacheBody M rdh
           (patchFirstCell
             (((g ++ buf).drop (g.length + q)).take (rdh.memorySize / GBTPaddedWordLength))
             rdh.memorySize) st en;
         if pr.1.nLinks = pr.2.length then finishCache pr.1 pr.2
         else if g.length + q + rdh.offsetToNext / GBTPaddedWordLength ≥
             (g ++ buf).length then finishCache pr.1 pr.2
         else cacheLoop M (g ++ buf) fuel
           (g.length + q + rdh.offsetToNext / GBTPaddedWordLength) pr.1 pr.2) =
        (let rdh := readRDH buf q;
         let pr := cacheBody M rdh
           (patchFirstCell
             ((buf.drop q).take (rdh.memorySize / GBTPaddedWordLength))
             rdh.memorySize) st en;
         if pr.1.nLinks = pr.2.length then finishCache pr.1 pr.2
         else if q + rdh.offsetToNext / GBTPaddedWordLength ≥ buf.length then
           finishCache pr.1 pr.2
         else cacheLoop M buf fuel
           (q + rdh.offsetToNext / GBTPaddedWordLength) pr.1 pr.2) := by
      intro q
      dsimp only
      rw [readRDH_shift g buf q, List.drop_append q]
      split
      · rfl
      · by_cases hend : q + (readRDH buf q).offsetToNext / GBTPaddedWordLength ≥
            buf.length
        · rw [if_pos (by rw [List.length_append]; omega), if_pos hend]
        · rw [if_neg (by rw [List.length_append]; omega), if_neg hend]
          rw [show g.length + q + (readRDH buf q).offsetToNext / GBTPaddedWordLength =
              g.length + (q + (readRDH buf q).offsetToNext / GBTPaddedWordLength) from
              by omega]
          exact ih _ _ _
    by_cases hheu : isRDHHeuristic (readRDH buf pos) = true
    · rw [if_pos hheu, if_pos hheu]
      dsimp only
      exact hiter pos
    · rw [if_neg hheu, if_neg hheu]
      rw [show (g ++ buf).length - (g.length + pos) = buf.length - pos from
          by rw [List.length_append]; omega]
      rw [findNextRDHPos_shift g buf (buf.length - pos) pos]
      cases hq : findNextRDHPos buf pos (buf.length - pos) with
      | none => rfl
      | some q =>
        dsimp only [Option.map]
        exact hiter q

theorem cacheLoop_fuel_irrelevant (M : Mapping) (buf : List Cell)
    (hadv : ∀ pos, isRDHHeuristic (readRDH buf pos) = true →
      1 ≤ (readRDH buf pos).offsetToNext / GBTPaddedWordLength) :
    ∀ n f1 f2 pos st en, pos < buf.length → buf.length - pos ≤ n →
    buf.length - pos < f1 → buf.length - pos < f2 →
    cacheLoop M buf f1 pos st en = cacheLoop M buf f2 pos st en := by
  intro n
  induction n with
  | zero => intro f1 f2 pos st en hpos hn _ _; omega
  | succ n ih =>
    intro f1 f2 pos st en hpos hn h1 h2
    match f1, h1 with
    | f1 + 1, h1 =>
    match f2, h2 with
    | f2 + 1, h2 =>
    rw [cacheLoop, cacheLoop]
    dsimp only
    have hiter : ∀ q, isRDHHeuristic (readRDH buf q) = true → pos ≤ q →
        q < buf.length →
        (let rdh := readRDH buf q;
         let pr := cacheBody M rdh
           (patchFirstCell
             ((buf.drop q).take (rdh.memorySize / GBTPaddedWordLength))
             rdh.memorySize) st en;
         if pr.1.nLinks = pr.2.length then finishCache pr.1 pr.2
         else if q + rdh.offsetToNext / GBTPaddedWordLength ≥ buf.length then
           finishCache pr.1 pr.2
         else cacheLoop M buf f1
           (q + rdh.offsetToNext / GBTPaddedWordLength) pr.1 pr.2) =
        (let rdh := readRDH buf q;
         let pr := cacheBody M rdh
           (patchFirstCell
             ((buf.drop q).take (rdh.memorySize / GBTPaddedWordLength))
             rdh.memorySize) st en;
         if pr.1.nLinks = pr.2.length then finishCache pr.1 pr.2
         else if q + rdh.offsetToNext / GBTPaddedWordLength ≥ buf.length then
           finishCache pr.1 pr.2
         else cacheLoop M buf f2
           (q + rdh.offsetToNext / GBTPaddedWordLength) pr.1 pr.2) := by
      intro q hq hpq hqlen
      dsimp only
      split
      · rfl
      · by_cases hend : q + (readRDH buf q).offsetToNext / GBTPaddedWordLength ≥
            buf.length
        · rw [if_pos hend, if_pos hend]
        · rw [if_neg hend, if_neg hend]
          have hoff := hadv q hq
          exact ih f1 f2 _ _ _ (by omega) (by omega) (by omega) (by omega)
    by_cases hheu : isRDHHeuristic (readRDH buf pos) = true
    · rw [if_pos hheu]
      dsimp only
      exact hiter pos hheu (le_refl _) hpos
    · rw [if_neg hheu]
      cases hq : findNextRDHPos buf pos (buf.length - pos) with
      | none => rfl
      | some q =>
        dsimp only
        have hmem := findNextRDHPos_mem buf _ pos q hq
        exact hiter q (findNextRDHPos_heuristic buf _ pos q hq) (by omega) hmem.2

end RawPix

/-- C3 (amended): the resync skips one whole padded GBT word (16 bytes) at a
time, so it recovers exactly from garbage that consists of whole padded words
none of which parses as a plausible RDH: prefixed by such a block (of any
length up to the claimed `MaxGBTPacketBytes - 1` bound), `cacheLinksData`
produces the same reader state as on the clean stream, so every correctly
framed trigger from the first valid RDH on is still yielded.  (Garbage of any
other byte length misaligns every probe; see the C3 counterexample.) -/
theorem C3_resync_whole_word_garbage (M : RawPix.Mapping) (g buf : List RawPix.Cell)
    (hglen : g.length * RawPix.GBTPaddedWordLength < RawPix.MaxGBTPacketBytes)
    (hg : ∀ i, i < g.length → RawPix.isRDHHeuristic (RawPix.readRDH g i) = false)
    (hne : buf ≠ [])
    (hb0 : RawPix.isRDHHeuristic (RawPix.readRDH buf 0) = true)
    (hadv : ∀ pos, RawPix.isRDHHeuristic (RawPix.readRDH buf pos) = true →
      1 ≤ (RawPix.readRDH buf pos).offsetToNext / RawPix.GBTPaddedWordLength) :
    RawPix.cacheLinksDataModel M {} (g ++ buf) =
      RawPix.cacheLinksDataModel M {} buf := by
  by_cases hg0 : g = []
  · rw [hg0, List.nil_append]
  · have hglen1 : 1 ≤ g.length := by
      cases g with
      | nil => exact absurd rfl hg0
      | cons c r => simp
    have hbuflen : 1 ≤ buf.length := by
      cases buf with
      | nil => exact absurd rfl hne
      | cons c r => simp
    unfold RawPix.cacheLinksDataModel
    rw [if_neg (show ¬((g ++ buf).isEmpty = true) from by
          simp only [List.isEmpty_iff, List.append_eq_nil]
          intro hcon
          exact hg0 hcon.1),
        if_neg (show ¬(buf.isEmpty = true) from by
          simp only [List.isEmpty_iff]
          exact hne)]
    rw [RawPix.cacheLoop, RawPix.cacheLoop]
    dsimp only
    have hrd0 : RawPix.readRDH (g ++ buf) 0 = RawPix.readRDH g 0 :=
      RawPix.readRDH_append_left g buf 0 (by omega)
    rw [hrd0, hg 0 (by omega)]
    rw [if_neg (by simp), if_pos hb0]
    rw [show (g ++ buf).length - 0 = (g ++ buf).length from by omega]
    rw [RawPix.findNext_prefix g buf hne hg hb0 (g ++ buf).length 0 (by omega)
      (by rw [List.length_append]; omega)]
    dsimp only
    have hrdg : RawPix.readRDH (g ++ buf) g.length = RawPix.readRDH buf 0 := by
      have := RawPix.readRDH_shift g buf 0
      rw [show g.length + 0 = g.length from by omega] at this
      exact this
    have hdropg : (g ++ buf).drop g.length = buf := by
      have := @List.drop_append _ g buf 0
      rw [show g.length + 0 = g.length from by omega, List.drop_zero] at this
      exact this
    rw [hrdg, hdropg, show (buf.drop 0) = buf from List.drop_zero buf]
    split
    · rfl
    · have hoff := hadv 0 hb0
      by_cases hend : 0 + (RawPix.readRDH buf 0).offsetToNext /
          RawPix.GBTPaddedWordLength ≥ buf.length
      · rw [if_pos (by rw [List.length_append]; omega), if_pos hend]
      · rw [if_neg (by rw [List.length_append]; omega), if_neg hend]
        rw [show g.length + (RawPix.readRDH buf 0).offsetToNext /
            RawPix.GBTPaddedWordLength = g.length +
            (0 + (RawPix.readRDH buf 0).offsetToNext /
              RawPix.GBTPaddedWordLength) from by omega]
        rw [RawPix.cacheLoop_shift M g buf _ _ _ _]
        rw [List.length_append]
        exact RawPix.cacheLoop_fuel_irrelevant M buf hadv buf.length _ _ _ _ _
          (by omega) (by omega) (by omega) (by omega)

namespace RawPix

/-- A one-page stream for the C3 witness. -/
def c3CellBuf : List Cell :=
  [.rdhC { memorySize := 32, offsetToNext := 32 }, .gbt (.header 0 3)]

end RawPix

/-- Witness for `C3_resync_whole_word_garbage`: one junk padded word before a
one-page stream. -/
theorem C3_resync_whole_word_garbage_witness :
    (([RawPix.Cell.junk] : List RawPix.Cell).length * RawPix.GBTPaddedWordLength <
      RawPix.MaxGBTPacketBytes) ∧
    (∀ i, i < ([RawPix.Cell.junk] : List RawPix.Cell).length →
      RawPix.isRDHHeuristic (RawPix.readRDH [RawPix.Cell.junk] i) = false) ∧
    (RawPix.c3CellBuf ≠ []) ∧
    (RawPix.isRDHHeuristic (RawPix.readRDH RawPix.c3CellBuf 0) = true) ∧
    (∀ pos, RawPix.isRDHHeuristic (RawPix.readRDH RawPix.c3CellBuf pos) = true →
      1 ≤ (RawPix.readRDH RawPix.c3CellBuf pos).offsetToNext /
        RawPix.GBTPaddedWordLength) ∧
    RawPix.cacheLinksDataModel RawPix.specMapping {}
        ([RawPix.Cell.junk] ++ RawPix.c3CellBuf) =
      RawPix.cacheLinksDataModel RawPix.specMapping {} RawPix.c3CellBuf := by
  have hg : ∀ i, i < ([RawPix.Cell.junk] : List RawPix.Cell).length →
      RawPix.isRDHHeuristic (RawPix.readRDH [RawPix.Cell.junk] i) = false := by
    intro i hi
    match i, hi with
    | 0, _ => decide
  have hadv : ∀ pos, RawPix.isRDHHeuristic (RawPix.readRDH RawPix.c3CellBuf pos) = true →
      1 ≤ (RawPix.readRDH RawPix.c3CellBuf pos).offsetToNext /
        RawPix.GBTPaddedWordLength := by
    intro pos h
    match pos with
    | 0 => decide
    | 1 => exact absurd h (by decide)
    | (n + 2) =>
      have : RawPix.readRDH RawPix.c3CellBuf (n + 2) = RawPix.zeroRDH := by
        unfold RawPix.readRDH
        rw [List.getD_eq_default _ _
          (by simp only [RawPix.c3CellBuf, List.length_cons, List.length_nil]; omega)]
        rfl
      rw [this] at h
      exact absurd h (by decide)
  exact ⟨by decide, hg, by decide, by decide, hadv,
    C3_resync_whole_word_garbage RawPix.specMapping [RawPix.Cell.junk]
      RawPix.c3CellBuf (by decide) hg (by decide) (by decide) hadv⟩

namespace RawPix

theorem activeCap_mem (lanes cl : Nat) : ∀ icab bufs room j,
    j ∈ activeCap lanes cl icab bufs room →
    lanes &&& (1 <<< j) ≠ 0 ∧ bufs j ≠ [] := by
  induction cl with
  | zero => intro icab bufs room j h; rw [activeCap] at h; exact absurd h (by simp)
  | succ cl ih =>
    intro icab bufs room j h
    rw [activeCap] at h
    split at h
    · exact absurd h (by simp)
    · split at h
      next hact =>
        rcases List.mem_cons.1 h with rfl | h2
        · exact hact
        · exact ih _ _ _ _ h2
      · exact ih _ _ _ _ h

theorem wordsInRange_lower (lanes : Nat) (bufs : Nat → List Nat) : ∀ cl icab c,
    icab ≤ c → c < icab + cl → lanes &&& (1 <<< c) ≠ 0 →
    nWordsFor (bufs c).length ≤ wordsInRange lanes bufs icab cl := by
  intro cl
  induction cl with
  | zero => intro icab c h1 h2; omega
  | succ cl ih =>
    intro icab c h1 h2 hl
    rw [wordsInRange_succ]
    by_cases hc : c = icab
    · subst hc
      rw [if_pos hl]
      omega
    · have := ih (icab + 1) c (by omega) (by omega) hl
      omega

theorem nWordsFor_zero (l : List Nat) (h : nWordsFor l.length = 0) : l = [] := by
  unfold nWordsFor at h
  split at h
  · exact List.length_eq_zero.1 (by omega)
  · omega

theorem chunk_eq_pad9_short (l : List Nat) (hne : l ≠ []) (hlen : l.length ≤ 9) :
    chunkOf l = pad9 l := by
  have h0 : 0 < l.length := List.length_pos.2 hne
  unfold chunkOf pad9
  rw [List.take_of_length_le hlen]
  congr 2
  omega

/-- The data words of a page of the encoder's shape. -/
theorem pageData_of_shape (rdh : RDH) (pcID lanes : Nat) (dws : List GbtWord)
    (tr : GbtWord) (hdws : ∀ x ∈ dws, isDataW x = true) (htr : isDataW tr = false) :
    pageData { rdh := rdh, content := GbtWord.header pcID lanes :: dws ++ [tr] } =
      dws := by
  unfold pageData
  show List.filter isDataW (GbtWord.header pcID lanes :: dws ++ [tr]) = dws
  rw [List.filter_append, List.filter_cons_of_neg (by simp [isDataW]),
      List.filter_cons_of_neg (by simp [htr]), List.filter_nil, List.append_nil]
  exact List.filter_eq_self.2 hdws

theorem linkLoop_ne_nil (M : Mapping) (info : RUInfo) (il : Nat) (ir : IR)
    (imp : Bool) (lanes : Nat) (hwid : Nat → Nat) :
    ∀ fuel n bufs w rdh ws p,
    linkLoop M info il ir imp lanes hwid fuel n bufs w rdh ws p ≠ [] := by
  intro fuel
  induction fuel with
  | zero => intro n bufs w rdh ws p; rw [linkLoop]; simp
  | succ fuel ih =>
    intro n bufs w rdh ws p
    rw [linkLoop]
    split
    · simp
    · split
      · simp
      · exact ih _ _ _ _ _ _

/-- One pass of the cable loop routed back through the decoder's per-cable
projections: each visited cable contributes its 9-byte chunk, registers its
hardware flag, and raises its `lanesWithData` bit. -/
theorem pass_proj (M : Mapping) (t lanes : Nat) (hwid : Nat → Nat) (nC : Nat)
    (hroute : ∀ j, j < nC →
      M.cableHW2SW t (M.getGBTHeaderRUType t (hwid j) &&& 0x1f) = j) :
    ∀ cl icab bufs room, icab + cl ≤ nC →
    (∀ c, routedBytes M t c ((activeCap lanes cl icab bufs room).map
        (fun j => GbtWord.dataW (chunkOf (bufs j)) (M.getGBTHeaderRUType t (hwid j)))) =
      if c ∈ activeCap lanes cl icab bufs room then chunkOf (bufs c) else []) ∧
    (∀ c, hwOf M t c ((activeCap lanes cl icab bufs room).map
        (fun j => GbtWord.dataW (chunkOf (bufs j)) (M.getGBTHeaderRUType t (hwid j)))) =
      if c ∈ activeCap lanes cl icab bufs room then
        some (M.getGBTHeaderRUType t (hwid c) &&& 0x1f) else none) ∧
    maskOfW M t ((activeCap lanes cl icab bufs room).map
        (fun j => GbtWord.dataW (chunkOf (bufs j)) (M.getGBTHeaderRUType t (hwid j)))) =
      maskOfList (activeCap lanes cl icab bufs room) := by
  intro cl
  induction cl with
  | zero =>
    intro icab bufs room _
    rw [activeCap]
    refine ⟨fun c => ?_, fun c => ?_, rfl⟩
    · rw [List.map_nil, if_neg (by simp)]; rfl
    · rw [List.map_nil, if_neg (by simp)]; rfl
  | succ cl ih =>
    intro icab bufs room hle
    rw [activeCap]
    split
    · refine ⟨fun c => ?_, fun c => ?_, rfl⟩
      · rw [List.map_nil, if_neg (by simp)]; rfl
      · rw [List.map_nil, if_neg (by simp)]; rfl
    · split
      next hact =>
        have hicab : icab < nC := by omega
        have hsw : swOfW M t (GbtWord.dataW (chunkOf (bufs icab))
            (M.getGBTHeaderRUType t (hwid icab))) = icab := by
          unfold swOfW
          show M.cableHW2SW t ((GbtWord.dataW (chunkOf (bufs icab))
            (M.getGBTHeaderRUType t (hwid icab))).getCableID) = icab
          rw [show (GbtWord.dataW (chunkOf (bufs icab))
            (M.getGBTHeaderRUType t (hwid icab))).getCableID =
            M.getGBTHeaderRUType t (hwid icab) &&& 0x1f from rfl]
          exact hroute icab hicab
        have htail := ih (icab + 1) bufs (room - 1) (by omega)
        have hnm : icab ∉ activeCap lanes cl (icab + 1) bufs (room - 1) := by
          intro hmem
          have := activeCap_ge lanes cl (icab + 1) bufs (room - 1) icab hmem
          omega
        refine ⟨fun c => ?_, fun c => ?_, ?_⟩
        · rw [List.map_cons, routedBytes]
          by_cases hc : c = icab
          · subst hc
            rw [if_pos (List.mem_cons_self _ _), if_pos hsw, htail.1 c, if_neg hnm,
                List.append_nil]
            rfl
          · rw [if_neg (by rw [hsw]; omega), htail.1 c, List.nil_append]
            by_cases hm : c ∈ activeCap lanes cl (icab + 1) bufs (room - 1)
            · rw [if_pos hm, if_pos (List.mem_cons.2 (Or.inr hm))]
            · rw [if_neg hm, if_neg (by
                intro hmem
                rcases List.mem_cons.1 hmem with h1 | h1
                · exact hc h1
                · exact hm h1)]
        · rw [List.map_cons, hwOf]
          rw [htail.2.1 c]
          by_cases hm : c ∈ activeCap lanes cl (icab + 1) bufs (room - 1)
          · rw [if_pos hm, if_pos (List.mem_cons.2 (Or.inr hm))]
          · rw [if_neg hm]
            by_cases hc : c = icab
            · subst hc
              rw [if_pos (by rw [hsw]), if_pos (List.mem_cons_self _ _)]
              rfl
            · rw [if_neg (by rw [hsw]; omega), if_neg (by
                intro hmem
                rcases List.mem_cons.1 hmem with h1 | h1
                · exact hc h1
                · exact hm h1)]
        · rw [List.map_cons, maskOfW, htail.2.2, maskOfList, hsw]
      next hact =>
        exact ih (icab + 1) bufs room (by omega)

end RawPix

namespace RawPix

/-- The shape of one page emitted by `fillRULinks`: a GBT data header carrying
the RDH's page counter and the link's lane mask, the data words, and a
trailer — empty for continuation pages, carrying `lanesStop = lanes` and the
`PacketDone` state on the trigger's last page; `memorySize` counts exactly the
page's words, and every page but the last is full. -/
def pageOK (lanes : Nat) (last : Bool) (p : Page) : Prop :=
  ∃ dws, (∀ x ∈ dws, isDataW x = true) ∧
    p.content = GbtWord.header p.rdh.pageCnt lanes :: dws ++
      [if last then GbtWord.trailer lanes 0 (1 <<< PacketDone)
       else GbtWord.trailer 0 0 0] ∧
    p.rdh.memorySize = RDHSize + (dws.length + 2) * GBTPaddedWordLength ∧
    dws.length ≤ maxGBTWordsPerPacket ∧
    (last = false → dws.length = maxGBTWordsPerPacket)

/-- All pages of one link and trigger have the `pageOK` shape (the last one
with the closing trailer). -/
def goodPages (lanes : Nat) : List Page → Prop
  | [] => True
  | p :: rest => pageOK lanes rest.isEmpty p ∧ goodPages lanes rest

end RawPix

namespace RawPix

theorem encodeRDH_memorySize (M : Mapping) (ruInfo : RUInfo) (il : Nat) (ir : IR)
    (imp : Bool) (pc st rem : Nat) :
    (encodeRDH M ruInfo il ir imp pc st rem).memorySize =
      min (RDHSize + (rem + 2) * GBTPaddedWordLength) MaxGBTPacketBytes := by
  simp only [encodeRDH]

theorem encodeRDH_pageCnt (M : Mapping) (ruInfo : RUInfo) (il : Nat) (ir : IR)
    (imp : Bool) (pc st rem : Nat) :
    (encodeRDH M ruInfo il ir imp pc st rem).pageCnt = pc := by
  simp only [encodeRDH]

theorem msz_min_small (k : Nat) (hk : k ≤ maxGBTWordsPerPacket) :
    min (RDHSize + (k + 2) * GBTPaddedWordLength) MaxGBTPacketBytes =
      RDHSize + (k + 2) * GBTPaddedWordLength := by
  rw [maxGBTWordsPerPacket_eq] at hk
  rw [show RDHSize = 64 from rfl, show GBTPaddedWordLength = 16 from rfl,
      show MaxGBTPacketBytes = 8192 from rfl]
  omega

theorem msz_min_big (k : Nat) (hk : maxGBTWordsPerPacket < k) :
    min (RDHSize + (k + 2) * GBTPaddedWordLength) MaxGBTPacketBytes =
      MaxGBTPacketBytes := by
  rw [maxGBTWordsPerPacket_eq] at hk
  rw [show RDHSize = 64 from rfl, show GBTPaddedWordLength = 16 from rfl,
      show MaxGBTPacketBytes = 8192 from rfl]
  omega

end RawPix

namespace RawPix

/-- Merging one pass's words with the projections of the remaining stream
(which sees the buffers with the pass's 9-byte chunks consumed). -/
theorem merge_pass (M : Mapping) (t lanes : Nat) (hwid : Nat → Nat) (nC : Nat)
    (hroute : ∀ j, j < nC →
      M.cableHW2SW t (M.getGBTHeaderRUType t (hwid j) &&& 0x1f) = j)
    (bufs : Nat → List Nat) (room : Nat) (em : List GbtWord)
    (h1 : ∀ c, c < nC → routedBytes M t c em =
      (if lanes &&& (1 <<< c) ≠ 0 then
        pad9 (if c ∈ activeCap lanes nC 0 bufs room then (bufs c).drop 9 else bufs c)
       else []))
    (h2 : ∀ c, nC ≤ c → routedBytes M t c em = [])
    (h3 : ∀ c, c < nC → hwOf M t c em =
      (if lanes &&& (1 <<< c) ≠ 0 ∧
          (if c ∈ activeCap lanes nC 0 bufs room then (bufs c).drop 9 else bufs c) ≠ []
       then some (M.getGBTHeaderRUType t (hwid c) &&& 0x1f) else none))
    (h4 : ∀ c, nC ≤ c → hwOf M t c em = none)
    (h5 : ∀ c, (maskOfW M t em).testBit c ↔
      (c < nC ∧ lanes &&& (1 <<< c) ≠ 0 ∧
        (if c ∈ activeCap lanes nC 0 bufs room then (bufs c).drop 9 else bufs c) ≠ [])) :
    (∀ c, c < nC → routedBytes M t c
        ((activeCap lanes nC 0 bufs room).map (fun j => GbtWord.dataW (chunkOf (bufs j))
          (M.getGBTHeaderRUType t (hwid j))) ++ em) =
      (if lanes &&& (1 <<< c) ≠ 0 then pad9 (bufs c) else [])) ∧
    (∀ c, nC ≤ c → routedBytes M t c
        ((activeCap lanes nC 0 bufs room).map (fun j => GbtWord.dataW (chunkOf (bufs j))
          (M.getGBTHeaderRUType t (hwid j))) ++ em) = []) ∧
    (∀ c, c < nC → hwOf M t c
        ((activeCap lanes nC 0 bufs room).map (fun j => GbtWord.dataW (chunkOf (bufs j))
          (M.getGBTHeaderRUType t (hwid j))) ++ em) =
      (if lanes &&& (1 <<< c) ≠ 0 ∧ bufs c ≠ [] then
        some (M.getGBTHeaderRUType t (hwid c) &&& 0x1f) else none)) ∧
    (∀ c, nC ≤ c → hwOf M t c
        ((activeCap lanes nC 0 bufs room).map (fun j => GbtWord.dataW (chunkOf (bufs j))
          (M.getGBTHeaderRUType t (hwid j))) ++ em) = none) ∧
    (∀ c, (maskOfW M t
        ((activeCap lanes nC 0 bufs room).map (fun j => GbtWord.dataW (chunkOf (bufs j))
          (M.getGBTHeaderRUType t (hwid j))) ++ em)).testBit c ↔
      (c < nC ∧ lanes &&& (1 <<< c) ≠ 0 ∧ bufs c ≠ [])) := by
  have hproj := pass_proj M t lanes hwid nC hroute nC 0 bufs room (by omega)
  have hmemge : ∀ c, c ∈ activeCap lanes nC 0 bufs room → c < nC := by
    intro c hc
    have := activeCap_ge lanes nC 0 bufs room c hc
    omega
  have hmemfacts := activeCap_mem lanes nC 0 bufs room
  refine ⟨?_, ?_, ?_, ?_, ?_⟩
  · intro c hc
    rw [routedBytes_append, hproj.1 c, h1 c hc]
    by_cases hl : lanes &&& (1 <<< c) ≠ 0
    · rw [if_pos hl, if_pos hl]
      by_cases hm : c ∈ activeCap lanes nC 0 bufs room
      · rw [if_pos hm, if_pos hm]
        exact chunk_pad9 (bufs c) (hmemfacts c hm).2
      · rw [if_neg hm, if_neg hm, List.nil_append]
    · rw [if_neg hl, if_neg hl, List.append_nil,
          if_neg (fun hm => hl (hmemfacts c hm).1)]
  · intro c hc
    rw [routedBytes_append, hproj.1 c, h2 c hc, List.append_nil,
        if_neg (fun hm => by have := hmemge c hm; omega)]
  · intro c hc
    rw [hwOf_append, hproj.2.1 c, h3 c hc]
    by_cases hcond : lanes &&& (1 <<< c) ≠ 0 ∧
        (if c ∈ activeCap lanes nC 0 bufs room then (bufs c).drop 9 else bufs c) ≠ []
    · rw [if_pos hcond]
      have hbufne : bufs c ≠ [] := by
        have hb := hcond.2
        by_cases hm : c ∈ activeCap lanes nC 0 bufs room
        · rw [if_pos hm] at hb
          intro h0
          rw [h0] at hb
          exact hb rfl
        · rw [if_neg hm] at hb
          exact hb
      rw [if_pos (show lanes &&& (1 <<< c) ≠ 0 ∧ bufs c ≠ [] from ⟨hcond.1, hbufne⟩)]
    · rw [if_neg hcond]
      by_cases hm : c ∈ activeCap lanes nC 0 bufs room
      · rw [if_pos hm, if_pos (show lanes &&& (1 <<< c) ≠ 0 ∧ bufs c ≠ [] from
          ⟨(hmemfacts c hm).1, (hmemfacts c hm).2⟩)]
      · rw [if_neg hm]
        rw [if_neg (fun hcon => hcond ⟨hcon.1, by rw [if_neg hm]; exact hcon.2⟩)]
  · intro c hc
    rw [hwOf_append, hproj.2.1 c, h4 c hc,
        if_neg (fun hm => by have := hmemge c hm; omega)]
  · intro c
    rw [maskOfW_append, Nat.testBit_or, hproj.2.2, Bool.or_eq_true]
    rw [show ((maskOfList (activeCap lanes nC 0 bufs room)).testBit c = true) ↔
        c ∈ activeCap lanes nC 0 bufs room from testBit_maskOfList _ c]
    constructor
    · rintro (hm | hm)
      · exact ⟨hmemge c hm, (hmemfacts c hm).1, (hmemfacts c hm).2⟩
      · have := (h5 c).1 hm
        refine ⟨this.1, this.2.1, ?_⟩
        have hb := this.2.2
        by_cases hmem : c ∈ activeCap lanes nC 0 bufs room
        · exact (hmemfacts c hmem).2
        · rw [if_neg hmem] at hb
          exact hb
    · rintro ⟨hc, hl, hb⟩
      by_cases hmem : c ∈ activeCap lanes nC 0 bufs room
      · exact Or.inl hmem
      · refine Or.inr ((h5 c).2 ⟨hc, hl, ?_⟩)
        rw [if_neg hmem]
        exact hb

end RawPix

namespace RawPix

/-- The data words of a page whose content is split as already-present words
plus a fresh pass. -/
theorem pageData_shape2 (rdh : RDH) (pcID lanes : Nat) (d1 d2 : List GbtWord)
    (tr : GbtWord) (h1 : ∀ x ∈ d1, isDataW x = true)
    (h2 : ∀ x ∈ d2, isDataW x = true) (htr : isDataW tr = false) :
    pageData { rdh := rdh,
               content := (GbtWord.header pcID lanes :: d1) ++ d2 ++ [tr] } =
      d1 ++ d2 := by
  unfold pageData
  show List.filter isDataW ((GbtWord.header pcID lanes :: d1) ++ d2 ++ [tr]) = d1 ++ d2
  rw [List.filter_append, List.filter_append,
      List.filter_cons_of_neg (by simp [isDataW]),
      List.filter_cons_of_neg (by simp [htr]), List.filter_nil, List.append_nil,
      List.filter_eq_self.2 h1, List.filter_eq_self.2 h2]

/-- The content master lemma for the page-filling loop of `fillRULinks`: the
emitted pages have the `goodPages` shape, and their data words — beyond the
ones already in the open page — route, per software cable, exactly the
zero-padded cable buffers back to the decoder, register the cable-flag
hardware ids and set exactly the lanes that had data. -/
theorem linkLoop_content (M : Mapping) (info : RUInfo) (il : Nat) (ir : IR)
    (imp : Bool) (lanes : Nat) (hwid : Nat → Nat)
    (hroute : ∀ j, j < info.nCables →
      M.cableHW2SW info.ruType (M.getGBTHeaderRUType info.ruType (hwid j) &&& 0x1f) = j) :
    ∀ fuel n bufs w rdh dws0 p,
    n = wordsInRange lanes bufs 0 info.nCables →
    w < maxGBTWordsPerPacket →
    n < fuel →
    rdh.memorySize = min (RDHSize + (n + w + 2) * GBTPaddedWordLength) MaxGBTPacketBytes →
    dws0.length = w →
    (∀ x ∈ dws0, isDataW x = true) →
    goodPages lanes (linkLoop M info il ir imp lanes hwid fuel n bufs w rdh
        (GbtWord.header rdh.pageCnt lanes :: dws0) p) ∧
    ∃ emitted,
      (linkLoop M info il ir imp lanes hwid fuel n bufs w rdh
          (GbtWord.header rdh.pageCnt lanes :: dws0) p).flatMap pageData =
        dws0 ++ emitted ∧
      (∀ c, c < info.nCables → routedBytes M info.ruType c emitted =
        (if lanes &&& (1 <<< c) ≠ 0 then pad9 (bufs c) else [])) ∧
      (∀ c, info.nCables ≤ c → routedBytes M info.ruType c emitted = []) ∧
      (∀ c, c < info.nCables → hwOf M info.ruType c emitted =
        (if lanes &&& (1 <<< c) ≠ 0 ∧ bufs c ≠ [] then
          some (M.getGBTHeaderRUType info.ruType (hwid c) &&& 0x1f) else none)) ∧
      (∀ c, info.nCables ≤ c → hwOf M info.ruType c emitted = none) ∧
      (∀ c, (maskOfW M info.ruType emitted).testBit c ↔
        (c < info.nCables ∧ lanes &&& (1 <<< c) ≠ 0 ∧ bufs c ≠ [])) := by
  intro fuel
  induction fuel with
  | zero => intro n bufs w rdh dws0 p _ _ h; omega
  | succ fuel ih =>
    intro n bufs w rdh dws0 p hn hw hfuel hrdh hlen hdw
    rw [linkLoop]
    simp only [emitPass_eq]
    set A := activeCap lanes info.nCables 0 bufs (maxGBTWordsPerPacket - w) with hA
    set pw := A.map (fun j => GbtWord.dataW (chunkOf (bufs j))
      (M.getGBTHeaderRUType info.ruType (hwid j))) with hpw
    have hAlen : A.length ≤ maxGBTWordsPerPacket - w := by
      have := activeCap_length_le lanes info.nCables 0 bufs (maxGBTWordsPerPacket - w)
      rw [← hA] at this
      exact this
    have hAwords := activeCap_words lanes info.nCables 0 bufs
      (maxGBTWordsPerPacket - w)
    rw [← hA] at hAwords
    have hk : pw.length = A.length := by rw [hpw, List.length_map]
    have hpwdata : ∀ x ∈ pw, isDataW x = true := by
      intro x hx
      rw [hpw] at hx
      obtain ⟨j, _, hj⟩ := List.mem_map.1 hx
      rw [← hj]
      rfl
    split
    next hstop =>
      rw [hk] at hstop
      have hnA : n - A.length = 0 := by
        rcases hstop with h0 | h0
        · have hA0 : A = [] := List.length_eq_zero.1 h0
          have hn0 : n = 0 := by
            by_contra hcon
            refine activeCap_ne_nil lanes info.nCables 0 bufs
              (maxGBTWordsPerPacket - w) (by omega) (by rw [← hn]; exact hcon) ?_
            rw [← hA]
            exact hA0
          omega
        · exact h0
      have hAn : A.length ≤ n := by rw [hn]; exact hAwords.2
      have hBz : wordsInRange lanes
          (fun j => if j ∈ A then (bufs j).drop 9 else bufs j) 0 info.nCables = 0 := by
        rw [hAwords.1, ← hn]
        omega
      have hB0 : ∀ c, c < info.nCables → lanes &&& (1 <<< c) ≠ 0 →
          (if c ∈ A then (bufs c).drop 9 else bufs c) = [] := by
        intro c hc hl
        apply nWordsFor_zero
        have h := wordsInRange_lower lanes
          (fun j => if j ∈ A then (bufs j).drop 9 else bufs j)
          info.nCables 0 c (by omega) (by omega) hl
        rw [hBz] at h
        exact Nat.le_zero.1 h
      have hmerge := merge_pass M info.ruType lanes hwid info.nCables hroute bufs
        (maxGBTWordsPerPacket - w) []
        (by
          intro c hc
          rw [show routedBytes M info.ruType c [] = [] from rfl]
          rw [← hA]
          by_cases hl : lanes &&& (1 <<< c) ≠ 0
          · rw [if_pos hl, hB0 c hc hl, pad9_nil]
          · rw [if_neg hl])
        (by intro c _; rfl)
        (by
          intro c hc
          rw [show hwOf M info.ruType c [] = none from rfl]
          rw [← hA]
          by_cases hl : lanes &&& (1 <<< c) ≠ 0
          · rw [if_neg (fun hcon => hcon.2 (hB0 c hc hl))]
          · rw [if_neg (fun hcon => hl hcon.1)])
        (by intro c _; rfl)
        (by
          intro c
          rw [show maskOfW M info.ruType [] = 0 from rfl]
          rw [← hA]
          simp only [Nat.zero_testBit, Bool.false_eq_true, false_iff]
          rintro ⟨hc, hl, hb⟩
          exact hb (hB0 c hc hl))
      rw [← hA, ← hpw] at hmerge
      have hlenA : (dws0 ++ pw).length = w + A.length := by
        rw [List.length_append, hlen, hk]
      have hdwsall : ∀ x ∈ dws0 ++ pw, isDataW x = true := by
        intro x hx
        rcases List.mem_append.1 hx with h | h
        · exact hdw x h
        · exact hpwdata x h
      have hpd := pageData_shape2 rdh rdh.pageCnt lanes dws0 pw
        (GbtWord.trailer lanes 0 (1 <<< PacketDone)) hdw hpwdata rfl
      constructor
      · show pageOK lanes (List.isEmpty []) _ ∧ goodPages lanes []
        refine ⟨⟨dws0 ++ pw, hdwsall, ?_, ?_, ?_, ?_⟩, trivial⟩
        · show (GbtWord.header rdh.pageCnt lanes :: dws0) ++ pw ++
            [GbtWord.trailer lanes 0 (1 <<< PacketDone)] = _
          simp [List.cons_append, List.append_assoc]
        · show rdh.memorySize = _
          rw [hrdh, hlenA, show n + w = w + A.length from by omega]
          exact msz_min_small (w + A.length) (by omega)
        · rw [hlenA]; omega
        · intro hcon
          exact absurd hcon (by simp)
      · refine ⟨pw ++ [], ?_, hmerge.1, hmerge.2.1, hmerge.2.2.1, hmerge.2.2.2.1,
          hmerge.2.2.2.2⟩
        show pageData _ ++ [] = _
        rw [List.append_nil, List.append_nil, hpd]
    next hstop =>
      rw [hk] at hstop
      push_neg at hstop
      have hApos : 1 ≤ A.length := by
        rcases Nat.eq_zero_or_pos A.length with h0 | h0
        · exact absurd h0 hstop.1
        · exact h0
      have hAn : A.length ≤ n := by rw [hn]; exact hAwords.2
      have hnpos : A.length < n := by
        have := hstop.2
        omega
      have hn2 : n - A.length = wordsInRange lanes
          (fun j => if j ∈ A then (bufs j).drop 9 else bufs j) 0 info.nCables := by
        rw [hAwords.1, ← hn]
      have hlenA : (dws0 ++ pw).length = w + A.length := by
        rw [List.length_append, hlen, hk]
      have hdwsall : ∀ x ∈ dws0 ++ pw, isDataW x = true := by
        intro x hx
        rcases List.mem_append.1 hx with h | h
        · exact hdw x h
        · exact hpwdata x h
      split
      next hbreak =>
        rw [hk] at hbreak
        have hweq : w + A.length = maxGBTWordsPerPacket := by omega
        have hih := ih (n - A.length)
          (fun j => if j ∈ A then (bufs j).drop 9 else bufs j) 0
          (encodeRDH M info il ir imp (p + 1)
            (if n - A.length < maxGBTWordsPerPacket then 1 else 0) (n - A.length))
          [] (p + 1) hn2
          (by rw [maxGBTWordsPerPacket_eq]; omega) (by omega)
          (by rw [encodeRDH_memorySize,
                show n - A.length + 0 + 2 = n - A.length + 2 from by omega])
          rfl (by intro x hx; exact absurd hx (by simp))
        rw [encodeRDH_pageCnt] at hih
        simp only [hk]
        obtain ⟨hgood2, em2, hflat2, hr1, hr2, hh1, hh2, hm1⟩ := hih
        have hmerge := merge_pass M info.ruType lanes hwid info.nCables hroute bufs
          (maxGBTWordsPerPacket - w) em2 hr1 hr2 hh1 hh2 hm1
        have hrestne : linkLoop M info il ir imp lanes hwid fuel (n - A.length)
            (fun j => if j ∈ A then (bufs j).drop 9 else bufs j) 0
            (encodeRDH M info il ir imp (p + 1)
              (if n - A.length < maxGBTWordsPerPacket then 1 else 0) (n - A.length))
            [GbtWord.header (p + 1) lanes] (p + 1) ≠ [] :=
          linkLoop_ne_nil M info il ir imp lanes hwid fuel _ _ _ _ _ _
        have hpd := pageData_shape2 rdh rdh.pageCnt lanes dws0 pw
          (GbtWord.trailer 0 0 0) hdw hpwdata rfl
        constructor
        · show pageOK lanes _ _ ∧ goodPages lanes _
          refine ⟨⟨dws0 ++ pw, hdwsall, ?_, ?_, ?_, ?_⟩, hgood2⟩
          · show (GbtWord.header rdh.pageCnt lanes :: dws0) ++ pw ++
              [GbtWord.trailer 0 0 0] = _
            rw [List.isEmpty_eq_false.mpr hrestne]
            simp [List.cons_append, List.append_assoc]
          · show rdh.memorySize = _
            rw [hrdh, hlenA, hweq]
            rw [msz_min_big (n + w) (by omega)]
            rw [maxGBTWordsPerPacket_eq,
                show RDHSize = 64 from rfl, show GBTPaddedWordLength = 16 from rfl,
                show MaxGBTPacketBytes = 8192 from rfl]
          · rw [hlenA]; omega
          · intro _
            rw [hlenA, hweq]
        · refine ⟨pw ++ em2, ?_, hmerge.1, hmerge.2.1, hmerge.2.2.1,
            hmerge.2.2.2.1, hmerge.2.2.2.2⟩
          rw [List.flatMap_cons, hflat2, hpd, List.nil_append, List.append_assoc]
      next hbreak =>
        rw [hk] at hbreak
        push_neg at hbreak
        have hih := ih (n - A.length)
          (fun j => if j ∈ A then (bufs j).drop 9 else bufs j) (w + A.length)
          rdh (dws0 ++ pw) p hn2 (by omega) (by omega)
          (by rw [hrdh, show n - A.length + (w + A.length) + 2 = n + w + 2 from by omega])
          hlenA hdwsall
        simp only [hk]
        obtain ⟨hgood2, em2, hflat2, hr1, hr2, hh1, hh2, hm1⟩ := hih
        have hmerge := merge_pass M info.ruType lanes hwid info.nCables hroute bufs
          (maxGBTWordsPerPacket - w) em2 hr1 hr2 hh1 hh2 hm1
        have hcw : (GbtWord.header rdh.pageCnt lanes :: dws0) ++ pw =
            GbtWord.header rdh.pageCnt lanes :: (dws0 ++ pw) := by
          rw [List.cons_append]
        rw [hcw]
        refine ⟨hgood2, pw ++ em2, ?_, hmerge.1, hmerge.2.1, hmerge.2.2.1,
          hmerge.2.2.2.1, hmerge.2.2.2.2⟩
        rw [hflat2, List.append_assoc]

end RawPix

namespace RawPix

/-- A page padded to the fixed 8-KB CRU page, as `flushSuperPages` emits it. -/
def paddedPage (p : Page) : List Cell :=
  p.cells ++ List.replicate
    ((MaxGBTPacketBytes - p.rdh.memorySize) / GBTPaddedWordLength) zeroCell

theorem pageOK_byteSize (lanes : Nat) (last : Bool) (p : Page)
    (h : pageOK lanes last p) : p.rdh.memorySize = p.byteSize := by
  obtain ⟨dws, _, hcont, hmsz, _, _⟩ := h
  unfold Page.byteSize
  rw [hcont, hmsz]
  simp only [List.length_append, List.length_cons, List.length_nil]
  rw [show RDHSize = 64 from rfl, show GBTPaddedWordLength = 16 from rfl]
  omega

theorem pageOK_msz_le (lanes : Nat) (last : Bool) (p : Page)
    (h : pageOK lanes last p) : p.rdh.memorySize ≤ MaxGBTPacketBytes := by
  obtain ⟨dws, _, _, hmsz, hle, _⟩ := h
  rw [hmsz]
  rw [maxGBTWordsPerPacket_eq] at hle
  rw [show RDHSize = 64 from rfl, show GBTPaddedWordLength = 16 from rfl,
      show MaxGBTPacketBytes = 8192 from rfl]
  omega

theorem page_cells_length (p : Page) : p.cells.length = 4 + p.content.length := by
  unfold Page.cells
  simp only [List.length_cons, List.length_map]
  omega

theorem goodPages_mem (lanes : Nat) : ∀ ps, goodPages lanes ps →
    ∀ p ∈ ps, ∃ last, pageOK lanes last p := by
  intro ps
  induction ps with
  | nil => intro _ p hp; exact absurd hp (by simp)
  | cons q rest ih =>
    intro hgood p hp
    rcases List.mem_cons.1 hp with rfl | hmem
    · exact ⟨rest.isEmpty, hgood.1⟩
    · exact ih hgood.2 p hmem

/-- `flushSuperPages`' per-link loop on a buffer of well-formed pages: every
page is copied (`memorySize` bytes) and padded with zeros to the fixed 8-KB
page. -/
theorem flushLinkLoop_pages : ∀ (ps : List Page) (k fuel maxPages : Nat),
    (∀ p ∈ ps, p.rdh.memorySize = p.byteSize ∧ p.rdh.memorySize ≤ MaxGBTPacketBytes) →
    k + ps.length ≤ maxPages →
    (ps.flatMap Page.cells).length < fuel →
    flushLinkLoop fuel (ps.flatMap Page.cells) k maxPages =
      (ps.flatMap paddedPage, [], k + ps.length) := by
  intro ps
  induction ps with
  | nil =>
    intro k fuel maxPages _ _ hfuel
    match fuel, hfuel with
    | fuel + 1, _ =>
      rw [show (([] : List Page).flatMap Page.cells) = [] from rfl, flushLinkLoop]
      rw [if_neg (by simp)]
      rfl
  | cons p rest ih =>
    intro k fuel maxPages hwf hk hfuel
    match fuel, hfuel with
    | fuel + 1, hfuel =>
      rw [List.flatMap_cons, flushLinkLoop]
      have hwfp := hwf p (List.mem_cons_self _ _)
      have hcne : p.cells ≠ [] := by
        unfold Page.cells
        simp
      rw [if_pos ⟨by simp only [List.length_cons] at hk ⊢; omega,
        by
          intro hcon
          rw [List.append_eq_nil] at hcon
          exact hcne hcon.1⟩]
      have hrd : readRDH (p.cells ++ rest.flatMap Page.cells) 0 = p.rdh := rfl
      dsimp only
      rw [hrd]
      have hncell : p.rdh.memorySize / GBTPaddedWordLength = p.cells.length := by
        rw [hwfp.1, page_cells_length]
        unfold Page.byteSize
        rw [show RDHSize = 64 from rfl, show GBTPaddedWordLength = 16 from rfl]
        omega
      rw [hncell]
      rw [List.drop_left, List.take_left]
      rw [ih (k + 1) fuel maxPages (fun q hq => hwf q (List.mem_cons.2 (Or.inr hq)))
        (by simp only [List.length_cons] at hk; omega)
        (by
          rw [List.flatMap_cons, List.length_append] at hfuel
          have : 0 < p.cells.length := by
            rw [page_cells_length]; omega
          omega)]
      rw [List.flatMap_cons]
      unfold paddedPage
      rw [show k + 1 + rest.length = k + (p :: rest).length from by
        simp only [List.length_cons]; omega]

end RawPix

namespace RawPix

/-- The specification of `fillRULinks` for one link: good page shapes, the
RDH sequence, and the decoder projections of the emitted data words. -/
theorem fillRULinksLink_spec (M : Mapping) (info : RUInfo) (il : Nat) (ir : IR)
    (imp : Bool) (lanes : Nat) (st : CableState)
    (hroute : ∀ j, j < info.nCables →
      M.cableHW2SW info.ruType
        (M.getGBTHeaderRUType info.ruType (st.cableHWID j) &&& 0x1f) = j) :
    goodPages lanes (fillRULinksLink M info il ir imp lanes st) ∧
    (fillRULinksLink M info il ir imp lanes st).map Page.rdh =
      encodeRDH M info il ir imp 0 0
          (nGBTWordsNeededFor lanes info.nCables st.cableData) ::
        futureRDHs M info il ir imp
          (nGBTWordsNeededFor lanes info.nCables st.cableData) 0 0 ∧
    ∃ emitted,
      (fillRULinksLink M info il ir imp lanes st).flatMap pageData = emitted ∧
      (∀ c, c < info.nCables → routedBytes M info.ruType c emitted =
        (if lanes &&& (1 <<< c) ≠ 0 then pad9 (st.cableData c) else [])) ∧
      (∀ c, info.nCables ≤ c → routedBytes M info.ruType c emitted = []) ∧
      (∀ c, c < info.nCables → hwOf M info.ruType c emitted =
        (if lanes &&& (1 <<< c) ≠ 0 ∧ st.cableData c ≠ [] then
          some (M.getGBTHeaderRUType info.ruType (st.cableHWID c) &&& 0x1f) else none)) ∧
      (∀ c, info.nCables ≤ c → hwOf M info.ruType c emitted = none) ∧
      (∀ c, (maskOfW M info.ruType emitted).testBit c ↔
        (c < info.nCables ∧ lanes &&& (1 <<< c) ≠ 0 ∧ st.cableData c ≠ [])) := by
  have hcontent := linkLoop_content M info il ir imp lanes st.cableHWID hroute
    (nGBTWordsNeededFor lanes info.nCables st.cableData + 1)
    (nGBTWordsNeededFor lanes info.nCables st.cableData) st.cableData 0
    (encodeRDH M info il ir imp 0 0 (nGBTWordsNeededFor lanes info.nCables st.cableData))
    [] 0
    (nGBTWordsNeededFor_eq_wordsInRange lanes info.nCables st.cableData)
    (by rw [maxGBTWordsPerPacket_eq]; omega) (by omega)
    (by rw [encodeRDH_memorySize,
      show nGBTWordsNeededFor lanes info.nCables st.cableData + 0 + 2 =
        nGBTWordsNeededFor lanes info.nCables st.cableData + 2 from by omega])
    rfl (by intro x hx; exact absurd hx (by simp))
  rw [encodeRDH_pageCnt] at hcontent
  have hrdhs := linkLoop_rdhs M info il ir imp lanes st.cableHWID
    (nGBTWordsNeededFor lanes info.nCables st.cableData + 1)
    (nGBTWordsNeededFor lanes info.nCables st.cableData) st.cableData 0
    (encodeRDH M info il ir imp 0 0 (nGBTWordsNeededFor lanes info.nCables st.cableData))
    [GbtWord.header 0 lanes] 0
    (nGBTWordsNeededFor_eq_wordsInRange lanes info.nCables st.cableData)
    (by rw [maxGBTWordsPerPacket_eq]; omega) (by omega)
  obtain ⟨hgood, em, hflat, hfacts⟩ := hcontent
  refine ⟨hgood, hrdhs, em, ?_, hfacts⟩
  exact hflat.trans (List.nil_append em)

end RawPix

namespace RawPix

/-- The cached form of a page: its cells with the stored `offsetToNext`
rewritten to `memorySize` (what `cacheLinksData` keeps). -/
def patchedCells (p : Page) : List Cell :=
  patchFirstCell p.cells p.rdh.memorySize

/-- The patched RDH of a cached page. -/
def pRdh (p : Page) : RDH := { p.rdh with offsetToNext := p.rdh.memorySize }

theorem patchedCells_eq (p : Page) :
    patchedCells p = Cell.rdhC (pRdh p) :: Cell.rdhTail :: Cell.rdhTail ::
      Cell.rdhTail :: p.content.map Cell.gbt := by
  unfold patchedCells patchFirstCell Page.cells pRdh
  rfl

theorem patchedCells_length (p : Page) :
    (patchedCells p).length = 4 + p.content.length := by
  rw [patchedCells_eq]
  simp only [List.length_cons, List.length_map]
  omega

theorem readGbt_append_right (a b : List Cell) (i : Nat) :
    readGbt (a ++ b) (a.length + i) = readGbt b i := by
  unfold readGbt
  rw [List.getD_append_right a b zeroCell (a.length + i) (by omega),
      show a.length + i - a.length = i from by omega]

theorem readRDH_out (s : List Cell) (pos : Nat) (h : s.length ≤ pos) :
    readRDH s pos = zeroRDH := by
  unfold readRDH
  rw [List.getD_eq_default _ _ h]
  rfl

theorem isSame_zeroRDH (rdh : RDH) : isSameRUandTrigger rdh zeroRDH = false := by
  unfold isSameRUandTrigger zeroRDH
  simp

theorem isDataW_not_trailer (w : GbtWord) (h : isDataW w = true) :
    w.isDataTrailer = false := by
  cases w <;> simp_all [isDataW, GbtWord.isDataTrailer]

theorem isDataW_not_header (w : GbtWord) (h : isDataW w = true) :
    w.isDataHeader = false := by
  cases w <;> simp_all [isDataW, GbtWord.isDataHeader]

/-- `procWords` over a run of data words consumes them all and applies the
word loop's cumulative effect. -/
theorem procWords_run (M : Mapping) (info : RUInfo) :
    ∀ (dws : List GbtWord) (done rest : List Cell) (ru : RUDecodeDataRec),
    (∀ x ∈ dws, isDataW x = true) →
    procWords M info (done ++ dws.map Cell.gbt ++ rest) dws.length done.length ru =
      (done.length + dws.length, decodeWordsEffect M info.ruType dws ru) := by
  intro dws
  induction dws with
  | nil =>
    intro done rest ru _
    rw [show ([] : List GbtWord).length = 0 from rfl, procWords]
    rw [show done.length + 0 = done.length from by omega]
    rfl
  | cons d dws ih =>
    intro done rest ru hdw
    rw [show (d :: dws).length = dws.length + 1 from by simp, procWords]
    have hrd : readGbt (done ++ (d :: dws).map Cell.gbt ++ rest) done.length = d := by
      rw [show done.length = done.length + 0 from by omega, List.append_assoc,
          readGbt_append_right]
      rfl
    rw [hrd]
    rw [if_neg (by
      rw [isDataW_not_trailer d (hdw d (List.mem_cons_self _ _))]
      simp)]
    have hre : done ++ (d :: dws).map Cell.gbt ++ rest =
        (done ++ [Cell.gbt d]) ++ dws.map Cell.gbt ++ rest := by
      simp only [List.map_cons]
      rw [List.append_assoc, List.append_assoc, List.append_assoc]
      congr 1
    have hlen : done.length + 1 = (done ++ [Cell.gbt d]).length := by
      rw [List.length_append]
      rfl
    rw [hre, hlen, ih (done ++ [Cell.gbt d]) rest (wordEffect M info.ruType ru d)
      (fun x hx => hdw x (List.mem_cons.2 (Or.inr hx)))]
    rw [List.length_append]
    show (done.length + 1 + dws.length, _) = (done.length + (dws.length + 1), _)
    rw [show done.length + 1 + dws.length = done.length + (dws.length + 1) from by omega]
    rfl

end RawPix

namespace RawPix

/-- The state `decodeRUData` starts a trigger from: page 0 resets the
stop/with-data masks and the header sets the active lanes. -/
def pageSeed (lanes pc0 : Nat) (ru : RUDecodeDataRec) : RUDecodeDataRec :=
  if pc0 = 0 then
    { ru with statistics := { ru.statistics with
        lanesActive := lanes, lanesStop := 0, lanesWithData := 0 } }
  else ru

/-- The end-of-trigger transformation: the closing trailer stops all lanes
and the end-of-trigger checks run with the physics trigger type and the
`PacketDone` state. -/
def finalize (lanes : Nat) (ru : RUDecodeDataRec) : RUDecodeDataRec :=
  { ru with statistics := (endOfTriggerChecks
      { ru.statistics with lanesStop := lanes } trgPhT (1 <<< PacketDone)) }

theorem decodeWordsEffect_stats (M : Mapping) (t : Nat) (ws : List GbtWord)
    (ru : RUDecodeDataRec) (h : ru.statistics.lanesStop = 0) :
    (decodeWordsEffect M t ws ru).statistics.lanesActive =
      ru.statistics.lanesActive ∧
    (decodeWordsEffect M t ws ru).statistics.lanesStop = 0 ∧
    (decodeWordsEffect M t ws ru).statistics.lanesTimeOut =
      ru.statistics.lanesTimeOut := by
  rw [decodeWordsEffect_spec M t ws ru h]
  refine ⟨rfl, ?_, rfl⟩
  show ru.statistics.lanesStop = 0
  exact h

theorem setActive_eta (lanes : Nat) (ru : RUDecodeDataRec)
    (h : ru.statistics.lanesActive = lanes) :
    ({ ru with statistics := { ru.statistics with lanesActive := lanes } } :
      RUDecodeDataRec) = ru := by
  rw [← h]

theorem trailerZero_eta (ru : RUDecodeDataRec) :
    ({ ru with statistics := { ru.statistics with
        lanesTimeOut := ru.statistics.lanesTimeOut ||| 0,
        lanesStop := ru.statistics.lanesStop ||| 0 } } : RUDecodeDataRec) = ru := by
  rw [Nat.or_zero, Nat.or_zero]

theorem trailerLast_eta (lanes : Nat) (ru : RUDecodeDataRec)
    (h : ru.statistics.lanesStop = 0) :
    ({ ru with statistics := { ru.statistics with
        lanesTimeOut := ru.statistics.lanesTimeOut ||| 0,
        lanesStop := ru.statistics.lanesStop ||| lanes } } : RUDecodeDataRec) =
      { ru with statistics := { ru.statistics with lanesStop := lanes } } := by
  rw [Nat.or_zero, h, Nat.zero_or]

end RawPix

namespace RawPix

theorem pRdh_memorySize (p : Page) : (pRdh p).memorySize = p.rdh.memorySize := rfl

theorem pRdh_pageCnt (p : Page) : (pRdh p).pageCnt = p.rdh.pageCnt := rfl

/-- The page loop of `decodeRUData` over a cached trigger: it walks the
densely packed patched pages, consumes their data words through the word
loop, and ends the trigger with the end-of-trigger checks, flagging no
error and consuming the buffer exactly. -/
theorem decodeRUPageLoop_pages (M : Mapping) (info : RUInfo)
    (lanes fee tOrb tBC hOrb hBC : Nat) (hlanes : lanes ≠ 0) :
    ∀ (ps : List Page) (p : Page) (rest : List Page) (done : List Cell)
      (ru : RUDecodeDataRec) (fuel pc0 : Nat),
    ps = p :: rest →
    goodPages lanes ps →
    ps.map (fun q => q.rdh.pageCnt) = List.range' pc0 ps.length →
    (∀ q ∈ ps, q.rdh.feeId = fee ∧ q.rdh.triggerOrbit = tOrb ∧
      q.rdh.triggerBC = tBC ∧ q.rdh.heartbeatOrbit = hOrb ∧
      q.rdh.heartbeatBC = hBC ∧ q.rdh.triggerType = trgPhT) →
    ps.length ≤ fuel →
    (pc0 ≠ 0 → ru.statistics.lanesActive = lanes ∧ ru.statistics.lanesStop = 0) →
    ru.statistics.lanesStop = 0 →
    decodeRUPageLoop M info (done ++ ps.flatMap patchedCells) fuel done.length
        (pRdh p) ru =
      ((done ++ ps.flatMap patchedCells).length,
       finalize lanes (decodeWordsEffect M info.ruType (ps.flatMap pageData)
         (pageSeed lanes pc0 ru)),
       false) := by
  intro ps
  induction ps with
  | nil => intro p rest done ru fuel pc0 hps; exact absurd hps (by simp)
  | cons q tail ih =>
    intro p rest done ru fuel pc0 hps hgood hcnt hflds hfuel hseed hstop0
    obtain ⟨hqp, hrest⟩ : q = p ∧ tail = rest := by
      have h1 := List.cons.inj hps
      exact ⟨h1.1, h1.2⟩
    subst hqp
    obtain ⟨dws, hdws, hcont, hmsz, hdle, hfull⟩ := hgood.1
    have hfq := hflds q (List.mem_cons_self _ _)
    have hpc : q.rdh.pageCnt = pc0 := by
      rw [List.map_cons, show (q :: tail).length = tail.length + 1 from by simp,
          List.range'_succ] at hcnt
      exact (List.cons.inj hcnt).1
    have hcnt2 : tail.map (fun q => q.rdh.pageCnt) =
        List.range' (pc0 + 1) tail.length := by
      rw [List.map_cons, show (q :: tail).length = tail.length + 1 from by simp,
          List.range'_succ] at hcnt
      exact (List.cons.inj hcnt).2
    match fuel, hfuel with
    | fuel + 1, hfuel =>
    rw [decodeRUPageLoop]
    set tr := (if tail.isEmpty = true then GbtWord.trailer lanes 0 (1 <<< PacketDone)
      else GbtWord.trailer 0 0 0) with htr
    have hD4 : done ++ (q :: tail).flatMap patchedCells =
        (done ++ [Cell.rdhC (pRdh q), Cell.rdhTail, Cell.rdhTail, Cell.rdhTail]) ++
          ((GbtWord.header q.rdh.pageCnt lanes :: dws ++ [tr]).map Cell.gbt ++
            tail.flatMap patchedCells) := by
      rw [List.flatMap_cons, patchedCells_eq, hcont]
      simp [List.append_assoc]
    have hD5 : done ++ (q :: tail).flatMap patchedCells =
        (done ++ [Cell.rdhC (pRdh q), Cell.rdhTail, Cell.rdhTail, Cell.rdhTail,
          Cell.gbt (GbtWord.header q.rdh.pageCnt lanes)]) ++
          (dws.map Cell.gbt ++ ([Cell.gbt tr] ++ tail.flatMap patchedCells)) := by
      rw [List.flatMap_cons, patchedCells_eq, hcont]
      simp [List.append_assoc]
    have hlen4 : (done ++ [Cell.rdhC (pRdh q), Cell.rdhTail, Cell.rdhTail,
        Cell.rdhTail]).length = done.length + 4 := by
      simp
    have hlen5 : (done ++ [Cell.rdhC (pRdh q), Cell.rdhTail, Cell.rdhTail,
        Cell.rdhTail, Cell.gbt (GbtWord.header q.rdh.pageCnt lanes)]).length =
        done.length + 5 := by
      simp
    have hposH : done.length + RDHSize / GBTPaddedWordLength = done.length + 4 := rfl
    have hH : readGbt (done ++ (q :: tail).flatMap patchedCells) (done.length + 4) =
        GbtWord.header q.rdh.pageCnt lanes := by
      rw [hD4, show done.length + 4 = (done ++ [Cell.rdhC (pRdh q), Cell.rdhTail,
        Cell.rdhTail, Cell.rdhTail]).length + 0 from by rw [hlen4],
        readGbt_append_right]
      rfl
    have hng : ((pRdh q).memorySize - RDHSize) / GBTPaddedWordLength - 2 =
        dws.length := by
      rw [pRdh_memorySize, hmsz, show RDHSize = 64 from rfl,
          show GBTPaddedWordLength = 16 from rfl]
      omega
    rw [hposH, hH, hng]
    rw [if_neg (by simp [GbtWord.isDataHeader])]
    dsimp only
    rw [if_neg (show ¬ ((GbtWord.header q.rdh.pageCnt lanes).getPacketID ≠
      (pRdh q).pageCnt) from fun hcon => hcon rfl)]
    have hnz : ¬ (ru.statistics.lanesActive = ru.statistics.lanesStop ∧
        (pRdh q).pageCnt ≠ 0) := by
      rw [pRdh_pageCnt, hpc]
      by_cases hpc0 : pc0 = 0
      · exact fun hcon => hcon.2 hpc0
      · intro hcon
        have hs := hseed hpc0
        rw [hs.1, hs.2] at hcon
        exact hlanes hcon.1
    rw [if_neg hnz]
    have hlanesH : (GbtWord.header q.rdh.pageCnt lanes).getLanes = lanes := rfl
    rw [hlanesH]
    set ruB := (if (pRdh q).pageCnt = 0 then
      ({ { ru with statistics := { ru.statistics with lanesActive := lanes } } with
        statistics := { { ru with statistics :=
          { ru.statistics with lanesActive := lanes } }.statistics with
          lanesStop := 0, lanesWithData := 0 } } : RUDecodeDataRec)
      else { ru with statistics := { ru.statistics with lanesActive := lanes } })
      with hruB
    have hruBseed : ruB = pageSeed lanes pc0 ru := by
      rw [hruB, pageSeed, pRdh_pageCnt, hpc]
      by_cases hpc0 : pc0 = 0
      · rw [if_pos hpc0, if_pos hpc0]
      · rw [if_neg hpc0, if_neg hpc0]
        exact setActive_eta lanes ru (hseed hpc0).1
    have hruBstop : ruB.statistics.lanesStop = 0 := by
      rw [hruBseed, pageSeed]
      by_cases hpc0 : pc0 = 0
      · rw [if_pos hpc0]
      · rw [if_neg hpc0]
        exact hstop0
    have hruBact : ruB.statistics.lanesActive = lanes := by
      rw [hruBseed, pageSeed]
      by_cases hpc0 : pc0 = 0
      · rw [if_pos hpc0]
      · rw [if_neg hpc0]
        exact (hseed hpc0).1
    have hwr : procWords M info (done ++ (q :: tail).flatMap patchedCells)
        dws.length (done.length + 4 + 1) ruB =
        (done.length + 5 + dws.length,
         decodeWordsEffect M info.ruType dws ruB) := by
      rw [hD5, show done.length + 4 + 1 = (done ++ [Cell.rdhC (pRdh q), Cell.rdhTail,
        Cell.rdhTail, Cell.rdhTail,
        Cell.gbt (GbtWord.header q.rdh.pageCnt lanes)]).length from by rw [hlen5],
        ← List.append_assoc]
      rw [procWords_run M info dws _ _ ruB hdws, hlen5]
    rw [hwr]
    have hT : readGbt (done ++ (q :: tail).flatMap patchedCells)
        (done.length + 5 + dws.length) = tr := by
      rw [hD5, show done.length + 5 + dws.length = ((done ++ [Cell.rdhC (pRdh q),
        Cell.rdhTail, Cell.rdhTail, Cell.rdhTail,
        Cell.gbt (GbtWord.header q.rdh.pageCnt lanes)]) ++ dws.map Cell.gbt).length + 0
        from by rw [List.length_append, hlen5, List.length_map]; omega,
        ← List.append_assoc, readGbt_append_right]
      rw [htr]
      by_cases hte : tail.isEmpty = true
      · rw [if_pos hte]
        rfl
      · rw [if_neg hte]
        rfl
    rw [hT]
    have hoff : (pRdh q).offsetToNext / GBTPaddedWordLength = dws.length + 6 := by
      rw [show (pRdh q).offsetToNext = q.rdh.memorySize from rfl, hmsz,
          show RDHSize = 64 from rfl, show GBTPaddedWordLength = 16 from rfl]
      omega
    have hoffne : ¬ ((pRdh q).offsetToNext = 0) := by
      rw [show (pRdh q).offsetToNext = q.rdh.memorySize from rfl, hmsz,
          show RDHSize = 64 from rfl, show GBTPaddedWordLength = 16 from rfl]
      omega
    have hstop2 := (decodeWordsEffect_stats M info.ruType dws ruB hruBstop).2.1
    have hact2 : (decodeWordsEffect M info.ruType dws ruB).statistics.lanesActive =
        lanes := by
      rw [(decodeWordsEffect_stats M info.ruType dws ruB hruBstop).1, hruBact]
    have hplen : (patchedCells q).length = dws.length + 6 := by
      rw [patchedCells_length, hcont]
      simp only [List.length_append, List.length_cons, List.length_nil]
      omega
    cases tail with
    | nil =>
      have htr2 : tr = GbtWord.trailer lanes 0 (1 <<< PacketDone) := by
        rw [htr, if_pos (by rfl)]
      rw [htr2]
      rw [if_neg (by simp [GbtWord.isDataTrailer])]
      rw [if_neg hoffne]
      have hDlen : (done ++ (q :: []).flatMap patchedCells).length =
          done.length + (dws.length + 6) := by
        rw [List.flatMap_cons, show ([] : List Page).flatMap patchedCells = []
          from rfl, List.append_nil, List.length_append, hplen]
      have hreadN : readRDH (done ++ (q :: []).flatMap patchedCells)
          (done.length + (pRdh q).offsetToNext / GBTPaddedWordLength) = zeroRDH := by
        apply readRDH_out
        rw [hDlen, hoff]
      rw [hoff] at hreadN ⊢
      rw [hreadN]
      rw [if_pos (by rw [isSame_zeroRDH]; simp)]
      rw [hDlen]
      have hfl : (q :: []).flatMap pageData = dws := by
        rw [List.flatMap_cons, show ([] : List Page).flatMap pageData = [] from rfl,
            List.append_nil]
        have := pageData_of_shape q.rdh q.rdh.pageCnt lanes dws
          (GbtWord.trailer lanes 0 (1 <<< PacketDone)) hdws rfl
        rw [← this]
        show pageData q = _
        rw [show ({ rdh := q.rdh, content := GbtWord.header q.rdh.pageCnt lanes ::
          dws ++ [GbtWord.trailer lanes 0 (1 <<< PacketDone)] } : Page) =
          q from by
            rw [← htr2, ← hcont]]
      rw [hruBseed] at hstop2
      rw [hfl, hruBseed]
      dsimp only
      rw [show (GbtWord.trailer lanes 0 (1 <<< PacketDone)).getLanesTimeout = 0
            from rfl,
          show (GbtWord.trailer lanes 0 (1 <<< PacketDone)).getLanesStop = lanes
            from rfl,
          show (GbtWord.trailer lanes 0 (1 <<< PacketDone)).getPacketState =
            1 <<< PacketDone from rfl,
          show (pRdh q).triggerType = trgPhT from hfq.2.2.2.2.2,
          hstop2, Nat.zero_or, Nat.or_zero]
      unfold finalize
      rfl
    | cons p2 tail2 =>
      have htr2 : tr = GbtWord.trailer 0 0 0 := by
        rw [htr, if_neg (by simp)]
      rw [htr2]
      rw [if_neg (by simp [GbtWord.isDataTrailer])]
      rw [if_neg hoffne]
      have hp2cnt : p2.rdh.pageCnt = pc0 + 1 := by
        rw [List.map_cons, show (p2 :: tail2).length = tail2.length + 1 from by simp,
            List.range'_succ] at hcnt2
        exact (List.cons.inj hcnt2).1
      have hfp2 := hflds p2 (List.mem_cons.2 (Or.inr (List.mem_cons_self _ _)))
      have hD' : done ++ (q :: p2 :: tail2).flatMap patchedCells =
          (done ++ patchedCells q) ++ (p2 :: tail2).flatMap patchedCells := by
        rw [List.flatMap_cons, List.append_assoc]
      have hlen' : (done ++ patchedCells q).length = done.length + (dws.length + 6) := by
        rw [List.length_append, hplen]
      have hreadN : readRDH (done ++ (q :: p2 :: tail2).flatMap patchedCells)
          (done.length + (dws.length + 6)) = pRdh p2 := by
        rw [hD', show done.length + (dws.length + 6) =
          (done ++ patchedCells q).length + 0 from by rw [hlen']; omega]
        unfold readRDH
        rw [List.getD_append_right _ _ zeroCell _ (by omega),
            show (done ++ patchedCells q).length + 0 -
              (done ++ patchedCells q).length = 0 from by omega]
        rw [List.flatMap_cons, patchedCells_eq]
        rfl
      rw [hoff, hreadN]
      have hsame : isSameRUandTrigger (pRdh q) (pRdh p2) = true := by
        unfold isSameRUandTrigger
        show (!((p2.rdh.pageCnt == 0) || (p2.rdh.feeId != q.rdh.feeId) ||
          (p2.rdh.triggerOrbit != q.rdh.triggerOrbit) ||
          (p2.rdh.triggerBC != q.rdh.triggerBC) ||
          (p2.rdh.heartbeatOrbit != q.rdh.heartbeatOrbit) ||
          (p2.rdh.heartbeatBC != q.rdh.heartbeatBC) ||
          ((p2.rdh.triggerType &&& q.rdh.triggerType) == 0))) = true
        rw [hp2cnt, hfp2.1, hfq.1, hfp2.2.1, hfq.2.1, hfp2.2.2.1, hfq.2.2.1,
            hfp2.2.2.2.1, hfq.2.2.2.1, hfp2.2.2.2.2.1, hfq.2.2.2.2.1,
            hfp2.2.2.2.2.2, hfq.2.2.2.2.2]
        simp [trgPhT]
      rw [if_neg (by rw [hsame]; simp)]
      rw [if_neg (show ¬ ((pRdh p2).pageCnt ≠ (pRdh q).pageCnt + 1) from by
        rw [pRdh_pageCnt, pRdh_pageCnt, hp2cnt, hpc]
        exact fun hcon => hcon rfl)]
      have hmid := trailerZero_eta (decodeWordsEffect M info.ruType dws ruB)
      rw [show (GbtWord.trailer 0 0 0).getLanesTimeout = 0 from rfl,
          show (GbtWord.trailer 0 0 0).getLanesStop = 0 from rfl]
      rw [hmid]
      have hrec := ih p2 tail2 (done ++ patchedCells q)
        (decodeWordsEffect M info.ruType dws ruB) fuel (pc0 + 1) rfl hgood.2 hcnt2
        (fun r hr => hflds r (List.mem_cons.2 (Or.inr hr)))
        (by simp only [List.length_cons] at hfuel ⊢; omega)
        (fun _ => ⟨hact2, hstop2⟩) hstop2
      rw [hlen'] at hrec
      rw [← hD'] at hrec
      rw [hrec]
      have hseednext : pageSeed lanes (pc0 + 1)
          (decodeWordsEffect M info.ruType dws ruB) =
          decodeWordsEffect M info.ruType dws ruB := by
        rw [pageSeed, if_neg (by omega)]
      rw [hseednext]
      have hfl : (q :: p2 :: tail2).flatMap pageData =
          dws ++ (p2 :: tail2).flatMap pageData := by
        rw [List.flatMap_cons]
        congr 1
        have := pageData_of_shape q.rdh q.rdh.pageCnt lanes dws
          (GbtWord.trailer 0 0 0) hdws rfl
        rw [← this]
        show pageData q = _
        rw [show ({ rdh := q.rdh, content := GbtWord.header q.rdh.pageCnt lanes ::
          dws ++ [GbtWord.trailer 0 0 0] } : Page) = q from by
            rw [← htr2, ← hcont]]
      rw [hfl, hruBseed]
      rw [show decodeWordsEffect M info.ruType
          (dws ++ (p2 :: tail2).flatMap pageData) (pageSeed lanes pc0 ru) =
          decodeWordsEffect M info.ruType ((p2 :: tail2).flatMap pageData)
            (decodeWordsEffect M info.ruType dws (pageSeed lanes pc0 ru)) from by
        unfold decodeWordsEffect
        rw [List.foldl_append]]

end RawPix

namespace RawPix

theorem length_le_flatMap_patched : ∀ ps : List Page,
    ps.length ≤ (ps.flatMap patchedCells).length
  | [] => Nat.le_refl 0
  | p :: ps => by
    rw [List.flatMap_cons, List.length_append, List.length_cons, patchedCells_length]
    have := length_le_flatMap_patched ps
    omega

/-- `decodeRUData` on a full cached trigger of well-formed pages: the entry
RDH passes the heuristic, the packet is counted, the cable count is set from
the RU info and the page walk consumes the whole buffer without error,
leaving exactly the effect of the data words on the seeded state closed by
the end-of-trigger checks. -/
theorem decodeRUDataModel_pages (M : Mapping) (info : RUInfo)
    (lanes fee tOrb tBC hOrb hBC : Nat) (hlanes : lanes ≠ 0)
    (p : Page) (rest : List Page) (ru : RUDecodeDataRec)
    (hgood : goodPages lanes (p :: rest))
    (hcnt : (p :: rest).map (fun q => q.rdh.pageCnt) =
      List.range' 0 (p :: rest).length)
    (hflds : ∀ q ∈ p :: rest, q.rdh.feeId = fee ∧ q.rdh.triggerOrbit = tOrb ∧
      q.rdh.triggerBC = tBC ∧ q.rdh.heartbeatOrbit = hOrb ∧
      q.rdh.heartbeatBC = hBC ∧ q.rdh.triggerType = trgPhT)
    (hheur : isRDHHeuristic p.rdh = true)
    (hstop0 : ru.statistics.lanesStop = 0) :
    decodeRUDataModel M info ((p :: rest).flatMap patchedCells) ru =
      (((p :: rest).flatMap patchedCells).length,
       finalize lanes (decodeWordsEffect M info.ruType
         ((p :: rest).flatMap pageData)
         (pageSeed lanes 0 { ru with
            statistics := { ru.statistics with
              nPackets := ru.statistics.nPackets + 1 },
            nCables := info.nCables })),
       false) := by
  unfold decodeRUDataModel
  have hread : readRDH ((p :: rest).flatMap patchedCells) 0 = pRdh p := by
    rw [List.flatMap_cons, patchedCells_eq]
    rfl
  rw [hread]
  rw [if_neg (show ¬ (¬ isRDHHeuristic (pRdh p) = true) from by
    rw [show isRDHHeuristic (pRdh p) = isRDHHeuristic p.rdh from rfl, hheur]
    exact not_not_intro rfl)]
  have hfuel : (p :: rest).length ≤ ((p :: rest).flatMap patchedCells).length + 1 :=
    Nat.le_succ_of_le (length_le_flatMap_patched _)
  have := decodeRUPageLoop_pages M info lanes fee tOrb tBC hOrb hBC hlanes
    (p :: rest) p rest [] ({ ru with
      statistics := { ru.statistics with
        nPackets := ru.statistics.nPackets + 1 },
      nCables := info.nCables }) (((p :: rest).flatMap patchedCells).length + 1) 0
    rfl hgood hcnt hflds hfuel (fun hcon => absurd rfl hcon) hstop0
  rw [List.nil_append] at this
  exact this

end RawPix

namespace RawPix

/-- One cable record as the encoder wrote it: a fired chip (hits present)
becomes a full chip frame, an unfired one a chip-empty record. -/
def cableItemBytes (bc : Nat) : (Nat × Option (List (Nat × Nat))) → List Nat
  | (hw, some hits) => encodeChipBytes hw bc hits
  | (hw, none) => emptyChipBytes hw bc

/-- The fired records of a cable, in order. -/
def firedOf : List (Nat × Option (List (Nat × Nat))) → List (Nat × List (Nat × Nat))
  | [] => []
  | (hw, some hits) :: r => (hw, hits) :: firedOf r
  | (_, none) :: r => firedOf r

/-- Hits carried by the fired records of a cable. -/
def hitsTotal (items : List (Nat × Option (List (Nat × Nat)))) : Nat :=
  ((firedOf items).map (fun it => it.2.length)).sum

theorem decodeHitRecords_trailer (rest : List Nat) (acc : List (Nat × Nat)) :
    decodeHitRecords (chipTrailerTok :: rest) acc = some (acc.reverse, rest) := by
  conv_lhs => unfold decodeHitRecords
  rw [if_pos rfl]

theorem decodeHitRecords_hit (rh rl ch cl : Nat) (rest : List Nat)
    (acc : List (Nat × Nat)) :
    decodeHitRecords (hitTok :: rh :: rl :: ch :: cl :: rest) acc =
      decodeHitRecords rest ((rh * 256 + rl, ch * 256 + cl) :: acc) := by
  conv_lhs => unfold decodeHitRecords
  rw [if_neg (by decide), if_pos rfl]

theorem decodeChipFrom_headerTok (b2 b3 : Nat) (rest : List Nat) :
    decodeChipFrom (chipHeaderTok :: b2 :: b3 :: rest) =
      match decodeHitRecords rest [] with
      | some (hits, rest3) => .chip b2 hits rest3
      | none => .fail := by
  conv_lhs => unfold decodeChipFrom
  rw [if_neg (by decide), if_neg (by decide), if_pos rfl]

theorem decodeChipFrom_emptyTok (b2 b3 : Nat) (rest : List Nat) :
    decodeChipFrom (chipEmptyTok :: b2 :: b3 :: rest) = decodeChipFrom rest := by
  conv_lhs => unfold decodeChipFrom
  rw [if_neg (by decide), if_pos rfl]

theorem decodeChipFrom_zeroHead (rest : List Nat) :
    decodeChipFrom (0 :: rest) = .stop := by
  conv_lhs => unfold decodeChipFrom
  rw [if_pos rfl]

theorem decodeHitRecords_encoded :
    ∀ (hits : List (Nat × Nat)) (acc : List (Nat × Nat)) (rest : List Nat),
    decodeHitRecords
      (hits.flatMap (fun h => [hitTok, h.1 / 256, h.1 % 256, h.2 / 256, h.2 % 256]) ++
        chipTrailerTok :: rest) acc = some (acc.reverse ++ hits, rest)
  | [], acc, rest => by
    rw [List.flatMap_nil, List.nil_append, decodeHitRecords_trailer,
        List.append_nil]
  | h :: hs, acc, rest => by
    rw [List.flatMap_cons, List.append_assoc, List.cons_append, List.cons_append,
        List.cons_append, List.cons_append, List.cons_append, List.nil_append]
    rw [decodeHitRecords_hit]
    rw [decodeHitRecords_encoded hs ((h.1 / 256 * 256 + h.1 % 256,
      h.2 / 256 * 256 + h.2 % 256) :: acc) rest]
    have hh : (h.1 / 256 * 256 + h.1 % 256, h.2 / 256 * 256 + h.2 % 256) = h := by
      have h1 := Nat.div_add_mod h.1 256
      have h2 := Nat.div_add_mod h.2 256
      exact Prod.ext (by omega) (by omega)
    rw [hh, List.reverse_cons, List.append_assoc, List.singleton_append]

theorem decodeChipFrom_header (hw bc : Nat) (hits : List (Nat × Nat))
    (rest : List Nat) :
    decodeChipFrom (encodeChipBytes hw bc hits ++ rest) = .chip hw hits rest := by
  show decodeChipFrom (chipHeaderTok :: hw :: bc % 256 ::
    ((hits.flatMap _ ++ [chipTrailerTok]) ++ rest)) = _
  rw [decodeChipFrom_headerTok, List.append_assoc, List.singleton_append,
      decodeHitRecords_encoded hits [] rest]
  rfl

theorem decodeChipFrom_empty (hw bc : Nat) (rest : List Nat) :
    decodeChipFrom (emptyChipBytes hw bc ++ rest) = decodeChipFrom rest := by
  show decodeChipFrom (chipEmptyTok :: hw :: bc % 256 :: rest) = _
  rw [decodeChipFrom_emptyTok]

theorem decodeChipFrom_zeros : ∀ n, decodeChipFrom (List.replicate n 0) = .stop
  | 0 => rfl
  | n + 1 => by rw [List.replicate_succ, decodeChipFrom_zeroHead]

theorem cableChipLoop_skip_empty (M : Mapping) (info : RUInfo) (ir : IR)
    (trg icab hwid hw bc : Nat) (buf : List Nat)
    (acc : List ChipRec × Nat × RUDecodingStat × RawDecodingStat) :
    ∀ fuel, cableChipLoop M info ir trg icab hwid fuel
        (emptyChipBytes hw bc ++ buf) acc =
      cableChipLoop M info ir trg icab hwid fuel buf acc
  | 0 => rfl
  | fuel + 1 => by
    obtain ⟨chips, nF, ruStat, gStat⟩ := acc
    rw [cableChipLoop, cableChipLoop, decodeChipFrom_empty]

/-- The chip loop of `decodeAlpideData` on one cable whose buffer is the
encoder's record sequence (fired frames and chip-empty records) followed by
zero padding: it yields exactly the fired chips in record order, each with the
global chip id computed from the shipped chip-on-module id and the cable's
hardware id, appends them to the store, counts them in the global statistics
and raises no error (on inner-barrel RUs every fired record ships the cable
index as its chip id). -/
theorem cableChipLoop_items (M : Mapping) (info : RUInfo) (ir : IR)
    (trg icab hwid bc : Nat) :
    ∀ (items : List (Nat × Option (List (Nat × Nat)))) (npad fuel : Nat)
      (chips0 : List ChipRec) (nF0 : Nat) (ruStat : RUDecodingStat)
      (gStat : RawDecodingStat),
    (info.ruType = 0 → ∀ it ∈ items, it.2.isSome = true → it.1 = icab) →
    nF0 + (firedOf items).length ≤ MaxChipsPerRU →
    (firedOf items).length < fuel →
    cableChipLoop M info ir trg icab hwid fuel
        (items.flatMap (cableItemBytes bc) ++ List.replicate npad 0)
        (chips0, nF0, ruStat, gStat) =
      (chips0 ++ (firedOf items).map (fun it =>
        { chipID := M.getGlobalChipID it.1 hwid info, ir := ir, trigger := trg,
          hits := it.2 }),
       nF0 + (firedOf items).length, ruStat,
       { gStat with
         nNonEmptyChips := gStat.nNonEmptyChips + (firedOf items).length,
         nHitsDecoded := gStat.nHitsDecoded + hitsTotal items }) := by
  intro items
  induction items with
  | nil =>
    intro npad fuel chips0 nF0 ruStat gStat hib hcap hfuel
    match fuel, hfuel with
    | fuel + 1, _ =>
    rw [List.flatMap_nil, List.nil_append, cableChipLoop, decodeChipFrom_zeros]
    show (chips0, nF0, ruStat, gStat) = _
    rw [show (firedOf []).length = 0 from rfl,
        show hitsTotal [] = 0 from rfl]
    simp [firedOf]
  | cons it rest ih =>
    intro npad fuel chips0 nF0 ruStat gStat hib hcap hfuel
    obtain ⟨hw, hitsQ⟩ := it
    cases hitsQ with
    | none =>
      rw [List.flatMap_cons, List.append_assoc,
          show cableItemBytes bc (hw, none) = emptyChipBytes hw bc from rfl,
          cableChipLoop_skip_empty]
      rw [show firedOf ((hw, none) :: rest) = firedOf rest from rfl] at *
      rw [show hitsTotal ((hw, none) :: rest) = hitsTotal rest from rfl]
      exact ih npad fuel chips0 nF0 ruStat gStat
        (fun ht it2 hit hsome => hib ht it2 (List.mem_cons_of_mem _ hit) hsome)
        hcap hfuel
    | some hits =>
      have hfired : firedOf ((hw, some hits) :: rest) = (hw, hits) :: firedOf rest :=
        rfl
      match fuel, hfuel with
      | fuel + 1, hfuel =>
      rw [List.flatMap_cons, List.append_assoc,
          show cableItemBytes bc (hw, some hits) = encodeChipBytes hw bc hits
            from rfl]
      rw [cableChipLoop, decodeChipFrom_header]
      dsimp only
      rw [if_neg (show ¬ (info.ruType = 0 ∧ hw ≠ icab) from by
        rintro ⟨ht, hne⟩
        exact hne (hib ht (hw, some hits) (List.mem_cons_self _ _) rfl))]
      rw [hfired] at hcap hfuel
      rw [List.length_cons] at hcap hfuel
      have hht : hitsTotal ((hw, some hits) :: rest) =
          hits.length + hitsTotal rest := by
        unfold hitsTotal
        rw [hfired, List.map_cons, List.sum_cons]
      by_cases hlt : nF0 + 1 < MaxChipsPerRU
      · rw [if_pos hlt]
        have hIH := ih npad fuel
          (chips0 ++ [(⟨M.getGlobalChipID hw hwid info, ir, trg, hits⟩ : ChipRec)])
          (nF0 + 1) ruStat
          ({ gStat with
             nNonEmptyChips := gStat.nNonEmptyChips + 1,
             nHitsDecoded := gStat.nHitsDecoded + hits.length })
          (fun ht it2 hit hsome => hib ht it2 (List.mem_cons_of_mem _ hit) hsome)
          (by omega) (by omega)
        rw [hIH]
        rw [hfired, hht]
        rw [List.map_cons, List.append_assoc, List.singleton_append,
            List.length_cons]
        have e1 : nF0 + 1 + (firedOf rest).length =
            nF0 + ((firedOf rest).length + 1) := by omega
        have e2 : gStat.nNonEmptyChips + 1 + (firedOf rest).length =
            gStat.nNonEmptyChips + ((firedOf rest).length + 1) := by omega
        have e3 : gStat.nHitsDecoded + hits.length + hitsTotal rest =
            gStat.nHitsDecoded + (hits.length + hitsTotal rest) := by omega
        rw [e1, e2, e3]
      · rw [if_neg hlt]
        have hrest0 : (firedOf rest).length = 0 := by omega
        have hrestnil : firedOf rest = [] := List.length_eq_zero.1 hrest0
        have hht0 : hitsTotal rest = 0 := by
          unfold hitsTotal
          rw [hrestnil]
          rfl
        rw [hfired, hrestnil, hht, hht0]
        rfl

end RawPix

namespace RawPix

/-- The record the encoder leaves for chip `i` of the RU: the fired chip's
frame (hits sorted by row then column) when `i` is in the fired list, a
chip-empty record otherwise. -/
def itemOf (M : Mapping) (t : Nat) (fired : List EncChip) (i : Nat) :
    Nat × Option (List (Nat × Nat)) :=
  ((M.getChipOnRUInfo t i).chipOnModuleHW,
   match fired.find? (fun ch => ch.id == i) with
   | some ch => some (ch.hits.insertionSort pixLE)
   | none => none)

/-- The records of the chips of segment `[a, a+len)` that sit on cable `c`. -/
def segItems (M : Mapping) (t : Nat) (fired : List EncChip) (a len c : Nat) :
    List (Nat × Option (List (Nat × Nat))) :=
  ((List.range' a len).filter
    (fun i => (M.getChipOnRUInfo t i).cableSW == c)).map (itemOf M t fired)

theorem range'_split (a m n : Nat) :
    List.range' a (m + n) = List.range' a m ++ List.range' (a + m) n := by
  have := List.range'_append a m n 1
  rw [Nat.mul_comm] at this
  simp only [Nat.mul_one] at this
  rw [Nat.add_comm m n, ← this]

theorem itemOf_none (M : Mapping) (t : Nat) (fired : List EncChip) (i : Nat)
    (h : fired.find? (fun ch => ch.id == i) = none) :
    itemOf M t fired i = ((M.getChipOnRUInfo t i).chipOnModuleHW, none) := by
  unfold itemOf
  rw [h]

theorem itemOf_shift (M : Mapping) (t : Nat) (ch : EncChip) (rest : List EncChip)
    (i : Nat) (h : ch.id ≠ i) :
    itemOf M t (ch :: rest) i = itemOf M t rest i := by
  unfold itemOf
  rw [List.find?_cons_of_neg _ (by simpa using h)]

theorem itemOf_head (M : Mapping) (t : Nat) (ch : EncChip) (rest : List EncChip) :
    itemOf M t (ch :: rest) ch.id =
      ((M.getChipOnRUInfo t ch.id).chipOnModuleHW,
       some (ch.hits.insertionSort pixLE)) := by
  unfold itemOf
  rw [List.find?_cons_of_pos _ (by simp)]

theorem segItems_congr (M : Mapping) (t : Nat) (f1 f2 : List EncChip)
    (a len c : Nat) (h : ∀ i, a ≤ i → i < a + len → itemOf M t f1 i = itemOf M t f2 i) :
    segItems M t f1 a len c = segItems M t f2 a len c := by
  unfold segItems
  apply List.map_congr_left
  intro i hi
  have hmem := List.mem_of_mem_filter hi
  rw [List.mem_range'_1] at hmem
  exact h i hmem.1 hmem.2

theorem convertEmpty_zero (M : Mapping) (t bc a : Nat) (st : CableState) :
    convertEmptyChipsModel M t bc a a st = st := by
  unfold convertEmptyChipsModel
  rw [Nat.sub_self]
  rfl

theorem convertEmpty_succ (M : Mapping) (t bc a b : Nat) (st : CableState)
    (h : a < b) :
    convertEmptyChipsModel M t bc a b st =
      convertEmptyChipsModel M t bc (a + 1) b (addEmptyChipTo M t bc a st) := by
  unfold convertEmptyChipsModel
  rw [show b - a = (b - (a + 1)) + 1 from by omega, List.range'_succ,
      List.foldl_cons]

/-- `convertEmptyChips` appends to each touched cable exactly the chip-empty
records of its chips in the segment. -/
theorem convertEmptyChips_data (M : Mapping) (t bc : Nat) (fired : List EncChip) :
    ∀ (len a : Nat) (st : CableState) (c : Nat),
    (∀ i, a ≤ i → i < a + len → fired.find? (fun ch => ch.id == i) = none) →
    (convertEmptyChipsModel M t bc a (a + len) st).cableData c =
      st.cableData c ++
        (segItems M t fired a len c).flatMap (cableItemBytes bc) := by
  intro len
  induction len with
  | zero =>
    intro a st c _
    rw [Nat.add_zero, convertEmpty_zero]
    unfold segItems
    rw [show List.range' a 0 = [] from rfl]
    simp
  | succ len ih =>
    intro a st c hmiss
    rw [convertEmpty_succ M t bc a (a + (len + 1)) st (by omega)]
    rw [show a + (len + 1) = (a + 1) + len from by omega]
    rw [ih (a + 1) (addEmptyChipTo M t bc a st) c
      (fun i h1 h2 => hmiss i (by omega) (by omega))]
    unfold segItems
    rw [show len + 1 = 1 + len from by omega, range'_split a 1 len,
        show List.range' a 1 = [a] from rfl, List.singleton_append]
    unfold addEmptyChipTo
    dsimp only
    by_cases hc : (M.getChipOnRUInfo t a).cableSW = c
    · rw [List.filter_cons_of_pos (by simpa using hc), List.map_cons,
          List.flatMap_cons, hc, Function.update_same,
          itemOf_none M t fired a (hmiss a (by omega) (by omega))]
      rw [show cableItemBytes bc ((M.getChipOnRUInfo t a).chipOnModuleHW, none) =
        emptyChipBytes (M.getChipOnRUInfo t a).chipOnModuleHW bc from rfl]
      rw [List.append_assoc]
    · rw [List.filter_cons_of_neg (by simpa using hc),
          Function.update_noteq (by omega)]

theorem convertEmptyChips_hwid_neg (M : Mapping) (t bc : Nat) :
    ∀ (len a : Nat) (st : CableState) (c : Nat),
    (∀ i, a ≤ i → i < a + len → (M.getChipOnRUInfo t i).cableSW ≠ c) →
    (convertEmptyChipsModel M t bc a (a + len) st).cableHWID c = st.cableHWID c := by
  intro len
  induction len with
  | zero =>
    intro a st c _
    rw [Nat.add_zero, convertEmpty_zero]
  | succ len ih =>
    intro a st c hmiss
    rw [convertEmpty_succ M t bc a (a + (len + 1)) st (by omega),
        show a + (len + 1) = (a + 1) + len from by omega,
        ih (a + 1) _ c (fun i h1 h2 => hmiss i (by omega) (by omega))]
    unfold addEmptyChipTo
    dsimp only
    rw [Function.update_noteq (by
      have := hmiss a (by omega) (by omega)
      omega)]

theorem convertEmptyChips_hwid_pos (M : Mapping) (t bc : Nat) :
    ∀ (len a : Nat) (st : CableState) (c i : Nat),
    a ≤ i → i < a + len → (M.getChipOnRUInfo t i).cableSW = c →
    (∀ j k, a ≤ j → j < a + len → a ≤ k → k < a + len →
      (M.getChipOnRUInfo t j).cableSW = (M.getChipOnRUInfo t k).cableSW →
      (M.getChipOnRUInfo t j).cableHW = (M.getChipOnRUInfo t k).cableHW) →
    (convertEmptyChipsModel M t bc a (a + len) st).cableHWID c =
      (M.getChipOnRUInfo t i).cableHW := by
  intro len
  induction len with
  | zero => intro a st c i h1 h2; omega
  | succ len ih =>
    intro a st c i h1 h2 hc hcons
    rw [convertEmpty_succ M t bc a (a + (len + 1)) st (by omega),
        show a + (len + 1) = (a + 1) + len from by omega]
    by_cases hex : ∃ j, a + 1 ≤ j ∧ j < (a + 1) + len ∧
        (M.getChipOnRUInfo t j).cableSW = c
    · obtain ⟨j, hj1, hj2, hjc⟩ := hex
      rw [ih (a + 1) _ c j hj1 hj2 hjc
        (fun j k a1 a2 a3 a4 a5 => hcons j k (by omega) (by omega) (by omega)
          (by omega) a5)]
      exact hcons j i (by omega) (by omega) (by omega) (by omega)
        (by rw [hjc, hc])
    · have hi_a : i = a := by
        by_contra hne
        exact hex ⟨i, by omega, by omega, hc⟩
      rw [convertEmptyChips_hwid_neg M t bc len (a + 1) _ c
        (fun j hj1 hj2 hjc => hex ⟨j, hj1, hj2, hjc⟩)]
      unfold addEmptyChipTo
      dsimp only
      rw [hi_a] at hc ⊢
      rw [hc, Function.update_same]

end RawPix

namespace RawPix

theorem find?_none_of_ids (fired : List EncChip) (i : Nat)
    (h : ∀ ch ∈ fired, ch.id ≠ i) :
    fired.find? (fun ch => ch.id == i) = none :=
  List.find?_eq_none.2 (fun ch hch => by simpa using h ch hch)

/-- The fired-chip loop of `digits2raw` leaves on every cable exactly the
records (fired frames interleaved with chip-empty records) of that cable's
chips, in chip order. -/
theorem processChipsLoop_data (M : Mapping) (t bc nchTot : Nat) :
    ∀ (fired : List EncChip) (next : Nat) (st : CableState) (c : Nat),
    (∀ ch ∈ fired, next ≤ ch.id ∧ ch.id < nchTot) →
    List.Pairwise (fun x y => x.id < y.id) fired →
    next ≤ nchTot →
    (processChipsLoop M t bc nchTot fired next st).cableData c =
      st.cableData c ++
        (segItems M t fired next (nchTot - next) c).flatMap (cableItemBytes bc) := by
  intro fired
  induction fired with
  | nil =>
    intro next st c _ _ hle
    show (convertEmptyChipsModel M t bc next nchTot st).cableData c = _
    rw [show nchTot = next + (nchTot - next) from by omega]
    rw [convertEmptyChips_data M t bc [] (nchTot - next) next st c
      (fun i _ _ => rfl)]
    rw [show next + (nchTot - next) - next = nchTot - next from by omega]
  | cons ch rest ih =>
    intro next st c hbound hpw hle
    have hch := hbound ch (List.mem_cons_self _ _)
    show (processChipsLoop M t bc nchTot rest (ch.id + 1)
      (convertChipModel M t bc ch (convertEmptyChipsModel M t bc next ch.id st))).cableData c = _
    rw [ih (ch.id + 1) _ c
      (fun x hx => ⟨(List.rel_of_pairwise_cons hpw hx), (hbound x (List.mem_cons_of_mem _ hx)).2⟩)
      (List.Pairwise.of_cons hpw) (by omega)]
    have hseg_shift : segItems M t rest (ch.id + 1) (nchTot - (ch.id + 1)) c =
        segItems M t (ch :: rest) (ch.id + 1) (nchTot - (ch.id + 1)) c := by
      apply segItems_congr
      intro i h1 h2
      rw [itemOf_shift M t ch rest i (by omega)]
    rw [hseg_shift]
    have hmiss1 : ∀ i, next ≤ i → i < next + (ch.id - next) →
        (ch :: rest).find? (fun x => x.id == i) = none := by
      intro i h1 h2
      apply find?_none_of_ids
      intro x hx
      rcases List.mem_cons.1 hx with rfl | hmem
      · omega
      · have := List.rel_of_pairwise_cons hpw hmem
        omega
    have hdata1 : (convertEmptyChipsModel M t bc next ch.id st).cableData =
        fun c2 => st.cableData c2 ++
          (segItems M t (ch :: rest) next (ch.id - next) c2).flatMap
            (cableItemBytes bc) := by
      funext c2
      rw [show ch.id = next + (ch.id - next) from by omega]
      rw [convertEmptyChips_data M t bc (ch :: rest) (ch.id - next) next st c2 hmiss1]
      rw [show next + (ch.id - next) - next = ch.id - next from by omega]
    unfold convertChipModel
    dsimp only
    rw [show nchTot - next = (ch.id - next) + (1 + (nchTot - (ch.id + 1)))
        from by omega]
    unfold segItems
    rw [range'_split next (ch.id - next) (1 + (nchTot - (ch.id + 1))),
        range'_split (next + (ch.id - next)) 1 (nchTot - (ch.id + 1)),
        show next + (ch.id - next) = ch.id from by omega,
        show List.range' ch.id 1 = [ch.id] from rfl, List.singleton_append]
    rw [List.filter_append, List.map_append, List.flatMap_append]
    by_cases hc : (M.getChipOnRUInfo t ch.id).cableSW = c
    · rw [List.filter_cons_of_pos (by simpa using hc), List.map_cons,
          List.flatMap_cons]
      rw [hc, Function.update_same, hdata1]
      dsimp only
      rw [itemOf_head M t ch rest]
      rw [show cableItemBytes bc ((M.getChipOnRUInfo t ch.id).chipOnModuleHW,
        some (ch.hits.insertionSort pixLE)) =
        encodeChipBytes (M.getChipOnRUInfo t ch.id).chipOnModuleHW bc
          (ch.hits.insertionSort pixLE) from rfl]
      unfold segItems
      rw [show ch.id + 1 = next + (ch.id - next) + 1 from by omega]
      simp only [List.append_assoc]
    · rw [List.filter_cons_of_neg (by simpa using hc),
          Function.update_noteq (by omega), hdata1]
      dsimp only
      unfold segItems
      rw [show ch.id + 1 = next + (ch.id - next) + 1 from by omega]
      simp only [List.append_assoc]

theorem processChipsLoop_hwid_neg (M : Mapping) (t bc nchTot : Nat) :
    ∀ (fired : List EncChip) (next : Nat) (st : CableState) (c : Nat),
    (∀ ch ∈ fired, next ≤ ch.id ∧ ch.id < nchTot) →
    List.Pairwise (fun x y => x.id < y.id) fired →
    (∀ i, next ≤ i → i < nchTot → (M.getChipOnRUInfo t i).cableSW ≠ c) →
    (processChipsLoop M t bc nchTot fired next st).cableHWID c = st.cableHWID c := by
  intro fired
  induction fired with
  | nil =>
    intro next st c _ _ hmiss
    show (convertEmptyChipsModel M t bc next nchTot st).cableHWID c = _
    by_cases hle : next ≤ nchTot
    · rw [show nchTot = next + (nchTot - next) from by omega]
      exact convertEmptyChips_hwid_neg M t bc (nchTot - next) next st c
        (fun i h1 h2 => hmiss i h1 (by omega))
    · unfold convertEmptyChipsModel
      rw [show nchTot - next = 0 from by omega]
      rfl
  | cons ch rest ih =>
    intro next st c hbound hpw hmiss
    have hch := hbound ch (List.mem_cons_self _ _)
    show (processChipsLoop M t bc nchTot rest (ch.id + 1)
      (convertChipModel M t bc ch
        (convertEmptyChipsModel M t bc next ch.id st))).cableHWID c = _
    rw [ih (ch.id + 1) _ c
      (fun x hx => ⟨List.rel_of_pairwise_cons hpw hx,
        (hbound x (List.mem_cons_of_mem _ hx)).2⟩)
      (List.Pairwise.of_cons hpw)
      (fun i hi1 hi2 => hmiss i (by omega) hi2)]
    unfold convertChipModel
    dsimp only
    rw [Function.update_noteq (by
      have := hmiss ch.id hch.1 hch.2
      omega)]
    rw [show ch.id = next + (ch.id - next) from by omega]
    exact convertEmptyChips_hwid_neg M t bc (ch.id - next) next st c
      (fun i h1 h2 => hmiss i h1 (by omega))

theorem processChipsLoop_hwid_pos (M : Mapping) (t bc nchTot : Nat) :
    ∀ (fired : List EncChip) (next : Nat) (st : CableState) (c i : Nat),
    (∀ ch ∈ fired, next ≤ ch.id ∧ ch.id < nchTot) →
    List.Pairwise (fun x y => x.id < y.id) fired →
    next ≤ i → i < nchTot → (M.getChipOnRUInfo t i).cableSW = c →
    (∀ j k, j < nchTot → k < nchTot →
      (M.getChipOnRUInfo t j).cableSW = (M.getChipOnRUInfo t k).cableSW →
      (M.getChipOnRUInfo t j).cableHW = (M.getChipOnRUInfo t k).cableHW) →
    (processChipsLoop M t bc nchTot fired next st).cableHWID c =
      (M.getChipOnRUInfo t i).cableHW := by
  intro fired
  induction fired with
  | nil =>
    intro next st c i _ _ h1 h2 hc hcons
    show (convertEmptyChipsModel M t bc next nchTot st).cableHWID c = _
    rw [show nchTot = next + (nchTot - next) from by omega]
    exact convertEmptyChips_hwid_pos M t bc (nchTot - next) next st c i h1
      (by omega) hc
      (fun j k a1 a2 a3 a4 a5 => hcons j k (by omega) (by omega) a5)
  | cons ch rest ih =>
    intro next st c i hbound hpw h1 h2 hc hcons
    have hch := hbound ch (List.mem_cons_self _ _)
    show (processChipsLoop M t bc nchTot rest (ch.id + 1)
      (convertChipModel M t bc ch
        (convertEmptyChipsModel M t bc next ch.id st))).cableHWID c = _
    by_cases hex : ∃ j, ch.id + 1 ≤ j ∧ j < nchTot ∧
        (M.getChipOnRUInfo t j).cableSW = c
    · obtain ⟨j, hj1, hj2, hjc⟩ := hex
      rw [ih (ch.id + 1) _ c j
        (fun x hx => ⟨List.rel_of_pairwise_cons hpw hx,
          (hbound x (List.mem_cons_of_mem _ hx)).2⟩)
        (List.Pairwise.of_cons hpw) hj1 hj2 hjc hcons]
      exact hcons j i hj2 h2 (by rw [hjc, hc])
    · have hile : i ≤ ch.id := by
        by_contra hgt
        exact hex ⟨i, by omega, h2, hc⟩
      rw [processChipsLoop_hwid_neg M t bc nchTot rest (ch.id + 1) _ c
        (fun x hx => ⟨List.rel_of_pairwise_cons hpw hx,
          (hbound x (List.mem_cons_of_mem _ hx)).2⟩)
        (List.Pairwise.of_cons hpw)
        (fun j hj1 hj2 hjc => hex ⟨j, hj1, hj2, hjc⟩)]
      unfold convertChipModel
      dsimp only
      by_cases hcc : (M.getChipOnRUInfo t ch.id).cableSW = c
      · rw [hcc, Function.update_same]
        exact hcons ch.id i hch.2 h2 (by rw [hcc, hc])
      · rw [Function.update_noteq (by omega)]
        have hilt : i < ch.id := by
          rcases Nat.lt_or_ge i ch.id with h | h
          · exact h
          · exact absurd hc (by
              have : i = ch.id := by omega
              rw [this]
              exact hcc)
        rw [show ch.id = next + (ch.id - next) from by omega]
        exact convertEmptyChips_hwid_pos M t bc (ch.id - next) next st c i h1
          (by omega) hc
          (fun j k a1 a2 a3 a4 a5 => hcons j k (by omega) (by omega) a5)

end RawPix

namespace RawPix

/-- The digit stream grouped into chips: each maximal run of digits of one
chip becomes one `(chip, hits)` group (the placement loop of `digits2raw`
opens a chip on the first digit and appends the following digits of the same
chip to it). -/
def groupsOf : List Digit → List (Nat × List (Nat × Nat))
  | [] => []
  | d :: ds =>
    (d.chipIndex, (d.row, d.col) ::
        (ds.takeWhile (fun e => e.chipIndex == d.chipIndex)).map
          (fun e => (e.row, e.col))) ::
      groupsOf (ds.dropWhile (fun e => e.chipIndex == d.chipIndex))
termination_by l => l.length
decreasing_by
  simp only [List.length_cons]
  have := (@List.dropWhile_sublist Digit ds
    (fun e : Digit => e.chipIndex == d.chipIndex)).length_le
  omega

/-- The fired chips `digits2raw` collects for RU `r`: the digit groups of the
chips that live on `r`, keeping the digit order within each chip. -/
def firedSpecOf (M : Mapping) (digits : List Digit) (r : Nat) : List EncChip :=
  ((groupsOf digits).filter (fun gp => (M.getChipInfoSW gp.1).ru == r)).map
    (fun gp => { id := (M.getChipInfoSW gp.1).chOnRU.id, hits := gp.2 })

theorem groupsOf_cons (d : Digit) (ds : List Digit) :
    groupsOf (d :: ds) =
      (d.chipIndex, (d.row, d.col) ::
          (ds.takeWhile (fun e => e.chipIndex == d.chipIndex)).map
            (fun e => (e.row, e.col))) ::
        groupsOf (ds.dropWhile (fun e => e.chipIndex == d.chipIndex)) := by
  rw [groupsOf]

theorem dropWhile_gt : ∀ (ds : List Digit) (g : Nat),
    List.Pairwise (fun a b => a.chipIndex ≤ b.chipIndex) ds →
    (∀ e ∈ ds, g ≤ e.chipIndex) →
    ∀ e ∈ ds.dropWhile (fun x => x.chipIndex == g), g < e.chipIndex
  | [], g, _, _ => by intro e he; exact absurd he (by simp)
  | d :: tl, g, hpw, hge => by
    intro e he
    by_cases hd : d.chipIndex = g
    · rw [List.dropWhile_cons_of_pos (by simpa using hd)] at he
      exact dropWhile_gt tl g (List.Pairwise.of_cons hpw)
        (fun x hx => hge x (List.mem_cons_of_mem _ hx)) e he
    · rw [List.dropWhile_cons_of_neg (by simpa using hd)] at he
      have hdg : g < d.chipIndex := by
        have := hge d (List.mem_cons_self _ _)
        omega
      rcases List.mem_cons.1 he with rfl | hmem
      · exact hdg
      · have := List.rel_of_pairwise_cons hpw hmem
        omega

/-- The digit stream, as chip/row/column triples, is exactly the
concatenation of its groups. -/
theorem groups_flat : ∀ (n : Nat) (digits : List Digit), digits.length ≤ n →
    digits.map (fun d => (d.chipIndex, d.row, d.col)) =
      (groupsOf digits).flatMap (fun gp => gp.2.map (fun h => (gp.1, h.1, h.2)))
  | _, [], _ => by rw [groupsOf]; rfl
  | 0, d :: ds, h => by simp at h
  | n + 1, d :: ds, h => by
    rw [groupsOf_cons, List.flatMap_cons]
    have hsplit := List.takeWhile_append_dropWhile
      (fun e : Digit => e.chipIndex == d.chipIndex) ds
    rw [List.map_cons]
    conv_lhs => rw [← hsplit]
    rw [List.map_append]
    have htw : (ds.takeWhile (fun e => e.chipIndex == d.chipIndex)).map
        (fun e => (e.chipIndex, e.row, e.col)) =
        ((ds.takeWhile (fun e => e.chipIndex == d.chipIndex)).map
          (fun e => (e.row, e.col))).map (fun h => (d.chipIndex, h.1, h.2)) := by
      rw [List.map_map]
      apply List.map_congr_left
      intro e he
      have := List.mem_takeWhile_imp he
      have heq : e.chipIndex = d.chipIndex := by simpa using this
      rw [heq]
      rfl
    rw [htw]
    have hdw := groups_flat n (ds.dropWhile (fun e => e.chipIndex == d.chipIndex))
      (by
        have := (@List.dropWhile_sublist Digit ds
          (fun e : Digit => e.chipIndex == d.chipIndex)).length_le
        simp only [List.length_cons] at h
        omega)
    rw [← hdw, List.map_cons]
    rfl

theorem appendHitLast_concat (l0 : List EncChip) (c : EncChip) (h : Nat × Nat) :
    appendHitLast (l0 ++ [c]) h = l0 ++ [{ c with hits := c.hits ++ [h] }] := by
  unfold appendHitLast
  rw [List.getLast?_concat, List.dropLast_concat]

/-- A run of digits of the currently open chip only appends the hits to that
chip. -/
theorem placeDigits_run (M : Mapping) (lo hi : Nat) :
    ∀ (ds1 ds2 : List Digit) (s : PlaceState) (l0 : List EncChip) (c : EncChip),
    s.fired s.curRU = l0 ++ [c] →
    (∀ d ∈ ds1, d.chipIndex = s.curChipID) →
    placeDigitsLoop M lo hi (ds1 ++ ds2) s =
      placeDigitsLoop M lo hi ds2
        { s with fired := (Function.update s.fired s.curRU
            (l0 ++ [{ c with hits := c.hits ++ ds1.map (fun d => (d.row, d.col)) }])) }
  | [], ds2, s, l0, c => by
    intro h _
    rw [List.nil_append, List.map_nil, List.append_nil]
    rw [show ({ c with hits := c.hits } : EncChip) = c from rfl, ← h,
        Function.update_eq_self]
  | d :: ds1, ds2, s, l0, c => by
    intro h hall
    rw [List.cons_append, placeDigitsLoop,
        if_pos (hall d (List.mem_cons_self _ _))]
    rw [placeDigits_run M lo hi ds1 ds2
      ({ s with fired := (Function.update s.fired s.curRU
        (appendHitLast (s.fired s.curRU) (d.row, d.col))) }) l0
      ({ c with hits := c.hits ++ [(d.row, d.col)] })
      (by
        dsimp only
        rw [Function.update_same, h, appendHitLast_concat])
      (fun e he => by
        dsimp only
        exact hall e (List.mem_cons_of_mem _ he))]
    congr 1
    dsimp only
    rw [Function.update_idem, List.append_assoc, List.singleton_append,
        List.map_cons]

end RawPix

namespace RawPix

/-- The digit-placement loop of `digits2raw` on a chip-sorted digit stream
whose chips all live on RUs of the processed range: each RU collects exactly
its digit groups, in chip order, with the digits of each chip in stream
order. -/
theorem placeDigitsLoop_spec (M : Mapping) (lo hi : Nat) :
    ∀ (n : Nat) (digits : List Digit) (s : PlaceState),
    digits.length ≤ n →
    List.Pairwise (fun a b => a.chipIndex ≤ b.chipIndex) digits →
    (∀ d ∈ digits, lo ≤ (M.getChipInfoSW d.chipIndex).ru ∧
      (M.getChipInfoSW d.chipIndex).ru ≤ hi) →
    (∀ d ∈ digits, d.chipIndex ≠ s.curChipID) →
    (placeDigitsLoop M lo hi digits s).fired =
      fun r => s.fired r ++ firedSpecOf M digits r
  | _, [], s, _, _, _, _ => by
    show s.fired = _
    funext r
    unfold firedSpecOf
    rw [groupsOf]
    simp
  | 0, d :: ds, s, h, _, _, _ => by simp at h
  | n + 1, d :: ds, s, h, hpw, hvalid, hfresh => by
    rw [placeDigitsLoop,
        if_neg (hfresh d (List.mem_cons_self _ _))]
    dsimp only
    rw [if_neg (by
      have := hvalid d (List.mem_cons_self _ _)
      omega)]
    have hsplit := List.takeWhile_append_dropWhile
      (fun e : Digit => e.chipIndex == d.chipIndex) ds
    conv_lhs => rw [← hsplit]
    rw [placeDigits_run M lo hi
      (ds.takeWhile (fun e => e.chipIndex == d.chipIndex))
      (ds.dropWhile (fun e => e.chipIndex == d.chipIndex))
      ({ curChipID := d.chipIndex, curRU := (M.getChipInfoSW d.chipIndex).ru,
         fired := (Function.update s.fired (M.getChipInfoSW d.chipIndex).ru
           (s.fired (M.getChipInfoSW d.chipIndex).ru ++
             [{ id := (M.getChipInfoSW d.chipIndex).chOnRU.id,
                hits := [(d.row, d.col)] }])) })
      (s.fired (M.getChipInfoSW d.chipIndex).ru)
      ({ id := (M.getChipInfoSW d.chipIndex).chOnRU.id, hits := [(d.row, d.col)] })
      (by
        dsimp only
        rw [Function.update_same])
      (fun e he => by
        dsimp only
        have := List.mem_takeWhile_imp he
        simpa using this)]
    have hdwlen : (ds.dropWhile (fun e => e.chipIndex == d.chipIndex)).length ≤ n := by
      have := (@List.dropWhile_sublist Digit ds
        (fun e : Digit => e.chipIndex == d.chipIndex)).length_le
      simp only [List.length_cons] at h
      omega
    have hdwpw : List.Pairwise (fun a b => a.chipIndex ≤ b.chipIndex)
        (ds.dropWhile (fun e => e.chipIndex == d.chipIndex)) :=
      (List.Pairwise.of_cons hpw).sublist (List.dropWhile_sublist _)
    have hgt := dropWhile_gt ds d.chipIndex (List.Pairwise.of_cons hpw)
      (fun e he => List.rel_of_pairwise_cons hpw he)
    rw [placeDigitsLoop_spec M lo hi n
      (ds.dropWhile (fun e => e.chipIndex == d.chipIndex)) _ hdwlen hdwpw
      (fun e he => hvalid e (List.mem_cons_of_mem _
        ((List.dropWhile_sublist _).mem he)))
      (fun e he => by
        dsimp only
        have := hgt e he
        omega)]
    funext r
    dsimp only
    unfold firedSpecOf
    rw [groupsOf_cons]
    by_cases hr : (M.getChipInfoSW d.chipIndex).ru = r
    · rw [List.filter_cons_of_pos (by simpa using hr), List.map_cons]
      rw [hr, Function.update_same]
      dsimp only
      simp only [List.append_assoc, List.singleton_append]
    · rw [List.filter_cons_of_neg (by simpa using hr), Function.update_idem]
      congr 1
      exact Function.update_noteq (fun hc => hr hc.symm) _ _

end RawPix

namespace RawPix

theorem groups_mem : ∀ (n : Nat) (l : List Digit), l.length ≤ n →
    ∀ gp ∈ groupsOf l, ∃ e ∈ l, e.chipIndex = gp.1
  | _, [], _ => by rw [groupsOf]; intro gp hgp; exact absurd hgp (by simp)
  | 0, d :: ds, h => by simp at h
  | n + 1, d :: ds, h => by
    rw [groupsOf_cons]
    intro gp hgp
    rcases List.mem_cons.1 hgp with rfl | hmem
    · exact ⟨d, List.mem_cons_self _ _, rfl⟩
    · have hlen : (ds.dropWhile (fun e => e.chipIndex == d.chipIndex)).length ≤ n := by
        have := (@List.dropWhile_sublist Digit ds
          (fun e : Digit => e.chipIndex == d.chipIndex)).length_le
        simp only [List.length_cons] at h
        omega
      obtain ⟨e, he, heq⟩ := groups_mem n _ hlen gp hmem
      exact ⟨e, List.mem_cons_of_mem _ ((List.dropWhile_sublist _).mem he), heq⟩

theorem groups_fst_pairwise : ∀ (n : Nat) (l : List Digit), l.length ≤ n →
    List.Pairwise (fun a b => a.chipIndex ≤ b.chipIndex) l →
    List.Pairwise (fun a b => a < b) ((groupsOf l).map Prod.fst)
  | _, [], _, _ => by rw [groupsOf]; exact List.Pairwise.nil
  | 0, d :: ds, h, _ => by simp at h
  | n + 1, d :: ds, h, hpw => by
    rw [groupsOf_cons, List.map_cons]
    have hlen : (ds.dropWhile (fun e => e.chipIndex == d.chipIndex)).length ≤ n := by
      have := (@List.dropWhile_sublist Digit ds
        (fun e : Digit => e.chipIndex == d.chipIndex)).length_le
      simp only [List.length_cons] at h
      omega
    have hgt := dropWhile_gt ds d.chipIndex (List.Pairwise.of_cons hpw)
      (fun e he => List.rel_of_pairwise_cons hpw he)
    refine List.Pairwise.cons ?_ (groups_fst_pairwise n _ hlen
      ((List.Pairwise.of_cons hpw).sublist (List.dropWhile_sublist _)))
    intro x hx
    rw [List.mem_map] at hx
    obtain ⟨gp, hgp, rfl⟩ := hx
    obtain ⟨e, he, heq⟩ := groups_mem n _ hlen gp hgp
    rw [← heq]
    exact hgt e he

end RawPix

namespace RawPix

/-- Byte size of the most recently cached page of a page list. -/
def lastMsz (ps : List Page) : Nat :=
  match ps.getLast? with
  | some p => p.rdh.memorySize
  | none => 0

/-- An RU container holding a single cached link. -/
def ruWithLink (M : Mapping) (r lid : Nat) (lk : RULink) : RUDecodeDataRec :=
  { ruInfo := M.getRUInfoSW r,
    links := (Function.update (fun _ => none) lid (some lk)) }

/-- The RU container `cacheLinksData` builds for an RU whose link 0 cached
the patched pages `ps` of one trigger. -/
def ruSlot (M : Mapping) (r : Nat) (ps : List Page) : RUDecodeDataRec :=
  ruWithLink M r 0 ⟨ps.flatMap patchedCells, lastMsz ps, 1, 0⟩

/-- The global-statistics effect of caching a list of pages. -/
def statBump (ds : RawDecodingStat) (ps : List Page) : RawDecodingStat :=
  { ds with
    nBytesProcessed := ds.nBytesProcessed + (ps.map (fun p => p.rdh.memorySize)).sum,
    nPagesProcessed := ds.nPagesProcessed + ps.length }

/-- The per-page RDH facts the cache walk relies on. -/
def pageRDHOK (M : Mapping) (r : Nat) (ir : IR) (p : Page) : Prop :=
  p.rdh.headerSize = RDHSize ∧ p.rdh.zeroFields = 0 ∧
  p.rdh.feeId = M.ruSW2FEEId r 0 ∧ p.rdh.linkID = 0 ∧
  p.rdh.triggerOrbit = ir.orbit ∧ p.rdh.triggerBC = ir.bc ∧
  p.rdh.heartbeatOrbit = ir.orbit ∧ p.rdh.heartbeatBC = ir.bc ∧
  p.rdh.triggerType = trgPhT ∧ p.rdh.offsetToNext = MaxGBTPacketBytes

theorem set_append_len (a : List RUDecodeDataRec) (x y : RUDecodeDataRec) :
    (a ++ [x]).set a.length y = a ++ [y] := by
  induction a with
  | nil => rfl
  | cons h t ih => rw [List.cons_append, List.length_cons, List.set_cons_succ, ih,
      List.cons_append]

theorem getD_append_len (a : List RUDecodeDataRec) (x d : RUDecodeDataRec) :
    (a ++ [x]).getD a.length d = x := by
  rw [List.getD_append_right _ _ _ _ (Nat.le_refl _), Nat.sub_self]
  rfl

theorem get?_append_len (a : List RUDecodeDataRec) (x : RUDecodeDataRec) :
    (a ++ [x]).get? a.length = some x := by
  rw [List.get?_eq_getElem?, List.getElem?_append_right (Nat.le_refl _),
      Nat.sub_self]
  rfl

/-- `cacheLinksData`'s body on the first page of a not-yet-seen RU: a fresh
container and a fresh link are created, the page is cached and one trigger is
counted. -/
theorem cacheBody_first (M : Mapping) (rdh : RDH) (pageCells : List Cell)
    (st : ReaderState)
    (hfresh : st.ruEntry (M.feeId2RUSW rdh.feeId) < 0)
    (hmtc : 2 ≤ st.minTriggersToCache) :
    cacheBody M rdh pageCells st [] =
      ({ st with
          rus := st.rus ++ [ruWithLink M (M.feeId2RUSW rdh.feeId) rdh.linkID
            ⟨pageCells, rdh.memorySize, 1, 0⟩],
          ruEntry := (Function.update st.ruEntry (M.feeId2RUSW rdh.feeId)
            (st.rus.length : Int)),
          nLinks := st.nLinks + 1,
          decodingStat := { st.decodingStat with
            nBytesProcessed := st.decodingStat.nBytesProcessed + rdh.memorySize,
            nPagesProcessed := st.decodingStat.nPagesProcessed + 1 } }, []) := by
  unfold cacheBody
  dsimp only
  rw [show getCreateRU M st (M.feeId2RUSW rdh.feeId) =
    ({ st with rus := st.rus ++ [{ ruInfo := M.getRUInfoSW (M.feeId2RUSW rdh.feeId) }],
               ruEntry := (Function.update st.ruEntry (M.feeId2RUSW rdh.feeId)
                 (st.rus.length : Int)) },
     st.rus.length) from by unfold getCreateRU; rw [if_pos hfresh]]
  (try dsimp only)
  rw [getD_append_len]
  (try dsimp only)
  unfold modifySlot
  (try dsimp only)
  rw [get?_append_len]
  (try dsimp only)
  rw [set_append_len]
  rw [get?_append_len]
  (try dsimp only)
  rw [set_append_len]
  rw [getD_append_len]
  (try dsimp only)
  rw [Function.update_same, Function.update_same]
  rw [if_pos (rfl : true = true)]
  split
  next hcond =>
    exfalso
    obtain ⟨_, hge, _⟩ := hcond
    simp only [Option.getD_some] at hge
    omega
  next =>
    rw [Function.update_idem]
    rfl

end RawPix

namespace RawPix

/-- `cacheLinksData`'s body on a continuation page of an already-cached link
whose last cached RDH continues into the new one: the page is appended to the
link cache and no new trigger is counted. -/
theorem cacheBody_cont (M : Mapping) (rdh : RDH) (pageCells : List Cell)
    (st : ReaderState) (prev : List RUDecodeDataRec) (r : Nat) (lk0 : RULink)
    (hfee : M.feeId2RUSW rdh.feeId = r)
    (hlid : rdh.linkID = 0)
    (hrus : st.rus = prev ++ [ruWithLink M r 0 lk0])
    (hentry : st.ruEntry r = (prev.length : Int))
    (hsame : isSameRUandTrigger
      (readRDH lk0.data (lk0.data.length - lk0.lastPageSize / GBTPaddedWordLength))
      rdh = true) :
    cacheBody M rdh pageCells st [] =
      ({ st with
          rus := prev ++ [ruWithLink M r 0
            ⟨lk0.data ++ pageCells, rdh.memorySize, lk0.nTriggers, lk0.lanes⟩],
          decodingStat := { st.decodingStat with
            nBytesProcessed := st.decodingStat.nBytesProcessed + rdh.memorySize,
            nPagesProcessed := st.decodingStat.nPagesProcessed + 1 } }, []) := by
  unfold cacheBody
  (try dsimp only)
  rw [hfee, hlid]
  rw [show getCreateRU M st r = (st, (st.ruEntry r).toNat) from by
    unfold getCreateRU
    rw [if_neg (by rw [hentry]; omega)]]
  (try dsimp only)
  rw [hentry, Int.toNat_natCast, hrus, getD_append_len]
  rw [show (ruWithLink M r 0 lk0).links 0 = some lk0 from by
    unfold ruWithLink
    dsimp only
    rw [Function.update_same]]
  (try dsimp only)
  rw [hsame]
  unfold modifySlot
  (try dsimp only)
  rw [hrus, get?_append_len]
  (try dsimp only)
  rw [set_append_len, getD_append_len]
  rw [show (ruWithLink M r 0 lk0).links 0 = some lk0 from by
    unfold ruWithLink
    dsimp only
    rw [Function.update_same]]
  simp only [Option.getD_some]
  split
  next hcon => exact absurd hcon (by decide)
  next =>
    rw [Int.add_zero]
    split
    next hcon => exact absurd hcon.1 (by decide)
    next =>
      rw [show (ruWithLink M r 0 lk0).links =
        (Function.update (fun _ => none) 0 (some lk0)) from rfl,
        Function.update_idem]
      rfl

end RawPix

namespace RawPix

theorem pcells_div (lanes : Nat) (last : Bool) (p : Page) (h : pageOK lanes last p) :
    p.rdh.memorySize / GBTPaddedWordLength = p.cells.length := by
  obtain ⟨dws, _, hcont, hmsz, _, _⟩ := h
  rw [page_cells_length, hcont, hmsz, show RDHSize = 64 from rfl,
      show GBTPaddedWordLength = 16 from rfl]
  simp only [List.length_append, List.length_cons, List.length_nil]
  omega

theorem paddedPage_length (lanes : Nat) (last : Bool) (p : Page)
    (h : pageOK lanes last p) :
    (paddedPage p).length = MaxGBTPacketBytes / GBTPaddedWordLength := by
  obtain ⟨dws, _, hcont, hmsz, hle, _⟩ := h
  unfold paddedPage
  rw [List.length_append, List.length_replicate, page_cells_length, hcont, hmsz,
      show RDHSize = 64 from rfl, show GBTPaddedWordLength = 16 from rfl,
      show MaxGBTPacketBytes = 8192 from rfl]
  rw [maxGBTWordsPerPacket_eq] at hle
  simp only [List.length_append, List.length_cons, List.length_nil]
  omega

/-- One iteration of the cache loop positioned at the head of an 8-KB page
block: the page's heuristic passes, its `memorySize` bytes are cached through
the body and the read position advances by the fixed page size. -/
theorem cacheLoop_pageStep (M : Mapping) (p : Page) (done rest : List Cell)
    (st st2 : ReaderState) (fuel lanes : Nat) (last : Bool)
    (hOK : pageOK lanes last p)
    (hheur : isRDHHeuristic p.rdh = true)
    (hoff : p.rdh.offsetToNext = MaxGBTPacketBytes)
    (hbody : cacheBody M p.rdh (patchedCells p) st [] = (st2, []))
    (hnl : st2.nLinks ≠ 0) :
    (rest ≠ [] → cacheLoop M (done ++ (paddedPage p ++ rest)) (fuel + 1)
        done.length st [] =
      cacheLoop M (done ++ (paddedPage p ++ rest)) fuel
        (done.length + MaxGBTPacketBytes / GBTPaddedWordLength) st2 []) ∧
    (rest = [] → cacheLoop M (done ++ (paddedPage p ++ rest)) (fuel + 1)
        done.length st [] =
      finishCache st2 []) := by
  have hread : readRDH (done ++ (paddedPage p ++ rest)) done.length = p.rdh := by
    rw [show done.length = done.length + 0 from by omega, readRDH_shift]
    show readRDH ((Cell.rdhC p.rdh :: (Cell.rdhTail :: Cell.rdhTail :: Cell.rdhTail ::
      p.content.map Cell.gbt) ++ _) ++ rest) 0 = p.rdh
    rfl
  have hcells : patchFirstCell
      (((done ++ (paddedPage p ++ rest)).drop done.length).take
        (p.rdh.memorySize / GBTPaddedWordLength)) p.rdh.memorySize =
      patchedCells p := by
    rw [List.drop_left, pcells_div lanes last p hOK]
    unfold paddedPage
    rw [List.append_assoc, List.take_left]
    rfl
  have hlen : (done ++ (paddedPage p ++ rest)).length =
      done.length + MaxGBTPacketBytes / GBTPaddedWordLength + rest.length := by
    rw [List.length_append, List.length_append,
        paddedPage_length lanes last p hOK]
    omega
  rw [cacheLoop]
  dsimp only
  rw [hread, hheur]
  rw [show (if (true : Bool) = true then some done.length
    else findNextRDHPos (done ++ (paddedPage p ++ rest)) done.length
      ((done ++ (paddedPage p ++ rest)).length - done.length)) = some done.length
    from by rw [if_pos rfl]]
  dsimp only
  rw [hread, hcells, hbody]
  dsimp only
  rw [hoff]
  rw [if_neg (show ¬ (st2.nLinks = ([] : List (Nat × Nat)).length) from by
    simpa using hnl)]
  constructor
  · intro hne
    rw [if_neg (show ¬ (done.length + MaxGBTPacketBytes / GBTPaddedWordLength ≥
        (done ++ (paddedPage p ++ rest)).length) from by
      rw [hlen]
      have : rest.length ≠ 0 := by
        intro hc
        exact hne (List.length_eq_zero.1 hc)
      omega)]
  · intro hnil
    rw [if_pos (show done.length + MaxGBTPacketBytes / GBTPaddedWordLength ≥
        (done ++ (paddedPage p ++ rest)).length from by
      rw [hlen, hnil]
      simp)]

end RawPix

namespace RawPix

/-- Default page used for positional indexing. -/
def dfltPage : Page := { rdh := zeroRDH, content := [] }

theorem statBump_nil (ds : RawDecodingStat) : statBump ds [] = ds := by
  unfold statBump
  simp

theorem statBump_cons (ds : RawDecodingStat) (p : Page) (ps : List Page) :
    statBump ds (p :: ps) =
      statBump { ds with
        nBytesProcessed := ds.nBytesProcessed + p.rdh.memorySize,
        nPagesProcessed := ds.nPagesProcessed + 1 } ps := by
  unfold statBump
  dsimp only
  rw [List.map_cons, List.sum_cons, List.length_cons]
  rw [show ds.nBytesProcessed + (p.rdh.memorySize + (ps.map
    (fun p => p.rdh.memorySize)).sum) = ds.nBytesProcessed + p.rdh.memorySize +
    (ps.map (fun p => p.rdh.memorySize)).sum from by omega]
  rw [show ds.nPagesProcessed + (ps.length + 1) = ds.nPagesProcessed + 1 +
    ps.length from by omega]

theorem paddedPage_ne_nil (p : Page) : paddedPage p ≠ [] := by
  unfold paddedPage Page.cells
  simp

theorem flatMap_padded_ne_nil (p : Page) (ps : List Page) :
    (p :: ps).flatMap paddedPage ≠ [] := by
  rw [List.flatMap_cons]
  have := paddedPage_ne_nil p
  intro hc
  rw [List.append_eq_nil] at hc
  exact this hc.1

theorem ruSlot_eq_ruWithLink (M : Mapping) (r : Nat) (qs : List Page) :
    ruSlot M r qs = ruWithLink M r 0 ⟨qs.flatMap patchedCells, lastMsz qs, 1, 0⟩ :=
  rfl

theorem flatMap_concat_page (qs : List Page) (p : Page) :
    (qs ++ [p]).flatMap patchedCells = qs.flatMap patchedCells ++ patchedCells p := by
  rw [List.flatMap_append, List.flatMap_cons]
  rw [show ([] : List Page).flatMap patchedCells = [] from rfl, List.append_nil]

theorem lastMsz_concat (qs : List Page) (p : Page) :
    lastMsz (qs ++ [p]) = p.rdh.memorySize := by
  unfold lastMsz
  rw [List.getLast?_concat]

/-- The cache loop walking the remaining 8-KB page blocks of the trigger of an
RU whose first pages `qs` are already cached on link 0 of the last container:
every page is appended to that link's cache (patched to its `memorySize`), no
further trigger is counted, and the read position advances page by page. -/
theorem cacheLoop_entryCont (M : Mapping) (ir : IR) (r lanes : Nat)
    (hfee : M.feeId2RUSW (M.ruSW2FEEId r 0) = r) :
    ∀ (ps qs : List Page) (done future : List Cell)
      (prev : List RUDecodeDataRec) (st : ReaderState) (fuel : Nat),
    st.rus = prev ++ [ruSlot M r qs] →
    st.ruEntry r = (prev.length : Int) →
    st.nLinks ≠ 0 →
    qs ≠ [] →
    goodPages lanes (qs ++ ps) →
    (∀ i, i < (qs ++ ps).length →
      ((qs ++ ps).getD i dfltPage).rdh.pageCnt = i) →
    (∀ p ∈ qs ++ ps, pageRDHOK M r ir p) →
    ps.length ≤ fuel →
    (future ≠ [] → cacheLoop M (done ++ (ps.flatMap paddedPage ++ future)) fuel
        done.length st [] =
      cacheLoop M (done ++ (ps.flatMap paddedPage ++ future)) (fuel - ps.length)
        (done.length + (MaxGBTPacketBytes / GBTPaddedWordLength) * ps.length)
        ({ st with
            rus := prev ++ [ruSlot M r (qs ++ ps)],
            decodingStat := statBump st.decodingStat ps }) []) ∧
    (future = [] → ps ≠ [] →
      cacheLoop M (done ++ (ps.flatMap paddedPage ++ future)) fuel
        done.length st [] =
      finishCache ({ st with
          rus := prev ++ [ruSlot M r (qs ++ ps)],
          decodingStat := statBump st.decodingStat ps }) []) := by
  intro ps
  induction ps with
  | nil =>
    intro qs done future prev st fuel hrus hentry hnl hqs hgood hcnt hok hfuel
    constructor
    · intro _
      rw [show fuel - ([] : List Page).length = fuel from by simp,
          show done.length + (MaxGBTPacketBytes / GBTPaddedWordLength) *
            ([] : List Page).length = done.length from by simp,
          List.append_nil, statBump_nil, ← hrus]
    · intro _ hne
      exact absurd rfl hne
  | cons p ps ih =>
    intro qs done future prev st fuel hrus hentry hnl hqs hgood hcnt hok hfuel
    match fuel, hfuel with
    | fuel + 1, hfuel =>
    obtain ⟨qs0, q, hqsplit⟩ : ∃ qs0 q, qs = qs0 ++ [q] := by
      rcases List.eq_nil_or_concat qs with hc | ⟨qs0, q, hc⟩
      · exact absurd hc hqs
      · exact ⟨qs0, q, by rw [hc, List.concat_eq_append]⟩
    have hplen : p.rdh.pageCnt = qs.length := by
      have := hcnt qs.length (by simp)
      rw [List.getD_append_right _ _ _ _ (Nat.le_refl _), Nat.sub_self] at this
      exact this
    have hpOK : ∃ last, pageOK lanes last p :=
      goodPages_mem lanes (qs ++ p :: ps) hgood p
        (List.mem_append.2 (Or.inr (List.mem_cons_self _ _)))
    obtain ⟨lastp, hpOK⟩ := hpOK
    have hqOK : ∃ lq, pageOK lanes lq q :=
      goodPages_mem lanes (qs ++ p :: ps) hgood q
        (List.mem_append.2 (Or.inl (by rw [hqsplit]; simp)))
    obtain ⟨lq, hqOK⟩ := hqOK
    have hpRDH := hok p (List.mem_append.2 (Or.inr (List.mem_cons_self _ _)))
    have hqRDH := hok q (List.mem_append.2 (Or.inl (by rw [hqsplit]; simp)))
    have hsame : isSameRUandTrigger
        (readRDH (qs.flatMap patchedCells)
          ((qs.flatMap patchedCells).length - lastMsz qs / GBTPaddedWordLength))
        p.rdh = true := by
      rw [hqsplit, flatMap_concat_page, lastMsz_concat]
      have hlq : q.rdh.memorySize / GBTPaddedWordLength =
          (patchedCells q).length := by
        rw [pcells_div lanes lq q hqOK, patchedCells_length, page_cells_length]
      rw [hlq, List.length_append,
          show qs0.flatMap patchedCells ++ patchedCells q =
            qs0.flatMap patchedCells ++ patchedCells q from rfl]
      rw [show (qs0.flatMap patchedCells).length + (patchedCells q).length -
        (patchedCells q).length = (qs0.flatMap patchedCells).length + 0 from by
          omega]
      rw [readRDH_shift]
      rw [show readRDH (patchedCells q) 0 = pRdh q from by
        rw [patchedCells_eq]
        rfl]
      unfold isSameRUandTrigger
      show (!((p.rdh.pageCnt == 0) || (p.rdh.feeId != (pRdh q).feeId) ||
        (p.rdh.triggerOrbit != (pRdh q).triggerOrbit) ||
        (p.rdh.triggerBC != (pRdh q).triggerBC) ||
        (p.rdh.heartbeatOrbit != (pRdh q).heartbeatOrbit) ||
        (p.rdh.heartbeatBC != (pRdh q).heartbeatBC) ||
        ((p.rdh.triggerType &&& (pRdh q).triggerType) == 0))) = true
      have hq1 : (pRdh q).feeId = M.ruSW2FEEId r 0 := hqRDH.2.2.1
      have hq2 : (pRdh q).triggerOrbit = ir.orbit := hqRDH.2.2.2.2.1
      have hq3 : (pRdh q).triggerBC = ir.bc := hqRDH.2.2.2.2.2.1
      have hq4 : (pRdh q).heartbeatOrbit = ir.orbit := hqRDH.2.2.2.2.2.2.1
      have hq5 : (pRdh q).heartbeatBC = ir.bc := hqRDH.2.2.2.2.2.2.2.1
      have hq6 : (pRdh q).triggerType = trgPhT := hqRDH.2.2.2.2.2.2.2.2.1
      rw [hplen, hq1, hq2, hq3, hq4, hq5, hq6, hpRDH.2.2.1, hpRDH.2.2.2.2.1,
          hpRDH.2.2.2.2.2.1, hpRDH.2.2.2.2.2.2.1, hpRDH.2.2.2.2.2.2.2.1,
          hpRDH.2.2.2.2.2.2.2.2.1]
      have hqlen : qs.length ≠ 0 := by
        rw [hqsplit]
        simp
      simp [trgPhT, hqlen]
    have hbody := cacheBody_cont M p.rdh (patchedCells p) st prev r
      ⟨qs.flatMap patchedCells, lastMsz qs, 1, 0⟩
      (by rw [hpRDH.2.2.1]; exact hfee)
      hpRDH.2.2.2.1 (by rw [hrus, ruSlot_eq_ruWithLink]) hentry hsame
    have hslot : ruWithLink M r 0
        ⟨(⟨qs.flatMap patchedCells, lastMsz qs, 1, 0⟩ : RULink).data ++
          patchedCells p, p.rdh.memorySize,
          (⟨qs.flatMap patchedCells, lastMsz qs, 1, 0⟩ : RULink).nTriggers,
          (⟨qs.flatMap patchedCells, lastMsz qs, 1, 0⟩ : RULink).lanes⟩ =
        ruSlot M r (qs ++ [p]) := by
      rw [ruSlot_eq_ruWithLink, flatMap_concat_page, lastMsz_concat]
    rw [hslot] at hbody
    have hheurp : isRDHHeuristic p.rdh = true := by
      unfold isRDHHeuristic
      rw [hpRDH.1, hpRDH.2.1]
      rfl
    have hoffp : p.rdh.offsetToNext = MaxGBTPacketBytes :=
      hpRDH.2.2.2.2.2.2.2.2.2
    have hnl2 : ({ st with
        rus := prev ++ [ruSlot M r (qs ++ [p])],
        decodingStat := { st.decodingStat with
          nBytesProcessed := st.decodingStat.nBytesProcessed + p.rdh.memorySize,
          nPagesProcessed := st.decodingStat.nPagesProcessed + 1 } } :
        ReaderState).nLinks ≠ 0 := hnl
    have hbuf : (p :: ps).flatMap paddedPage ++ future =
        paddedPage p ++ (ps.flatMap paddedPage ++ future) := by
      rw [List.flatMap_cons, List.append_assoc]
    have hstep := cacheLoop_pageStep M p done (ps.flatMap paddedPage ++ future)
      st _ fuel lanes lastp hpOK hheurp hoffp hbody hnl2
    have hIH := ih (qs ++ [p]) (done ++ paddedPage p) future prev
      ({ st with
        rus := prev ++ [ruSlot M r (qs ++ [p])],
        decodingStat := { st.decodingStat with
          nBytesProcessed := st.decodingStat.nBytesProcessed + p.rdh.memorySize,
          nPagesProcessed := st.decodingStat.nPagesProcessed + 1 } }) fuel
      rfl hentry hnl (by simp)
      (by rw [List.append_assoc, List.singleton_append]; exact hgood)
      (by rw [List.append_assoc, List.singleton_append]; exact hcnt)
      (by rw [List.append_assoc, List.singleton_append]; exact hok)
      (by simp only [List.length_cons] at hfuel; omega)
    have hdonelen : (done ++ paddedPage p).length =
        done.length + MaxGBTPacketBytes / GBTPaddedWordLength := by
      rw [List.length_append, paddedPage_length lanes lastp p hpOK]
    have hstatc : statBump ({ st.decodingStat with
        nBytesProcessed := st.decodingStat.nBytesProcessed + p.rdh.memorySize,
        nPagesProcessed := st.decodingStat.nPagesProcessed + 1 }) ps =
        statBump st.decodingStat (p :: ps) := (statBump_cons st.decodingStat p ps).symm
    have hqassoc : (qs ++ [p]) ++ ps = qs ++ p :: ps := by
      rw [List.append_assoc, List.singleton_append]
    constructor
    · intro hfut
      have hrestne : ps.flatMap paddedPage ++ future ≠ [] := by
        intro hc
        rw [List.append_eq_nil] at hc
        exact hfut hc.2
      rw [hbuf, hstep.1 hrestne]
      have h1 := hIH.1 hfut
      rw [List.append_assoc] at h1
      rw [hdonelen] at h1
      rw [hstatc, hqassoc] at h1
      rw [h1]
      rw [show MaxGBTPacketBytes / GBTPaddedWordLength = 512 from rfl] at *
      rw [show (p :: ps).length = ps.length + 1 from rfl, Nat.mul_succ]
      rw [show fuel + 1 - (ps.length + 1) = fuel - ps.length from by omega,
          show done.length + 512 + 512 * ps.length =
            done.length + (512 * ps.length + 512) from by omega]
    · intro hfut _
      cases ps with
      | nil =>
        have hrestnil : ([] : List Page).flatMap paddedPage ++ future = [] := by
          rw [hfut]
          rfl
        rw [hbuf, hstep.2 hrestnil, statBump_cons, statBump_nil]
      | cons p2 ps2 =>
        have hrestne : (p2 :: ps2).flatMap paddedPage ++ future ≠ [] := by
          intro hc
          rw [List.append_eq_nil] at hc
          exact flatMap_padded_ne_nil p2 ps2 hc.1
        rw [hbuf, hstep.1 hrestne]
        have h2 := hIH.2 hfut (by simp)
        rw [List.append_assoc] at h2
        rw [hdonelen] at h2
        rw [hstatc, hqassoc] at h2
        rw [h2]

end RawPix

namespace RawPix

theorem ruSlot_single (M : Mapping) (r : Nat) (p : Page) :
    ruSlot M r [p] = ruWithLink M r 0 ⟨patchedCells p, p.rdh.memorySize, 1, 0⟩ := by
  rw [ruSlot_eq_ruWithLink]
  have h1 : ([p] : List Page).flatMap patchedCells = patchedCells p := by
    rw [List.flatMap_cons]
    rw [show ([] : List Page).flatMap patchedCells = [] from rfl, List.append_nil]
  have h2 : lastMsz [p] = p.rdh.memorySize := rfl
  rw [h1, h2]

/-- The cache loop on the whole page train of one not-yet-seen RU: the first
page creates the container and its link (counting one trigger), the following
pages of the trigger are appended, and the position advances past the train. -/
theorem cacheLoop_entryFull (M : Mapping) (ir : IR) (r lanes : Nat)
    (hfee : M.feeId2RUSW (M.ruSW2FEEId r 0) = r)
    (p : Page) (ps : List Page) (done future : List Cell) (st : ReaderState)
    (fuel : Nat)
    (hfresh : st.ruEntry r < 0)
    (hmtc : 2 ≤ st.minTriggersToCache)
    (hgood : goodPages lanes (p :: ps))
    (hcnt : ∀ i, i < (p :: ps).length →
      ((p :: ps).getD i dfltPage).rdh.pageCnt = i)
    (hok : ∀ x ∈ p :: ps, pageRDHOK M r ir x)
    (hfuel : (p :: ps).length ≤ fuel) :
    (future ≠ [] →
      cacheLoop M (done ++ ((p :: ps).flatMap paddedPage ++ future)) fuel
        done.length st [] =
      cacheLoop M (done ++ ((p :: ps).flatMap paddedPage ++ future))
        (fuel - (p :: ps).length)
        (done.length + (MaxGBTPacketBytes / GBTPaddedWordLength) * (p :: ps).length)
        ({ st with
            rus := st.rus ++ [ruSlot M r (p :: ps)],
            ruEntry := (Function.update st.ruEntry r (st.rus.length : Int)),
            nLinks := st.nLinks + 1,
            decodingStat := statBump st.decodingStat (p :: ps) }) []) ∧
    (future = [] →
      cacheLoop M (done ++ ((p :: ps).flatMap paddedPage ++ future)) fuel
        done.length st [] =
      finishCache ({ st with
          rus := st.rus ++ [ruSlot M r (p :: ps)],
          ruEntry := (Function.update st.ruEntry r (st.rus.length : Int)),
          nLinks := st.nLinks + 1,
          decodingStat := statBump st.decodingStat (p :: ps) }) []) := by
  match fuel, hfuel with
  | fuel + 1, hfuel =>
  have hpRDH := hok p (List.mem_cons_self _ _)
  have hpOK : ∃ last, pageOK lanes last p :=
    goodPages_mem lanes (p :: ps) hgood p (List.mem_cons_self _ _)
  obtain ⟨lastp, hpOK⟩ := hpOK
  have hheurp : isRDHHeuristic p.rdh = true := by
    unfold isRDHHeuristic
    rw [hpRDH.1, hpRDH.2.1]
    rfl
  have hoffp : p.rdh.offsetToNext = MaxGBTPacketBytes :=
    hpRDH.2.2.2.2.2.2.2.2.2
  have hbody := cacheBody_first M p.rdh (patchedCells p) st
    (by rw [hpRDH.2.2.1, hfee]; exact hfresh) hmtc
  rw [hpRDH.2.2.1, hfee, hpRDH.2.2.2.1] at hbody
  rw [show ruWithLink M r 0 ⟨patchedCells p, p.rdh.memorySize, 1, 0⟩ =
    ruSlot M r [p] from (ruSlot_single M r p).symm] at hbody
  have hnl1 : ({ st with
      rus := st.rus ++ [ruSlot M r [p]],
      ruEntry := (Function.update st.ruEntry r (st.rus.length : Int)),
      nLinks := st.nLinks + 1,
      decodingStat := { st.decodingStat with
        nBytesProcessed := st.decodingStat.nBytesProcessed + p.rdh.memorySize,
        nPagesProcessed := st.decodingStat.nPagesProcessed + 1 } } :
      ReaderState).nLinks ≠ 0 := by
    dsimp only
    omega
  have hbuf : (p :: ps).flatMap paddedPage ++ future =
      paddedPage p ++ (ps.flatMap paddedPage ++ future) := by
    rw [List.flatMap_cons, List.append_assoc]
  have hstep := cacheLoop_pageStep M p done (ps.flatMap paddedPage ++ future)
    st _ fuel lanes lastp hpOK hheurp hoffp hbody hnl1
  have hcont := cacheLoop_entryCont M ir r lanes hfee ps [p]
    (done ++ paddedPage p) future st.rus
    ({ st with
      rus := st.rus ++ [ruSlot M r [p]],
      ruEntry := (Function.update st.ruEntry r (st.rus.length : Int)),
      nLinks := st.nLinks + 1,
      decodingStat := { st.decodingStat with
        nBytesProcessed := st.decodingStat.nBytesProcessed + p.rdh.memorySize,
        nPagesProcessed := st.decodingStat.nPagesProcessed + 1 } }) fuel
    rfl (by dsimp only; rw [Function.update_same]) hnl1 (by simp)
    (by rw [List.singleton_append]; exact hgood)
    (by rw [List.singleton_append]; exact hcnt)
    (by rw [List.singleton_append]; exact hok)
    (by simp only [List.length_cons] at hfuel; omega)
  have hdonelen : (done ++ paddedPage p).length =
      done.length + MaxGBTPacketBytes / GBTPaddedWordLength := by
    rw [List.length_append, paddedPage_length lanes lastp p hpOK]
  have hstatc : statBump ({ st.decodingStat with
      nBytesProcessed := st.decodingStat.nBytesProcessed + p.rdh.memorySize,
      nPagesProcessed := st.decodingStat.nPagesProcessed + 1 }) ps =
      statBump st.decodingStat (p :: ps) := (statBump_cons st.decodingStat p ps).symm
  have hsingle : ([p] : List Page) ++ ps = p :: ps := by
    rw [List.singleton_append]
  constructor
  · intro hfut
    have hrestne : ps.flatMap paddedPage ++ future ≠ [] := by
      intro hc
      rw [List.append_eq_nil] at hc
      exact hfut hc.2
    rw [hbuf, hstep.1 hrestne]
    have h1 := hcont.1 hfut
    rw [List.append_assoc] at h1
    rw [hdonelen, hstatc, hsingle] at h1
    rw [h1]
    rw [show MaxGBTPacketBytes / GBTPaddedWordLength = 512 from rfl] at *
    rw [show (p :: ps).length = ps.length + 1 from rfl, Nat.mul_succ]
    rw [show fuel + 1 - (ps.length + 1) = fuel - ps.length from by omega,
        show done.length + 512 + 512 * ps.length =
          done.length + (512 * ps.length + 512) from by omega]
  · intro hfut
    cases ps with
    | nil =>
      have hrestnil : ([] : List Page).flatMap paddedPage ++ future = [] := by
        rw [hfut]
        rfl
      rw [hbuf, hstep.2 hrestnil, statBump_cons, statBump_nil]
    | cons p2 ps2 =>
      have hrestne : (p2 :: ps2).flatMap paddedPage ++ future ≠ [] := by
        intro hc
        rw [List.append_eq_nil] at hc
        exact flatMap_padded_ne_nil p2 ps2 hc.1
      rw [hbuf, hstep.1 hrestne]
      have h2 := hcont.2 hfut (by simp)
      rw [List.append_assoc] at h2
      rw [hdonelen, hstatc, hsingle] at h2
      rw [h2]

end RawPix

namespace RawPix

/-- The lane mask `digits2raw` uses for the single link of RU `r`. -/
def lanesOf (M : Mapping) (r : Nat) : Nat :=
  M.getCablesOnRUType (M.getRUInfoSW r).ruType

/-- The flushed byte stream of a list of per-RU page trains. -/
def streamOf (entries : List (Nat × List Page)) : List Cell :=
  entries.flatMap (fun e => e.2.flatMap paddedPage)

/-- Well-formedness of one RU's page train in the stream. -/
def entryOK (M : Mapping) (ir : IR) (e : Nat × List Page) : Prop :=
  e.2 ≠ [] ∧
  M.feeId2RUSW (M.ruSW2FEEId e.1 0) = e.1 ∧
  goodPages (lanesOf M e.1) e.2 ∧
  e.2.map (fun p => p.rdh.pageCnt) = List.range' 0 e.2.length ∧
  (∀ p ∈ e.2, pageRDHOK M e.1 ir p)

theorem cnt_map_to_getD (ps : List Page)
    (h : ps.map (fun p => p.rdh.pageCnt) = List.range' 0 ps.length) :
    ∀ i, i < ps.length → (ps.getD i dfltPage).rdh.pageCnt = i := by
  intro i hi
  have h1 : (ps.map (fun p => p.rdh.pageCnt)).getD i 0 =
      (List.range' 0 ps.length).getD i 0 := by rw [h]
  rw [List.getD_eq_getElem?_getD, List.getElem?_map,
      List.getElem?_eq_getElem hi] at h1
  rw [List.getD_eq_getElem?_getD,
      List.getElem?_eq_getElem (by rw [List.length_range']; exact hi),
      List.getElem_range'] at h1
  simp only [Option.map_some', Option.getD_some] at h1
  rw [List.getD_eq_getElem ps dfltPage hi, h1]
  omega

/-- The RU containers the cache builds, in stream order. -/
def slotsOf (M : Mapping) (entries : List (Nat × List Page)) :
    List RUDecodeDataRec :=
  entries.map (fun e => ruSlot M e.1 e.2)

/-- The accumulated page statistics of the cached stream. -/
def statBumpAll (ds : RawDecodingStat) (entries : List (Nat × List Page)) :
    RawDecodingStat :=
  entries.foldl (fun d e => statBump d e.2) ds

theorem flatMap_padded_length (lanes : Nat) :
    ∀ ps : List Page, goodPages lanes ps →
    (ps.flatMap paddedPage).length =
      (MaxGBTPacketBytes / GBTPaddedWordLength) * ps.length
  | [], _ => rfl
  | p :: ps, hgood => by
    rw [List.flatMap_cons, List.length_append,
        paddedPage_length lanes ps.isEmpty p hgood.1,
        flatMap_padded_length lanes ps hgood.2, List.length_cons,
        show MaxGBTPacketBytes / GBTPaddedWordLength = 512 from rfl,
        Nat.mul_succ]
    omega

/-- `cacheLinksData`'s loop over the whole flushed stream of several RUs'
page trains: a container per RU is appended in stream order, each holding its
trigger's patched pages on link 0 with one cached trigger, and the loop ends
in the epilogue. -/
theorem cacheLoop_entries (M : Mapping) (ir : IR) :
    ∀ (entries : List (Nat × List Page)) (done : List Cell) (st : ReaderState)
      (fuel : Nat),
    (∀ e ∈ entries, entryOK M ir e) →
    (∀ e ∈ entries, st.ruEntry e.1 < 0) →
    List.Pairwise (fun a b => a.1 ≠ b.1) entries →
    2 ≤ st.minTriggersToCache →
    entries ≠ [] →
    (entries.map (fun e => e.2.length)).sum ≤ fuel →
    ∃ re, cacheLoop M (done ++ streamOf entries) fuel done.length st [] =
      finishCache ({ st with
          rus := st.rus ++ slotsOf M entries,
          ruEntry := re,
          nLinks := st.nLinks + entries.length,
          decodingStat := statBumpAll st.decodingStat entries }) [] := by
  intro entries
  induction entries with
  | nil => intro _ _ _ _ _ _ _ hne; exact absurd rfl hne
  | cons e rest ih =>
    intro done st fuel hok hfreshAll hpw hmtc _ hfuel
    obtain ⟨r, ps⟩ := e
    obtain ⟨hne, hfee, hgood, hcnt, hRDHok⟩ := hok (r, ps) (List.mem_cons_self _ _)
    obtain ⟨p, ps', rfl⟩ : ∃ p ps', ps = p :: ps' := by
      cases ps with
      | nil => exact absurd rfl hne
      | cons p ps' => exact ⟨p, ps', rfl⟩
    have hstream : streamOf ((r, p :: ps') :: rest) =
        (p :: ps').flatMap paddedPage ++ streamOf rest := by
      unfold streamOf
      rw [List.flatMap_cons]
    have hfull := cacheLoop_entryFull M ir r (lanesOf M r) hfee p ps' done
      (streamOf rest) st fuel (hfreshAll (r, p :: ps') (List.mem_cons_self _ _))
      hmtc hgood (cnt_map_to_getD _ hcnt) hRDHok
      (by
        rw [List.map_cons, List.sum_cons] at hfuel
        dsimp only at hfuel
        omega)
    cases rest with
    | nil =>
      refine ⟨(Function.update st.ruEntry r (st.rus.length : Int)), ?_⟩
      rw [hstream, hfull.2 rfl]
      rfl
    | cons e2 rest2 =>
      obtain ⟨r2, ps2⟩ := e2
      have hne2 : (r2, ps2).2 ≠ [] :=
        (hok (r2, ps2) (List.mem_cons_of_mem _ (List.mem_cons_self _ _))).1
      obtain ⟨p2, ps2', rfl⟩ : ∃ p2 ps2', ps2 = p2 :: ps2' := by
        cases ps2 with
        | nil => exact absurd rfl hne2
        | cons p2 ps2' => exact ⟨p2, ps2', rfl⟩
      have hfutne : streamOf ((r2, p2 :: ps2') :: rest2) ≠ [] := by
        unfold streamOf
        rw [List.flatMap_cons]
        intro hc
        rw [List.append_eq_nil] at hc
        exact flatMap_padded_ne_nil p2 ps2' hc.1
      rw [hstream]
      rw [hfull.1 hfutne]
      have hihAp := ih (done ++ (p :: ps').flatMap paddedPage)
        ({ st with
            rus := st.rus ++ [ruSlot M r (p :: ps')],
            ruEntry := (Function.update st.ruEntry r (st.rus.length : Int)),
            nLinks := st.nLinks + 1,
            decodingStat := statBump st.decodingStat (p :: ps') })
        (fuel - (p :: ps').length)
        (fun e2 he2 => hok e2 (List.mem_cons_of_mem _ he2))
        (fun e2 he2 => by
          dsimp only
          rw [Function.update_noteq
            (fun hc => (List.rel_of_pairwise_cons hpw he2) hc.symm)]
          exact hfreshAll e2 (List.mem_cons_of_mem _ he2))
        (List.Pairwise.of_cons hpw) hmtc (by simp)
        (by
          rw [List.map_cons, List.sum_cons] at hfuel
          simp only [List.length_cons] at *
          omega)
      obtain ⟨re, hre⟩ := hihAp
      rw [List.append_assoc] at hre
      rw [show (done ++ (p :: ps').flatMap paddedPage).length =
        done.length + (MaxGBTPacketBytes / GBTPaddedWordLength) *
          (p :: ps').length from by
        rw [List.length_append, flatMap_padded_length (lanesOf M r) _ hgood]] at hre
      refine ⟨re, ?_⟩
      rw [hre]
      unfold slotsOf statBumpAll
      rw [List.map_cons, List.foldl_cons]
      dsimp only
      rw [List.append_assoc, List.singleton_append]
      rw [show st.nLinks + 1 + ((r2, p2 :: ps2') :: rest2).length =
        st.nLinks + ((r, p :: ps') :: (r2, p2 :: ps2') :: rest2).length from by
          simp only [List.length_cons]
          omega]
      rfl

end RawPix

namespace RawPix

theorem ruSlot_links_one (M : Mapping) (r : Nat) (ps : List Page) (il : Nat) :
    (ruSlot M r ps).links il =
      if il = 0 then some ⟨ps.flatMap patchedCells, lastMsz ps, 1, 0⟩ else none := by
  rw [ruSlot_eq_ruWithLink]
  unfold ruWithLink
  dsimp only
  by_cases h : il = 0
  · rw [if_pos h, h, Function.update_same]
  · rw [if_neg h, Function.update_noteq h]

theorem minScan_slot (M : Mapping) (r : Nat) (ps : List Page) (m : Int)
    (hm : 1 ≤ m) :
    (List.range MaxLinksPerRU).foldl (fun m il =>
      match (ruSlot M r ps).links il with
      | some lk => if lk.nTriggers < m then lk.nTriggers else m
      | none => m) m = 1 := by
  rw [show List.range MaxLinksPerRU = [0, 1, 2] from rfl]
  rw [List.foldl_cons, List.foldl_cons, List.foldl_cons, List.foldl_nil]
  rw [ruSlot_links_one, ruSlot_links_one, ruSlot_links_one]
  rw [if_pos rfl, if_neg (by omega), if_neg (by omega)]
  dsimp only
  by_cases h1 : (1 : Int) < m
  · rw [if_pos h1]
  · rw [if_neg h1]
    omega

theorem minScan_entries (M : Mapping) : ∀ (entries : List (Nat × List Page))
    (m : Int), 1 ≤ m →
    (slotsOf M entries).foldl (fun m ru =>
      (List.range MaxLinksPerRU).foldl (fun m il =>
        match ru.links il with
        | some lk => if lk.nTriggers < m then lk.nTriggers else m
        | none => m) m) m = if entries.isEmpty then m else 1
  | [], m, _ => by rw [show slotsOf M [] = [] from rfl]; rfl
  | e :: rest, m, hm => by
    unfold slotsOf
    rw [List.map_cons, List.foldl_cons]
    rw [minScan_slot M e.1 e.2 m hm]
    have := minScan_entries M rest 1 (by omega)
    unfold slotsOf at this
    rw [this]
    by_cases h : rest.isEmpty
    · rw [if_pos h]
      rfl
    · rw [if_neg h]
      rfl

theorem sum_le_stream_length (M : Mapping) (ir : IR) :
    ∀ entries : List (Nat × List Page), (∀ e ∈ entries, entryOK M ir e) →
    (entries.map (fun e => e.2.length)).sum ≤ (streamOf entries).length
  | [], _ => by rw [show streamOf [] = [] from rfl]; simp
  | e :: rest, hok => by
    unfold streamOf
    rw [List.map_cons, List.sum_cons, List.flatMap_cons, List.length_append]
    have h1 : e.2.length ≤ (e.2.flatMap paddedPage).length := by
      rw [flatMap_padded_length (lanesOf M e.1) e.2
        (hok e (List.mem_cons_self _ _)).2.2.1]
      rw [show MaxGBTPacketBytes / GBTPaddedWordLength = 512 from rfl]
      omega
    have h2 := sum_le_stream_length M ir rest
      (fun x hx => hok x (List.mem_cons_of_mem _ hx))
    unfold streamOf at h2
    omega

end RawPix

namespace RawPix

/-- `cacheLinksData` on the full flushed stream of several RUs' single-trigger
page trains: one container per RU in stream order, each caching its patched
pages on link 0 with one trigger, and `minTriggersCached = 1`. -/
theorem cacheLinksData_entries (M : Mapping) (ir : IR)
    (entries : List (Nat × List Page))
    (hok : ∀ e ∈ entries, entryOK M ir e)
    (hpw : List.Pairwise (fun a b => a.1 ≠ b.1) entries)
    (hne : entries ≠ []) :
    ∃ re, cacheLinksDataModel M {} (streamOf entries) =
      { rus := slotsOf M entries,
        ruEntry := re,
        nLinks := entries.length,
        minTriggersCached := 1,
        minTriggersToCache := (NCRUPagesPerSuperpage : Int) + 10,
        decodingStat := statBumpAll {} entries,
        ir := {}, irHB := {}, trigger := 0 } := by
  obtain ⟨e, rest, rfl⟩ : ∃ e rest, entries = e :: rest := by
    cases entries with
    | nil => exact absurd rfl hne
    | cons e rest => exact ⟨e, rest, rfl⟩
  obtain ⟨p, ps, hps⟩ : ∃ p ps, e.2 = p :: ps := by
    have := (hok e (List.mem_cons_self _ _)).1
    cases he : e.2 with
    | nil => exact absurd he this
    | cons p ps => exact ⟨p, ps, rfl⟩
  have hsne : streamOf (e :: rest) ≠ [] := by
    unfold streamOf
    rw [List.flatMap_cons, hps]
    intro hc
    rw [List.append_eq_nil] at hc
    exact flatMap_padded_ne_nil p ps hc.1
  have hentries := cacheLoop_entries M ir (e :: rest) [] {}
    ((streamOf (e :: rest)).length + 1) hok
    (fun x hx => by
      show (-1 : Int) < 0
      omega)
    hpw (by
      show (2 : Int) ≤ (NCRUPagesPerSuperpage : Int) + 10
      norm_num [NCRUPagesPerSuperpage]) hne
    (by
      have := sum_le_stream_length M ir (e :: rest) hok
      omega)
  obtain ⟨re, hre⟩ := hentries
  rw [List.nil_append] at hre
  refine ⟨re, ?_⟩
  unfold cacheLinksDataModel
  rw [if_neg (show ¬ ((streamOf (e :: rest)).isEmpty = true) from by
    rw [List.isEmpty_iff]
    exact hsne)]
  rw [show ([] : List Cell).length = 0 from rfl] at hre
  rw [hre]
  unfold finishCache
  rw [if_neg (show ¬ (({} : ReaderState).nLinks + (e :: rest).length =
      ([] : List (Nat × Nat)).length) from by
    show ¬ (0 + (e :: rest).length = 0)
    simp)]
  dsimp only
  have hmin := minScan_entries M (e :: rest) intMax (by norm_num [intMax])
  rw [show ((e :: rest) : List (Nat × List Page)).isEmpty = false from rfl] at hmin
  rw [if_neg (by simp)] at hmin
  rw [show ([] : List RUDecodeDataRec) ++ slotsOf M (e :: rest) =
    slotsOf M (e :: rest) from List.nil_append _] at *
  rw [hmin, Nat.zero_add]

end RawPix

namespace RawPix

/-- The RU container right after `decodeNextRUData` consumed the cached pages
of the trigger and before the ALPIDE payload decoding: the cable buffers hold
the routed bytes of the emitted data words, the link cache is drained, the
statistics went through the end-of-trigger checks. -/
def slotAfterPages (M : Mapping) (r : Nat) (ps : List Page) :
    RUDecodeDataRec :=
  { cableData := fun c =>
      routedBytes M (M.getRUInfoSW r).ruType c (ps.flatMap pageData),
    cableHWID := fun c =>
      (hwOf M (M.getRUInfoSW r).ruType c (ps.flatMap pageData)).getD 0,
    chipsData := [],
    links := (Function.update (ruSlot M r ps).links 0
      (some ⟨[], lastMsz ps, 0, 0⟩)),
    statistics := (endOfTriggerChecks
      { lanesActive := lanesOf M r, lanesStop := lanesOf M r, lanesTimeOut := 0,
        lanesWithData := maskOfW M (M.getRUInfoSW r).ruType (ps.flatMap pageData),
        nPackets := 1,
        errorCounts := {}, packetStates := [] } trgPhT (1 <<< PacketDone)),
    nCables := (M.getRUInfoSW r).nCables,
    lastChipChecked := 0,
    ruInfo := M.getRUInfoSW r }

theorem finalize_links (lanes : Nat) (ru : RUDecodeDataRec) :
    (finalize lanes ru).links = ru.links := rfl

theorem pageSeed_links (lanes pc0 : Nat) (ru : RUDecodeDataRec) :
    (pageSeed lanes pc0 ru).links = ru.links := by
  unfold pageSeed
  split <;> rfl

theorem finalize_nCables (lanes : Nat) (ru : RUDecodeDataRec) :
    (finalize lanes ru).nCables = ru.nCables := rfl

theorem pageSeed_nCables (lanes pc0 : Nat) (ru : RUDecodeDataRec) :
    (pageSeed lanes pc0 ru).nCables = ru.nCables := by
  unfold pageSeed
  split <;> rfl

theorem clearTrigger_ruSlot (M : Mapping) (r : Nat) (ps : List Page) :
    clearTriggerModel (ruSlot M r ps) = ruSlot M r ps := by
  unfold clearTriggerModel
  rw [show (fun i => if i < (ruSlot M r ps).nCables then []
      else (ruSlot M r ps).cableData i) = (ruSlot M r ps).cableData from
    funext fun i => by
      rw [show (ruSlot M r ps).nCables = 0 from rfl,
          if_neg (Nat.not_lt_zero i)]]
  rfl

set_option maxHeartbeats 2000000 in
/-- `decodeNextRUData` on a cached container: the single link's page train is
decoded (consuming the cache, leaving zero triggers), then the ALPIDE payload
of the collected cable data. -/
theorem decodeNextRUData_slot (M : Mapping) (ir : IR) (ir0 : IR) (trg r : Nat)
    (p : Page) (ps : List Page) (gStat : RawDecodingStat)
    (hfee : M.feeId2RUSW (M.ruSW2FEEId r 0) = r)
    (hlanes : lanesOf M r ≠ 0)
    (hnC : (M.getRUInfoSW r).nCables ≠ 0)
    (hgood : goodPages (lanesOf M r) (p :: ps))
    (hcnt : (p :: ps).map (fun q => q.rdh.pageCnt) =
      List.range' 0 (p :: ps).length)
    (hok : ∀ x ∈ p :: ps, pageRDHOK M r ir x) :
    decodeNextRUDataModel M (ruSlot M r (p :: ps)) gStat ir0 trg =
      ((decodeAlpideDataModel M ir0 trg (slotAfterPages M r (p :: ps)) gStat).1,
       (decodeAlpideDataModel M ir0 trg (slotAfterPages M r (p :: ps)) gStat).2,
       1) := by
  have hpRDH := hok p (List.mem_cons_self _ _)
  have hheur : isRDHHeuristic p.rdh = true := by
    unfold isRDHHeuristic
    rw [hpRDH.1, hpRDH.2.1]
    rfl
  unfold decodeNextRUDataModel
  dsimp only
  rw [clearTrigger_ruSlot]
  rw [show List.range MaxLinksPerRU = [0, 1, 2] from rfl]
  rw [List.foldl_cons, List.foldl_cons, List.foldl_cons, List.foldl_nil]
  dsimp only
  rw [ruSlot_links_one M r (p :: ps) 0, if_pos rfl]
  dsimp only
  rw [show (((p :: ps).flatMap patchedCells).isEmpty) = false from by
    rw [List.isEmpty_eq_false]
    intro hc
    rw [List.flatMap_cons, List.append_eq_nil] at hc
    have : patchedCells p ≠ [] := by
      rw [patchedCells_eq]
      simp
    exact this hc.1]
  rw [if_neg (show ¬ (false = true) from by decide)]
  rw [show (ruSlot M r (p :: ps)).ruInfo = M.getRUInfoSW r from rfl]
  have hdec := decodeRUDataModel_pages M (M.getRUInfoSW r) (lanesOf M r)
    (M.ruSW2FEEId r 0) ir.orbit ir.bc ir.orbit ir.bc hlanes p ps
    (ruSlot M r (p :: ps)) hgood hcnt
    (fun q hq => by
      have h := hok q hq
      exact ⟨h.2.2.1, h.2.2.2.2.1, h.2.2.2.2.2.1, h.2.2.2.2.2.2.1,
        h.2.2.2.2.2.2.2.1, h.2.2.2.2.2.2.2.2.1⟩)
    hheur rfl
  rw [hdec]
  dsimp only
  rw [List.drop_length]
  rw [show (1 : Int) - 1 = 0 from by norm_num]
  rw [decodeWordsEffect_spec M (M.getRUInfoSW r).ruType ((p :: ps).flatMap pageData)]
  rw [Function.update_noteq (show (1 : Nat) ≠ 0 from by decide)]
  rw [finalize_links, pageSeed_links]
  dsimp only
  rw [ruSlot_links_one M r (p :: ps) 1, if_neg (show ¬ (1 = 0) from by decide)]
  dsimp only
  rw [Function.update_noteq (show (2 : Nat) ≠ 0 from by decide)]
  rw [ruSlot_links_one M r (p :: ps) 2, if_neg (show ¬ (2 = 0) from by decide)]
  dsimp only
  rw [finalize_nCables, pageSeed_nCables]
  dsimp only
  rw [if_pos hnC]
  refine congrArg (fun s => ((decodeAlpideDataModel M ir0 trg s gStat).1,
    (decodeAlpideDataModel M ir0 trg s gStat).2, 1)) ?_
  unfold slotAfterPages
  congr 1
  refine congrArg (fun st => endOfTriggerChecks st trgPhT (1 <<< PacketDone)) ?_
  dsimp only
  congr 1
  exact Nat.zero_or _
  rfl

end RawPix
